import Mathlib

/-!
# pkgchkxx: the summary reader and the check engine

A shallow embedding of `src/summary.cxx` (`read_summary`) and `src/check.cxx`
(`latest_pkgnames_from_source`, `check_result`, `check_installed_packages`)
together with the properties of their behaviour.

Conventions of the embedding:

* `std::string` / `std::string_view` is `List Char`;
* `std::set<T>` is the list of its elements in ascending order, `std::map<K, T>`
  the list of its entries in ascending key order;
* a function with effects returns the list of effects it performs (messages,
  `make` invocations, calls of the mutators of `check_result`) next to its
  result, and a function that may throw returns an `Except`.
-/

set_option linter.unusedSectionVars false

namespace pkgchkxx

/-! ## Strings -/

/-- The type of `std::string` and `std::string_view` values. -/
abbrev Str := List Char

/-- The member `std::string::find(char)`: position of the first occurrence of `c`,
`none` standing for `npos`. -/
def find : Str → Char → Option Nat
  | [], _ => none
  | x :: xs, c => if x = c then some 0 else (find xs c).map (· + 1)

/-- The member `std::string_view::substr(pos, n)`. -/
def substr (s : Str) (pos n : Nat) : Str := (s.drop pos).take n

/-- The member `std::string_view::substr(pos)`. -/
def substr_from (s : Str) (pos : Nat) : Str := s.drop pos

/-- The lines that successive calls of `std::getline(in, line)` deliver until the
call fails: the stream is cut at every newline, and the characters after the last
newline form a final line only when there are any. `cur` holds the characters of
the line being read, most recent first. -/
def getlines_from (cur : Str) : Str → List Str
  | [] => if cur = [] then [] else [cur.reverse]
  | c :: cs => if c = '\n' then cur.reverse :: getlines_from [] cs
               else getlines_from (c :: cur) cs

/-- The lines of an input stream as `for (std::string line; std::getline(in, line); )`
sees them. -/
def getlines (input : Str) : List Str := getlines_from [] input

/-! ## Ordered containers -/

section containers
variable {α κ β : Type} [LinearOrder α] [LinearOrder κ]

/-- The member `std::set<T>::insert`: the element is put at its place in the order
unless an equal one is there. -/
def set_insert (x : α) : List α → List α
  | [] => [x]
  | y :: ys =>
    if x < y then x :: y :: ys
    else if y < x then y :: set_insert x ys
    else y :: ys

/-- The member `std::set<T>::lower_bound`: the first element that is not less than
`k`, `none` standing for `end()`. -/
def lower_bound (k : α) (s : List α) : Option α :=
  s.find? (fun e => !decide (e < k))

/-- The member `std::map<K, T>::find`, `none` standing for `end()`. -/
def map_find (k : κ) : List (κ × β) → Option β
  | [] => none
  | e :: m => if e.1 = k then some e.2 else map_find k m

/-- The member `std::map<K, T>::emplace`: a new entry is put at its place in the key
order; an entry that has the key already is left as it is. -/
def map_emplace (k : κ) (v : β) : List (κ × β) → List (κ × β)
  | [] => [(k, v)]
  | e :: m =>
    if k < e.1 then (k, v) :: e :: m
    else if e.1 < k then e :: map_emplace k v m
    else e :: m

/-- The member `std::map<K, T>::insert_or_assign`: as `emplace`, but the value of an
entry that has the key already is overwritten. -/
def map_insert_or_assign (k : κ) (v : β) : List (κ × β) → List (κ × β)
  | [] => [(k, v)]
  | e :: m =>
    if k < e.1 then (k, v) :: e :: m
    else if e.1 < k then e :: map_insert_or_assign k v m
    else (e.1, v) :: m

end containers

/-! ## The summary reader (`src/summary.cxx`) -/

/-- The record `pkgvars` of one package of a summary. -/
structure pkgvars (N P D : Type) where
  DEPENDS : List D
  PKGNAME : N
  PKGPATH : P
deriving DecidableEq, Repr

/-- The type `summary`, a `std::map<pkgname, pkgvars>`. -/
abbrev summary (N P D : Type) := List (N × pkgvars N P D)

/-- The local variables of `read_summary`: the summary under construction and the
three variables of the record being accumulated. -/
structure read_state (N P D : Type) where
  sum : summary N P D
  DEPENDS : List D
  PKGNAME : Option N
  PKGPATH : Option P
deriving DecidableEq, Repr

section read_summary
variable {N P D : Type} [LinearOrder N]
variable (mkname : Str → N) (mkpath : Str → P) (mkpattern : Str → D)

/-- The variables of `read_summary` before the first line is read. -/
def read_init : read_state N P D :=
  { sum := [], DEPENDS := [], PKGNAME := none, PKGPATH := none }

/-- The body of the loop of `read_summary`, run on one line. The constructors of
`pkgname`, `pkgpath` and `pkgpattern` from a `std::string_view` are declared outside
the files at hand and are the parameters `mkname`, `mkpath` and `mkpattern`. -/
def read_line (st : read_state N P D) (line : Str) : read_state N P D :=
  if line = [] then
    { sum :=
        match st.PKGNAME, st.PKGPATH with
        | some n, some p =>
          map_emplace n { DEPENDS := st.DEPENDS, PKGNAME := n, PKGPATH := p } st.sum
        | _, _ => st.sum
      DEPENDS := []
      PKGNAME := none
      PKGPATH := none }
  else
    match find line '=' with
    | some equal =>
      let var := substr line 0 equal
      let value := if equal + 1 < line.length then substr_from line (equal + 1) else []
      if var = "DEPENDS".toList then
        { st with DEPENDS := st.DEPENDS ++ [mkpattern value] }
      else if var = "PKGNAME".toList then
        { st with PKGNAME := some (mkname value) }
      else if var = "PKGPATH".toList then
        { st with PKGPATH := some (mkpath value) }
      else st
    | none => st

/-- The variables of `read_summary` after the lines `ls` have been read, starting
from `st`. -/
def read_lines (st : read_state N P D) (ls : List Str) : read_state N P D :=
  ls.foldl (read_line mkname mkpath mkpattern) st

/-- The function `read_summary` of `src/summary.cxx`. -/
def read_summary (input : Str) : summary N P D :=
  (read_lines mkname mkpath mkpattern read_init (getlines input)).sum

/-! ### The format of a summary, in the words of its description -/

/-- The variable of a line: the text before its first `=`, for a line that has one. -/
def line_variable (line : Str) : Option Str :=
  if '=' ∈ line then some (line.takeWhile (fun c => c != '=')) else none

/-- The value of a line: all the text after its first `=`. -/
def line_value (line : Str) : Str :=
  (line.dropWhile (fun c => c != '=')).drop 1

/-- The values of the lines of `block` whose variable is `var`, in order of
appearance. -/
def block_values (var : Str) (block : List Str) : List Str :=
  (block.filter (fun l => decide (line_variable l = some var))).map line_value

/-- The record of a block: it has one when the block sets both PKGNAME and PKGPATH;
PKGNAME and PKGPATH are then read from the last line that sets each, and DEPENDS from
all the DEPENDS lines. -/
def block_record (block : List Str) : Option (pkgvars N P D) :=
  match (block_values "PKGNAME".toList block).getLast?,
      (block_values "PKGPATH".toList block).getLast? with
  | some n, some p =>
    some { DEPENDS := (block_values "DEPENDS".toList block).map mkpattern
           PKGNAME := mkname n
           PKGPATH := mkpath p }
  | _, _ => none

/-- The summary `m` with the record of `block`, if it has one, added under its PKGNAME
unless that PKGNAME has an entry already. -/
def add_block (m : summary N P D) (block : List Str) : summary N P D :=
  match block_record mkname mkpath mkpattern block with
  | some r => map_emplace r.PKGNAME r m
  | none => m

end read_summary

/-- The blocks of a sequence of lines: the runs of lines that the blank lines
separate. `cur` holds the lines of the block being gathered. The last block is the
run after the last blank line; every other block is followed by a blank line. -/
def blocks_from (cur : List Str) : List Str → List (List Str)
  | [] => [cur]
  | l :: ls => if l = [] then cur :: blocks_from [] ls else blocks_from (cur ++ [l]) ls

/-- The blocks of a sequence of lines. -/
def blocks (ls : List Str) : List (List Str) := blocks_from [] ls

/-- The blocks of a sequence of lines that are followed by a blank line. -/
def terminated_blocks (ls : List Str) : List (List Str) := (blocks ls).dropLast

/-- Whether a block contains a line whose variable is `var`. -/
def has_variable (var : Str) (block : List Str) : Bool :=
  block.any (fun l => decide (line_variable l = some var))

/-- Whether a block contains both a PKGNAME line and a PKGPATH line. -/
def sets_both (block : List Str) : Bool :=
  has_variable "PKGNAME".toList block && has_variable "PKGPATH".toList block

/-- The stream made of the given lines, each followed by a newline. -/
def unlines : List Str → Str
  | [] => []
  | l :: ls => l ++ '\n' :: unlines ls

/-- The lines up to and including the last blank line. -/
def upto_last_blank (ls : List Str) : List Str :=
  (ls.reverse.dropWhile (fun l => decide (l ≠ []))).reverse

/-- The variables of `read_summary` when a record begins: the summary `m` built so
far and nothing accumulated. -/
def read_reset {N P D : Type} (m : summary N P D) : read_state N P D :=
  { sum := m, DEPENDS := [], PKGNAME := none, PKGPATH := none }

/-! ## Package names (`pkgxx/pkgname.hxx`, declared outside the files at hand) -/

/-- The type `pkgbase`, a string. -/
abbrev pkgbase := Str

/-- Modelled from the spec: `pkgname.hxx` is not among the files at hand. A `pkgname`
is the pair of a base and a version; the code reads the members `base` and `version`
and builds one with `pkgname(base, version)`. The type of versions is the parameter
`V`, which carries the total order of versions. -/
structure pkgname (V : Type) where
  base : pkgbase
  version : V
deriving DecidableEq, Repr

/-- The pair a `pkgname` is compared by: first the base, then the version. -/
def pkgname.key {V : Type} (n : pkgname V) : Lex (pkgbase × V) :=
  toLex (n.base, n.version)

/-- Modelled from the spec: the order of `pkgname`, whose `operator<` is declared in
`pkgname.hxx`: names are ordered first by base, then by version. -/
instance pkgname.instLinearOrder {V : Type} [LinearOrder V] : LinearOrder (pkgname V) :=
  LinearOrder.lift' pkgname.key (by
    intro a b h
    cases a
    cases b
    simp only [pkgname.key, EmbeddingLike.apply_eq_iff_eq, Prod.mk.injEq] at h
    obtain ⟨h1, h2⟩ := h
    subst h1
    subst h2
    rfl)

/-! ## The check engine (`src/check.cxx`) -/

/-- The members of `options` (declared in `options.hxx`) that `check.cxx` reads. -/
structure options where
  add_missing : Bool
  build_from_source : Bool
  check_build_version : Bool
  delete_mismatched : Bool
  print_pkgpaths_to_check : Bool
  update : Bool
deriving DecidableEq, Repr

/-- One item written to an output stream with `<<`. The text that `operator<<` gives
a `pkgpath` or a `pkgname` is fixed outside the files at hand, so a message is kept
as the sequence of the items written; `file` is a `std::filesystem::path`. -/
inductive fragment (V P : Type) where
  | lit (text : String)
  | path (p : P)
  | name (n : pkgname V)
  | base (b : pkgbase)
  | file (f : Str)
  | endl
deriving DecidableEq, Repr

/-- The effects the check engine performs, in the order it performs them: the
messages handed to `atomic_warn` and `warn`, to `atomic_msg` and `msg`, and to
`atomic_verbose` and `verbose`, what is written to `std::cout`, the construction of a
`config` from a file, the calls of `extract_pkgmk_var` (each of which runs `make`),
and the calls of the three mutators of `check_result`. -/
inductive event (V P : Type) where
  | warn (m : List (fragment V P))
  | msg (m : List (fragment V P))
  | verbose (m : List (fragment V P))
  | cout (m : List (fragment V P))
  | config (file : Str)
  | extract_pkgmk_var (dir : P) (var : String) (vars : List (String × Str))
  | MISSING_DONE (path : P)
  | MISSING_TODO (name : pkgname V) (path : P)
  | MISMATCH_TODO (name : pkgname V)
deriving DecidableEq, Repr

/-- The ways a task of the check engine ends other than by returning. -/
inductive failure (V P : Type) where
  | fatal (m : List (fragment V P))
  | runtime_error (what : String)
  | bad_optional_access
deriving DecidableEq, Repr

deriving instance DecidableEq for Except

/-- The values of `environment` that `check.cxx` reads, each with the value its future
yields. `Makefile_exists path` is `fs::exists(PKGSRCDIR / path / "Makefile")`;
`extract_pkgmk_var dir var vars` is the result of `extract_pkgmk_var<pkgname>` in the
directory of `dir` under `PKGSRCDIR`; `bin_pkg_summary` lists the keys of the summary
of binary packages; `conf_apply_tags` lists the pkgpaths that the configuration file
`PKGCHK_CONF` yields under `apply_tags(included_tags, excluded_tags)`. -/
structure environment (V P : Type) where
  PKGCHK_CONF : Str
  Makefile_exists : P → Bool
  extract_pkgmk_var : P → String → List (String × Str) → Option (pkgname V)
  bin_pkg_summary : List (pkgname V)
  installed_pkgnames : List (pkgname V)
  installed_pkgpaths : List P
  installed_pkgpaths_with_pkgnames : List (P × List (pkgname V))
  conf_apply_tags : List P

/-- The struct `check_result`. -/
structure check_result (V P : Type) where
  _MISSING_DONE : List P
  _MISSING_TODO : List (pkgname V × P)
  _MISMATCH_TODO : List (pkgname V)
deriving DecidableEq, Repr

/-- The state a task works on: the shared `check_result` and the effects performed so
far. -/
structure task_state (V P : Type) where
  res : check_result V P
  trace : List (event V P)
deriving DecidableEq, Repr

section check
variable {V P : Type} [LinearOrder V] [LinearOrder P]

/-- The member `environment::is_binary_available`. -/
def environment.is_binary_available (env : environment V P) (name : pkgname V) : Bool :=
  decide (0 < env.bin_pkg_summary.count name)

/-- The default constructor of `check_result`. -/
def check_result.empty : check_result V P :=
  { _MISSING_DONE := [], _MISSING_TODO := [], _MISMATCH_TODO := [] }

/-- The state in which `check_installed_packages` starts its tasks: the result is
empty and nothing has been performed. -/
def task_state.init : task_state V P :=
  { res := check_result.empty, trace := [] }

/-- Append effects to the trace. -/
def task_state.emit (st : task_state V P) (evs : List (event V P)) : task_state V P :=
  { st with trace := st.trace ++ evs }

/-- The mutator `check_result::MISSING_DONE(path)`. -/
def task_state.MISSING_DONE (st : task_state V P) (path : P) : task_state V P :=
  { res := { st.res with _MISSING_DONE := set_insert path st.res._MISSING_DONE }
    trace := st.trace ++ [event.MISSING_DONE path] }

/-- The mutator `check_result::MISSING_TODO(name, path)`. -/
def task_state.MISSING_TODO (st : task_state V P) (name : pkgname V) (path : P) :
    task_state V P :=
  { res := { st.res with _MISSING_TODO := map_insert_or_assign name path st.res._MISSING_TODO }
    trace := st.trace ++ [event.MISSING_TODO name path] }

/-- The mutator `check_result::MISMATCH_TODO(name)`. -/
def task_state.MISMATCH_TODO (st : task_state V P) (name : pkgname V) : task_state V P :=
  { res := { st.res with _MISMATCH_TODO := set_insert name st.res._MISMATCH_TODO }
    trace := st.trace ++ [event.MISMATCH_TODO name] }

/-- The variable overrides of the re-extraction of `PKGNAME` for an installed base. -/
def PKGNAME_REQD (base : pkgbase) : List (String × Str) :=
  [("PKGNAME_REQD", base ++ "-[0-9]*".toList)]

/-- The warning of `latest_pkgnames_from_source` for a path that no longer provides
the base of an installed package. -/
def no_longer_provided (path : P) (installed_pkgname : pkgname V) : List (fragment V P) :=
  [ fragment.path path, fragment.lit " had presumably provided a package named like ",
    fragment.base installed_pkgname.base,
    fragment.lit "-[0-9]* but it no longer does so. ",
    fragment.lit "The installed package ", fragment.name installed_pkgname,
    fragment.lit " cannot be updated. Delete it and re-run the command.",
    fragment.endl ]

/-- The loop of `latest_pkgnames_from_source` over the pkgnames installed from `path`,
entered with the set `pkgnames` built so far. The result is the effects performed and
what the function returns or throws from there on. -/
def alternative_pkgnames (env : environment V P) (path : P) (default_pkgname : pkgname V) :
    List (pkgname V) → List (pkgname V) →
      List (event V P) × Except (failure V P) (List (pkgname V))
  | [], pkgnames => ([], Except.ok pkgnames)
  | installed_pkgname :: rest, pkgnames =>
    if installed_pkgname.base ≠ default_pkgname.base then
      let call := event.extract_pkgmk_var path "PKGNAME" (PKGNAME_REQD installed_pkgname.base)
      match env.extract_pkgmk_var path "PKGNAME" (PKGNAME_REQD installed_pkgname.base) with
      | none => ([call], Except.error failure.bad_optional_access)
      | some alternative_pkgname =>
        if alternative_pkgname.base = installed_pkgname.base then
          let r := alternative_pkgnames env path default_pkgname rest
            (set_insert alternative_pkgname pkgnames)
          (call :: r.1, r.2)
        else
          ([call, event.warn (no_longer_provided path installed_pkgname)], Except.ok [])
    else
      alternative_pkgnames env path default_pkgname rest pkgnames

/-- The function `latest_pkgnames_from_source` of `src/check.cxx`: the effects it
performs and the set it returns, or the way it fails. -/
def latest_pkgnames_from_source (opts : options) (env : environment V P) (path : P) :
    List (event V P) × Except (failure V P) (List (pkgname V)) :=
  if !env.Makefile_exists path then
    ([event.warn [fragment.lit "No ", fragment.path path,
        fragment.lit "/Makefile - package moved or obsolete?", fragment.endl]],
      Except.ok [])
  else
    let call := event.extract_pkgmk_var path "PKGNAME" []
    match env.extract_pkgmk_var path "PKGNAME" [] with
    | none =>
      ([call], Except.error (failure.fatal
        [fragment.lit "Unable to extract PKGNAME for ", fragment.path path, fragment.endl]))
    | some default_pkgname =>
      if opts.update || opts.delete_mismatched then
        match map_find path env.installed_pkgpaths_with_pkgnames with
        | some installed_pkgnames =>
          let r := alternative_pkgnames env path default_pkgname installed_pkgnames
            [default_pkgname]
          (call :: r.1, r.2)
        | none => ([call], Except.ok [default_pkgname])
      else
        ([call], Except.ok [default_pkgname])

/-- The function `latest_pkgnames_from_binary` of `src/check.cxx`. -/
def latest_pkgnames_from_binary (_env : environment V P) (_path : P) :
    List (event V P) × Except (failure V P) (List (pkgname V)) :=
  ([], Except.error (failure.runtime_error "FIXME: -b not implemented yet"))

/-- The text after the two names of a message about a latest pkgname. -/
def has_binary_package (env : environment V P) (name : pkgname V) : fragment V P :=
  fragment.lit (if env.is_binary_available name then " (has binary package)" else "")

variable (pkgversion_default : V)

/-- The installed pkgname that the condition of the `if` in the loop of
`check_installed_packages` finds for `name`: the lower bound of
`pkgname(name.base, pkgversion())` in the installed pkgnames, when there is one and
its base is that of `name`. `pkgversion_default` is the value of `pkgversion()`. -/
def find_installed (env : environment V P) (name : pkgname V) : Option (pkgname V) :=
  match lower_bound { base := name.base, version := pkgversion_default }
      env.installed_pkgnames with
  | some installed => if installed.base = name.base then some installed else none
  | none => none

/-- The body of the loop over the latest pkgnames in a task of
`check_installed_packages`, run for `name`: the state it leaves, and whether it
throws. -/
def check_pkgname (opts : options) (env : environment V P) (path : P)
    (st : task_state V P) (name : pkgname V) : task_state V P × Except (failure V P) Unit :=
  match find_installed pkgversion_default env name with
  | some installed =>
    if installed.version = name.version then
      if opts.check_build_version then
        (st, Except.error (failure.runtime_error "FIXME: -B not implemented yet"))
      else
        (st.emit [event.verbose [fragment.path path, fragment.lit " - ", fragment.name name,
            fragment.lit " OK", fragment.endl]],
          Except.ok ())
    else if installed.version < name.version then
      ((st.emit [event.msg [fragment.path path, fragment.lit " - ", fragment.name installed,
            fragment.lit " < ", fragment.name name, has_binary_package env name,
            fragment.endl]]).MISMATCH_TODO installed,
        Except.ok ())
    else
      if opts.check_build_version then
        ((st.emit [event.msg [fragment.path path, fragment.lit " - ",
              fragment.name installed, fragment.lit " > ", fragment.name name,
              has_binary_package env name, fragment.endl]]).MISMATCH_TODO installed,
          Except.ok ())
      else
        (st.emit [event.msg [fragment.path path, fragment.lit " - ", fragment.name installed,
            fragment.lit " > ", fragment.name name, fragment.lit " - ignoring",
            has_binary_package env name, fragment.endl]],
          Except.ok ())
  | none =>
    ((st.emit [event.msg [fragment.path path, fragment.lit " - ", fragment.name name,
          fragment.lit " missing", has_binary_package env name,
          fragment.endl]]).MISSING_TODO name path,
      Except.ok ())

/-- The loop over the latest pkgnames in a task of `check_installed_packages`; an
exception ends it and leaves the state as it is then. -/
def check_pkgnames (opts : options) (env : environment V P) (path : P) :
    task_state V P → List (pkgname V) → task_state V P × Except (failure V P) Unit
  | st, [] => (st, Except.ok ())
  | st, name :: rest =>
    match check_pkgname pkgversion_default opts env path st name with
    | (st1, Except.ok _) => check_pkgnames opts env path st1 rest
    | (st1, Except.error e) => (st1, Except.error e)

/-- The set of latest pkgnames a task of `check_installed_packages` computes first. -/
def latest_pkgnames (opts : options) (env : environment V P) (path : P) :
    List (event V P) × Except (failure V P) (List (pkgname V)) :=
  if opts.build_from_source then latest_pkgnames_from_source opts env path
  else latest_pkgnames_from_binary env path

/-- The task that `check_installed_packages` starts for `path`. -/
def check_task (opts : options) (env : environment V P) (st : task_state V P) (path : P) :
    task_state V P × Except (failure V P) Unit :=
  match latest_pkgnames opts env path with
  | (evs, Except.error e) => (st.emit evs, Except.error e)
  | (evs, Except.ok latest) =>
    if latest.isEmpty then ((st.emit evs).MISSING_DONE path, Except.ok ())
    else check_pkgnames pkgversion_default opts env path (st.emit evs) latest

/-- The effects a step performs: what it appends to the trace of the state `st` it
starts from. -/
def performed {ρ : Type} (st : task_state V P) (r : task_state V P × ρ) : List (event V P) :=
  r.1.trace.drop st.trace.length

/-- Whether an effect records one of the four outcomes of the classification of the
latest pkgname `name` of `path`: the verbose message that `name` is OK, a MISSING_TODO
entry for `name`, a MISMATCH_TODO entry for a pkgname of the base of `name` (its
installed counterpart), or MISSING_DONE of `path`. -/
def is_outcome (path : P) (name : pkgname V) : event V P → Bool
  | event.verbose m =>
    decide (m = [fragment.path path, fragment.lit " - ", fragment.name name,
      fragment.lit " OK", fragment.endl])
  | event.MISSING_TODO n _ => decide (n = name)
  | event.MISMATCH_TODO n => decide (n.base = name.base)
  | event.MISSING_DONE p => decide (p = path)
  | _ => false

/-- The outcomes of the classification of `name` of `path` recorded among the effects
`evs`. -/
def recorded_outcomes (path : P) (name : pkgname V) (evs : List (event V P)) :
    List (event V P) :=
  evs.filter (is_outcome path name)

end check

section mutations
variable {V P : Type} [LinearOrder V] [LinearOrder P]

/-- What an effect does to a `check_result`: a call of a mutator changes the
collection of that mutator, any other effect changes nothing. -/
def apply_mutation (res : check_result V P) : event V P → check_result V P
  | event.MISSING_DONE path =>
    { res with _MISSING_DONE := set_insert path res._MISSING_DONE }
  | event.MISSING_TODO name path =>
    { res with _MISSING_TODO := map_insert_or_assign name path res._MISSING_TODO }
  | event.MISMATCH_TODO name =>
    { res with _MISMATCH_TODO := set_insert name res._MISMATCH_TODO }
  | _ => res

/-- The `check_result` after the mutations among the effects `evs` have been applied
to `res`, one after another. -/
def apply_mutations (res : check_result V P) (evs : List (event V P)) : check_result V P :=
  evs.foldl apply_mutation res

/-- The path of a call of `MISSING_DONE`. -/
def missing_done_of : event V P → Option P
  | event.MISSING_DONE path => some path
  | _ => none

/-- The pkgname and the path of a call of `MISSING_TODO`. -/
def missing_todo_of : event V P → Option (pkgname V × P)
  | event.MISSING_TODO name path => some (name, path)
  | _ => none

/-- The pkgname of a call of `MISMATCH_TODO`. -/
def mismatch_todo_of : event V P → Option (pkgname V)
  | event.MISMATCH_TODO name => some name
  | _ => none

/-- The three collections of a `check_result` are in order, as a `std::set` and a
`std::map` are. -/
def check_result.ordered (res : check_result V P) : Prop :=
  res._MISSING_DONE.Sorted (· < ·)
    ∧ (res._MISSING_TODO.map Prod.fst).Sorted (· < ·)
    ∧ res._MISMATCH_TODO.Sorted (· < ·)

end mutations

section check_engine
variable {V P : Type} [LinearOrder V] [LinearOrder P]

/-- The function `pkgpaths_to_check` of `src/check.cxx`: the effects it performs and
the set it returns. -/
def pkgpaths_to_check (opts : options) (env : environment V P) :
    List (event V P) × List P :=
  let pkgpaths := if opts.delete_mismatched || opts.update then env.installed_pkgpaths else []
  if opts.add_missing then
    ([event.verbose [fragment.lit "Append to PKGDIRLIST based on config ",
        fragment.file env.PKGCHK_CONF, fragment.endl],
      event.config env.PKGCHK_CONF],
      env.conf_apply_tags.foldl (fun s path => set_insert path s) pkgpaths)
  else
    ([], pkgpaths)

variable (pkgversion_default : V)

/-- Modelled from the spec: `nursery.hxx` is not among the files at hand. The tasks
that `check_installed_packages` starts are run one after another, in the order of
`paths`, on the shared state. The first task that throws cancels the tasks that have
not run yet, which then perform nothing and write nothing to the `check_result`, and
its failure is the one raised when the nursery is joined. -/
def check_tasks (opts : options) (env : environment V P) :
    task_state V P → List P → task_state V P × Except (failure V P) Unit
  | st, [] => (st, Except.ok ())
  | st, path :: rest =>
    match check_task pkgversion_default opts env st path with
    | (st1, Except.ok _) => check_tasks opts env st1 rest
    | (st1, Except.error e) => (st1, Except.error e)

/-- The function `check_installed_packages` of `src/check.cxx`, with the tasks run in
the order of the set `pkgpaths`. The nursery `n` is declared after `res` and there is
no inner scope, so the statement `return std::move(res)` moves `res` into the value
returned while `n` is alive, and the tasks are joined only afterwards, when `n` is
destroyed. `returned_at` is the number of effects that the tasks have performed when
`res` is moved: the `check_result` returned holds the mutations among these, and
those that come later are lost. The trace holds all the effects of the tasks, since
the function returns, or throws the failure of the nursery, after the join. -/
def check_installed_packages (opts : options) (env : environment V P) (pkgpaths : List P)
    (returned_at : Nat) : task_state V P × Except (failure V P) Unit :=
  let joined := check_tasks pkgversion_default opts env task_state.init pkgpaths
  ({ res := apply_mutations check_result.empty (joined.1.trace.take returned_at)
     trace := joined.1.trace },
    joined.2)

end check_engine

/-- The effects of the task that `check_installed_packages` starts for `path`. -/
def task_effects {V P : Type} [LinearOrder V] [LinearOrder P] (pkgversion_default : V)
    (opts : options) (env : environment V P) (path : P) : List (event V P) :=
  (check_task pkgversion_default opts env task_state.init path).1.trace

/-- The tasks of `paths` that are run: those before the first one that throws, and
that one. -/
def tasks_run {V P : Type} [LinearOrder V] [LinearOrder P] (pkgversion_default : V)
    (opts : options) (env : environment V P) : List P → List P
  | [] => []
  | path :: rest =>
    match (check_task pkgversion_default opts env task_state.init path).2 with
    | Except.ok _ => path :: tasks_run pkgversion_default opts env rest
    | Except.error _ => [path]

/-- The path of the call of `MISSING_TODO` for `name` that comes last among the
effects `evs`, when there is one. -/
def last_missing_todo {V P : Type} [LinearOrder V] [LinearOrder P] (name : pkgname V)
    (evs : List (event V P)) : Option P :=
  (evs.filterMap
    (fun e => (missing_todo_of e).bind (fun x => if x.1 = name then some x.2 else none))).getLast?

/-! ## The subprocess harness (`lib/pkgxx/harness.hxx`) -/

/-- The double quote character. -/
def dquote : Char := Char.ofNat 34

/-- The backslash character. -/
def backslash : Char := Char.ofNat 92

/-- The function `stringify_argv` of `harness.hxx`: the loop over the arguments, with
the string stream `ss` and the flag `is_first` as its state. -/
def stringify_argv (argv : List Str) : Str :=
  (argv.foldl
    (fun (state : Str × Bool) (arg : Str) =>
      let ss := if state.2 then state.1 else state.1 ++ [' ']
      if find arg ' ' ≠ none then
        (arg.foldl
          (fun ss c => if c = dquote then ss ++ [backslash, dquote] else ss ++ [c])
          (ss ++ [dquote]) ++ [dquote], false)
      else
        (ss ++ arg, false))
    ([], true)).1

/-- An argument between double quotes, each double quote in it preceded by a
backslash. -/
def quoted (arg : Str) : Str :=
  [dquote] ++ arg.flatMap (fun c => if c = dquote then [backslash, dquote] else [c])
    ++ [dquote]

/-- The rendering of an argument that quotes it when it contains a space. -/
def rendering_of_space (arg : Str) : Str :=
  if ' ' ∈ arg then quoted arg else arg

/-- The rendering of an argument that quotes it when it contains a whitespace
character, a space or a tab. -/
def rendering_of_whitespace (arg : Str) : Str :=
  if ' ' ∈ arg ∨ '\t' ∈ arg then quoted arg else arg

/-- The strings joined by single spaces. -/
def join_with_spaces : List Str → Str
  | [] => []
  | [x] => x
  | x :: y :: rest => x ++ ' ' :: join_with_spaces (y :: rest)

/-- The type `harness::status`: how a child process terminated. -/
inductive harness_status where
  | exited (status : Int)
  | signaled (signal : Int) (coredumped : Bool)
deriving DecidableEq, Repr

/-- The data members of `harness`. A stream is kept as the file descriptor it wraps,
`fdostream` and `fdistream` being declared outside the files at hand. -/
structure harness where
  _cmd : Str
  _argv : List Str
  _cwd : Option Str
  _env : List (Str × Str)
  _pid : Option Int
  _stdin : Option Nat
  _stdout : Option Nat
  _stderr : Option Nat
  _status : Option harness_status
deriving DecidableEq, Repr

/-- The move constructor `harness::harness(harness&& other)`: the harness constructed
and `other` as it is left. The members that have no initializer are default
constructed. -/
def harness.move (other : harness) : harness × harness :=
  ({ _cmd := []
     _argv := []
     _cwd := none
     _env := []
     _pid := other._pid
     _stdin := other._stdin
     _stdout := other._stdout
     _stderr := other._stderr
     _status := other._status },
   { other with
     _pid := none
     _stdin := none
     _stdout := none
     _stderr := none
     _status := none })

/-- Whether the destructor of a harness calls `wait()`. -/
def harness.destructor_waits (h : harness) : Bool := h._pid.isSome

/-! ## String algorithms (`lib/pkgxx/string_algo.hxx`) -/

/-- The position of the first character at or after `pos` that satisfies `p`, `none`
standing for `npos`. -/
def find_if_from (p : Char → Bool) : Str → Nat → Option Nat
  | [], _ => none
  | c :: cs, 0 => if p c then some 0 else (find_if_from p cs 0).map (· + 1)
  | _ :: cs, pos + 1 => (find_if_from p cs pos).map (· + 1)

/-- The position of the last character that satisfies `p`, `none` standing for
`npos`. -/
def find_last_if (p : Char → Bool) : Str → Option Nat
  | [] => none
  | c :: cs =>
    match find_last_if p cs with
    | some i => some (i + 1)
    | none => if p c then some 0 else none

/-- The member `std::string_view::find_first_not_of(seps, pos)`. -/
def find_first_not_of (s seps : Str) (pos : Nat) : Option Nat :=
  find_if_from (fun c => !decide (c ∈ seps)) s pos

/-- The member `std::string_view::find_first_of(seps, pos)`. -/
def find_first_of (s seps : Str) (pos : Nat) : Option Nat :=
  find_if_from (fun c => decide (c ∈ seps)) s pos

/-- The member `std::string_view::find_last_not_of(seps)`. -/
def find_last_not_of (s seps : Str) : Option Nat :=
  find_last_if (fun c => !decide (c ∈ seps)) s

/-- The function `trim` of `string_algo.hxx`. The assertion that `find_last_not_of`
finds a position holds whenever `find_first_not_of` has found one; the branch in which
it would fail yields the empty view here. -/
def trim (str seps : Str) : Str :=
  match find_first_not_of str seps 0 with
  | some begin_pos =>
    match find_last_not_of str seps with
    | some end_pos => substr str begin_pos (end_pos - begin_pos + 1)
    | none => []
  | none => []

/-- The data members of `word_iterator`. `_source` is the view pointed to, `none`
standing for the null pointer, and `_pos` a position in it, `none` standing for
`npos`. -/
structure word_iterator where
  _source : Option Str
  _seps : Str
  _pos : Option Nat
  _current : Option Str
deriving DecidableEq, Repr

/-- The default constructor of `word_iterator`, which acts as `end()`. -/
def word_iterator.end_iterator : word_iterator :=
  { _source := none, _seps := [], _pos := none, _current := none }

/-- The member `word_iterator::update_current`. -/
def word_iterator.update_current (it : word_iterator) : word_iterator :=
  match it._pos with
  | some pos =>
    let source := it._source.getD []
    match find_first_of source it._seps (pos + 1) with
    | some space => { it with _current := some (substr source pos (space - pos)) }
    | none => { it with _current := some (substr_from source pos) }
  | none => { it with _current := none }

/-- The constructor `word_iterator(source, seps)`, which `words::begin()` calls. -/
def word_iterator.begin_iterator (source seps : Str) : word_iterator :=
  word_iterator.update_current
    { _source := some source, _seps := seps, _pos := find_first_not_of source seps 0,
      _current := none }

/-- The member `word_iterator::operator==`. -/
def word_iterator.equals (it other : word_iterator) : Bool :=
  if it._current.isSome then
    decide (it._source = other._source) && other._current.isSome
  else
    !other._current.isSome

/-- The member `word_iterator::operator++`; `none` when `_current.value()` throws. -/
def word_iterator.increment (it : word_iterator) : Option word_iterator :=
  match it._current, it._pos with
  | some current, some pos =>
    some (word_iterator.update_current
      { it with
        _pos := find_first_not_of (it._source.getD []) it._seps (pos + current.length + 1) })
  | _, _ => none

/-- The words that the loop `for (it = begin; it != end; ++it)` yields within `fuel`
increments; `none` when the loop has not ended by then or an increment throws. -/
def word_iterator.collect : Nat → word_iterator → Option (List Str)
  | 0, it => if it.equals word_iterator.end_iterator then some [] else none
  | fuel + 1, it =>
    if it.equals word_iterator.end_iterator then some []
    else
      match it._current, it.increment with
      | some word, some next => (word_iterator.collect fuel next).map (word :: ·)
      | _, _ => none

/-- The runs of consecutive characters that are not in `seps`, gathered from left to
right; `cur` holds the characters of the run being gathered, most recent first. -/
def runs_from (seps : Str) (cur : Str) : Str → List Str
  | [] => if cur = [] then [] else [cur.reverse]
  | c :: cs =>
    if c ∈ seps then
      if cur = [] then runs_from seps [] cs else cur.reverse :: runs_from seps [] cs
    else runs_from seps (c :: cur) cs

/-- The maximal runs of consecutive non-separator characters of `view`: the pieces
between separators that are not empty. -/
def maximal_runs (view seps : Str) : List Str :=
  (view.splitOnP (fun c => decide (c ∈ seps))).filter (fun w => decide (w ≠ []))

/-! ## The index of a summary (`pkgmap`, `src/summary.cxx`) -/

section pkgmap
variable {κ β : Type} [LinearOrder κ]

/-- The member `std::map<K, T>::operator[]` followed by a change of the value it
refers to: the value of the key `k` becomes `f` of what it was, and `f` of the default
constructed value `dflt` when the key had no entry. -/
def map_modify (k : κ) (f : β → β) (dflt : β) : List (κ × β) → List (κ × β)
  | [] => [(k, f dflt)]
  | e :: m =>
    if k < e.1 then (k, f dflt) :: e :: m
    else if e.1 < k then e :: map_modify k f dflt m
    else (e.1, f e.2) :: m

variable {V P D : Type} [LinearOrder V] [LinearOrder P]

/-- Modelled from the spec: the type `pkgmap` is declared in `summary.hxx`, which is
not among the files at hand: a map from pkgpath to a map from pkgbase to a map from
pkgname to `pkgvars`. -/
abbrev pkgmap (V P D : Type) :=
  List (P × List (pkgbase × summary (pkgname V) P D))

/-- The body of the loop of the constructor `pkgmap::pkgmap(summary const&)`:
`(*this)[pair.second.PKGPATH][pair.second.PKGNAME.base].emplace(pair.first, pair.second)`. -/
def pkgmap_insert (pm : pkgmap V P D) (pair : pkgname V × pkgvars (pkgname V) P D) :
    pkgmap V P D :=
  map_modify pair.2.PKGPATH
    (fun bases =>
      map_modify pair.2.PKGNAME.base (fun names => map_emplace pair.1 pair.2 names) [] bases)
    [] pm

/-- The constructor `pkgmap::pkgmap(summary const& all_packages)`. -/
def pkgmap_of (all_packages : summary (pkgname V) P D) : pkgmap V P D :=
  all_packages.foldl pkgmap_insert []

/-- The entry `pm[p][b][n]` of a pkgmap, when there is one; no entry is created. -/
def pkgmap_lookup (pm : pkgmap V P D) (p : P) (b : pkgbase) (n : pkgname V) :
    Option (pkgvars (pkgname V) P D) :=
  map_find n ((map_find b ((map_find p pm).getD [])).getD [])

/-- The number of entries of a pkgmap at the innermost level. -/
def pkgmap_leaves (pm : pkgmap V P D) : Nat :=
  (pm.map (fun e => (e.2.map (fun e' => e'.2.length)).sum)).sum

/-- The maps of a pkgmap are in key order at every level, and none of them is
empty. -/
def pkgmap_wellformed (pm : pkgmap V P D) : Prop :=
  (pm.map Prod.fst).Sorted (· < ·)
    ∧ ∀ e ∈ pm, (e.2.map Prod.fst).Sorted (· < ·) ∧ e.2 ≠ []
        ∧ ∀ e' ∈ e.2, (e'.2.map Prod.fst).Sorted (· < ·) ∧ e'.2 ≠ []

end pkgmap

/-- The strings of `ws` joined by the character `sep`: `sep` stands between two
consecutive strings, and neither before the first nor after the last. This is the
joining that the round trip with `words` speaks of, not a function of the program. -/
def join_words (sep : Char) : List Str → Str
  | [] => []
  | [w] => w
  | w :: w' :: ws => w ++ sep :: join_words sep (w' :: ws)

/-- The view of the round trip with `words`: the strings of `ws` joined by `sep`, with
the characters of `before` in front of the first and those of `after` behind the
last. -/
def joined_view (before : Str) (sep : Char) (ws : List Str) (after : Str) : Str :=
  before ++ join_words sep ws ++ after

/-! ## Sample data

Versions are lists of numbers in the samples (`[3, 11, 4]` for `3.11.4`), compared
lexicographically, and `pkgversion()` is the empty list; a pkgpath is its text. -/

/-- The pkgname `python311-3.11.3`. -/
def python311_3_11_3 : pkgname (List Nat) := { base := "python311".toList, version := [3, 11, 3] }

/-- The pkgname `python311-3.11.4`. -/
def python311_3_11_4 : pkgname (List Nat) := { base := "python311".toList, version := [3, 11, 4] }

/-- The pkgname `python311-3.11.5`. -/
def python311_3_11_5 : pkgname (List Nat) := { base := "python311".toList, version := [3, 11, 5] }

/-- The pkgname `py310-foo-1.0`. -/
def py310_foo_1_0 : pkgname (List Nat) := { base := "py310-foo".toList, version := [1, 0] }

/-- The pkgname `py311-foo-1.2`. -/
def py311_foo_1_2 : pkgname (List Nat) := { base := "py311-foo".toList, version := [1, 2] }

/-- The pkgpath `lang/python311`. -/
def lang_python311 : Str := "lang/python311".toList

/-- The pkgpath `devel/py-foo`. -/
def devel_py_foo : Str := "devel/py-foo".toList

/-- Options with `build_from_source` and `add_missing` set, and `update` and
`check_build_version` as given. -/
def sample_options (update check_build_version : Bool) : options :=
  { add_missing := true, build_from_source := true,
    check_build_version := check_build_version, delete_mismatched := false,
    print_pkgpaths_to_check := false, update := update }

/-- An environment in which every path has a Makefile, `make` reports the pkgnames
given by `extract`, and the installed pkgnames and their pkgpaths are as given. -/
def sample_environment (extract : Str → List (String × Str) → Option (pkgname (List Nat)))
    (installed : List (pkgname (List Nat)))
    (by_path : List (Str × List (pkgname (List Nat)))) : environment (List Nat) Str :=
  { PKGCHK_CONF := "/usr/pkg/etc/pkgchk.conf".toList
    Makefile_exists := fun _ => true
    extract_pkgmk_var := fun dir _ vars => extract dir vars
    bin_pkg_summary := []
    installed_pkgnames := installed
    installed_pkgpaths := by_path.map Prod.fst
    installed_pkgpaths_with_pkgnames := by_path
    conf_apply_tags := [lang_python311] }

/-- An environment whose `make` reports `latest` for every path, with the installed
pkgnames as given. -/
def python_environment (latest : pkgname (List Nat)) (installed : List (pkgname (List Nat))) :
    environment (List Nat) Str :=
  sample_environment (fun _ _ => some latest) installed [(lang_python311, installed)]

/-- The environment of a path that has dropped an alternative: `py310-foo-1.0` is
installed from `devel/py-foo`, and `make` reports `py311-foo-1.2` whatever base is
requested. -/
def dropped_environment : environment (List Nat) Str :=
  sample_environment (fun _ _ => some py311_foo_1_2) [py310_foo_1_0]
    [(devel_py_foo, [py310_foo_1_0])]

/-- An environment in which `py310-foo-1.0` is installed from `devel/py-foo`, and `make`
reports `py311-foo-1.2` when no base is requested and no pkgname when one is. -/
def unextractable_environment : environment (List Nat) Str :=
  sample_environment (fun _ vars => if vars = [] then some py311_foo_1_2 else none)
    [py310_foo_1_0] [(devel_py_foo, [py310_foo_1_0])]

/-- The lines of a complete record of PKGNAME `a-1` and PKGPATH `x/a`. -/
def record_a_x : List Str := ["PKGNAME=a-1".toList, "PKGPATH=x/a".toList]

/-- The lines of a complete record of PKGNAME `a-1` and PKGPATH `y/a`. -/
def record_a_y : List Str := ["PKGNAME=a-1".toList, "PKGPATH=y/a".toList]

/-- The lines of a record of PKGNAME `b-2` and PKGPATH `x/b`. -/
def record_b : List Str := ["PKGNAME=b-2".toList, "PKGPATH=x/b".toList]

/-- The lines of a record of PKGNAME `a-1` with two DEPENDS lines, two PKGPATH lines
and a line of another variable. -/
def record_a_long : List Str :=
  ["PKGNAME=a-1".toList, "DEPENDS=z>=1".toList, "PKGPATH=w/a".toList, "COMMENT=x=y".toList,
    "DEPENDS=".toList, "PKGPATH=x/a".toList]

/-- A summary stream of two complete records that carry the same PKGNAME, `a-1`, the
first with PKGPATH `x/a`, the second with PKGPATH `y/a`. -/
def duplicate_stream : Str :=
  "PKGNAME=a-1\nPKGPATH=x/a\n\nPKGNAME=a-1\nPKGPATH=y/a\n\n".toList

/-- A summary stream of three blocks, each followed by a blank line; the second has
no PKGNAME and no PKGPATH. -/
def terminated_stream : Str :=
  "PKGNAME=a-1\nPKGPATH=x/a\n\nCOMMENT=c\n\nPKGNAME=b-2\nPKGPATH=x/b\n\n".toList

/-- A summary stream of one complete record followed by a record that is not ended
by a blank line. -/
def sample_stream : Str :=
  "PKGNAME=a-1\nDEPENDS=z>=1\nPKGPATH=w/a\nCOMMENT=x=y\nDEPENDS=\nPKGPATH=x/a\n\nPKGNAME=b-2\nPKGPATH=x/b".toList

/-- A summary stream without a blank line. -/
def unterminated_stream : Str := "PKGNAME=b-2\nPKGPATH=x/b\n".toList

/-- The record of PKGNAME `a-1` with the given PKGPATH and DEPENDS, the constructors
of the three types being the identity. -/
def record_a (path : Str) (depends : List Str) : pkgvars Str Str Str :=
  { DEPENDS := depends, PKGNAME := "a-1".toList, PKGPATH := path }

/-- The pkgname `py311-foo-1.1`. -/
def py311_foo_1_1 : pkgname (List Nat) := { base := "py311-foo".toList, version := [1, 1] }

/-- An environment of `devel/py-foo`, from which the pkgnames `installed` are
installed: `make` reports `py311-foo-1.2` when no base is requested and
`py310-foo-1.0` when one is. -/
def py_foo_environment (installed : List (pkgname (List Nat))) :
    environment (List Nat) Str :=
  sample_environment (fun _ vars => if vars = [] then some py311_foo_1_2 else some py310_foo_1_0)
    installed [(devel_py_foo, installed)]

/-- The pkgpath `lang/python27`. -/
def lang_python27 : Str := "lang/python27".toList

/-- An environment in which no path has a Makefile and nothing is installed. -/
def obsolete_environment : environment (List Nat) Str :=
  { PKGCHK_CONF := "/usr/pkg/etc/pkgchk.conf".toList
    Makefile_exists := fun _ => false
    extract_pkgmk_var := fun _ _ _ => some python311_3_11_4
    bin_pkg_summary := []
    installed_pkgnames := []
    installed_pkgpaths := []
    installed_pkgpaths_with_pkgnames := []
    conf_apply_tags := [lang_python27] }

/-- Options with `build_from_source` unset and `add_missing` set. -/
def binary_options : options :=
  { add_missing := true, build_from_source := false, check_build_version := false,
    delete_mismatched := false, print_pkgpaths_to_check := false, update := false }

/-- The pkgpath `lang/python312`. -/
def lang_python312 : Str := "lang/python312".toList

/-- A harness of a running `make -C lang/python311 show-var VARNAME=PKGNAME`. -/
def make_harness : harness :=
  { _cmd := "make".toList
    _argv := ["-C".toList, "lang/python311".toList, "show-var".toList,
      "VARNAME=PKGNAME".toList]
    _cwd := some "/usr/pkgsrc".toList
    _env := [("PKGNAME_REQD".toList, "py310-foo-[0-9]*".toList)]
    _pid := some 4242
    _stdin := some 5
    _stdout := some 6
    _stderr := none
    _status := none }

/-- The record of a package of the given PKGNAME and PKGPATH, without DEPENDS. -/
def sample_pkgvars (name : pkgname (List Nat)) (path : Str) :
    pkgvars (pkgname (List Nat)) Str Str :=
  { DEPENDS := [], PKGNAME := name, PKGPATH := path }

/-- A summary of two versions of `python311` under `lang/python311` and of
`py311-foo` under `devel/py-foo`. -/
def sample_summary : summary (pkgname (List Nat)) Str Str :=
  [ (py311_foo_1_2, sample_pkgvars py311_foo_1_2 devel_py_foo),
    (python311_3_11_3, sample_pkgvars python311_3_11_3 lang_python311),
    (python311_3_11_4, sample_pkgvars python311_3_11_4 lang_python311) ]

/-! ## Lemmas on the ordered containers -/

section container_lemmas
variable {α κ β : Type} [LinearOrder α] [LinearOrder κ]

theorem mem_set_insert (a x : α) (s : List α) : a ∈ set_insert x s ↔ a = x ∨ a ∈ s := by
  induction s with
  | nil => simp [set_insert]
  | cons y ys ih =>
    unfold set_insert
    split_ifs with h1 h2
    · simp
    · simp only [List.mem_cons, ih]
      tauto
    · have hxy : x = y := le_antisymm (not_lt.mp h2) (not_lt.mp h1)
      subst hxy
      simp

theorem set_insert_ne_nil (x : α) (s : List α) : set_insert x s ≠ [] := by
  cases s with
  | nil => simp [set_insert]
  | cons y ys =>
    unfold set_insert
    split_ifs <;> simp

theorem lower_bound_eq_none (k : α) (s : List α) :
    lower_bound k s = none ↔ ∀ j ∈ s, j < k := by
  simp [lower_bound, List.find?_eq_none]

theorem lower_bound_mem {k e : α} {s : List α} (h : lower_bound k s = some e) :
    e ∈ s ∧ k ≤ e := by
  unfold lower_bound at h
  refine ⟨List.mem_of_find?_eq_some h, ?_⟩
  have := List.find?_some h
  simpa using this

theorem lower_bound_least {k e : α} {s : List α} (hs : s.Sorted (· < ·))
    (h : lower_bound k s = some e) : ∀ j ∈ s, k ≤ j → e ≤ j := by
  induction s with
  | nil => simp [lower_bound] at h
  | cons a s ih =>
    intro j hj hkj
    have hs' := List.sorted_cons.mp hs
    by_cases ha : a < k
    · have h' : lower_bound k s = some e := by
        simpa [lower_bound, List.find?_cons, ha] using h
      rcases List.mem_cons.mp hj with rfl | hjs
      · exact absurd (lt_of_lt_of_le ha hkj) (lt_irrefl _)
      · exact ih hs'.2 h' j hjs hkj
    · have h' : a = e := by
        simpa [lower_bound, List.find?_cons, ha] using h
      subst h'
      rcases List.mem_cons.mp hj with rfl | hjs
      · exact le_rfl
      · exact le_of_lt (hs'.1 j hjs)

theorem map_find_insert_or_assign (k : κ) (v : β) (m : List (κ × β)) :
    map_find k (map_insert_or_assign k v m) = some v := by
  induction m with
  | nil => simp [map_insert_or_assign, map_find]
  | cons e m ih =>
    unfold map_insert_or_assign
    split_ifs with h1 h2
    · simp [map_find]
    · simp [map_find, ne_of_lt h2, ih]
    · simp [map_find, le_antisymm (not_lt.mp h1) (not_lt.mp h2)]

end container_lemmas

/-! ## Lemmas on the order of package names -/

section pkgname_lemmas
variable {V : Type} [LinearOrder V]

theorem pkgname.lt_iff (a b : pkgname V) :
    a < b ↔ a.base < b.base ∨ (a.base = b.base ∧ a.version < b.version) :=
  Prod.Lex.lt_iff (toLex (a.base, a.version)) (toLex (b.base, b.version))

theorem pkgname.le_iff (a b : pkgname V) :
    a ≤ b ↔ a.base < b.base ∨ (a.base = b.base ∧ a.version ≤ b.version) :=
  Prod.Lex.le_iff (toLex (a.base, a.version)) (toLex (b.base, b.version))

end pkgname_lemmas

/-! ## The check engine: classification of one latest pkgname -/

section check_lemmas
variable {V P : Type} [LinearOrder V] [LinearOrder P]

theorem find_installed_eq_some {v0 : V} {env : environment V P} {name installed : pkgname V}
    (h : find_installed v0 env name = some installed) :
    lower_bound { base := name.base, version := v0 } env.installed_pkgnames = some installed
      ∧ installed.base = name.base := by
  unfold find_installed at h
  split at h
  · split_ifs at h with hb
    cases h
    rename_i heq
    exact ⟨heq, hb⟩
  · cases h

theorem find_installed_eq_none_iff (v0 : V) (env : environment V P) (name : pkgname V)
    (hs : env.installed_pkgnames.Sorted (· < ·)) (hleast : ∀ v, v0 ≤ v) :
    find_installed v0 env name = none ↔ ∀ i ∈ env.installed_pkgnames, i.base ≠ name.base := by
  constructor
  · intro h i hi hbase
    have hki : ({ base := name.base, version := v0 } : pkgname V) ≤ i := by
      rw [pkgname.le_iff]
      exact Or.inr ⟨hbase.symm, hleast _⟩
    unfold find_installed at h
    split at h
    · rename_i e heq
      split_ifs at h with hb
      have hle := lower_bound_least hs heq i hi hki
      have hke := (lower_bound_mem heq).2
      rw [pkgname.le_iff] at hle hke
      simp only at hke
      rcases hke with hke | ⟨hke, -⟩
      · rcases hle with hle | ⟨hle, -⟩
        · rw [hbase] at hle
          exact absurd (lt_trans hke hle) (lt_irrefl _)
        · rw [hle, hbase] at hke
          exact absurd hke (lt_irrefl _)
      · exact hb hke.symm
    · rename_i heq
      have := (lower_bound_eq_none _ _).mp heq i hi
      exact absurd (lt_of_lt_of_le this hki) (lt_irrefl _)
  · intro h
    unfold find_installed
    split
    · rename_i e heq
      split_ifs with hb
      · exact absurd hb (h e (lower_bound_mem heq).1)
      · rfl
    · rfl

end check_lemmas

section classification
variable {V P : Type} [LinearOrder V] [LinearOrder P]

/-- One iteration of the loop of a task, run from any state, for a latest pkgname
`name` of `path` for which an installed pkgname `installed` of the same base is
found: the mutator `MISMATCH_TODO` is called with `installed` if and only if
`installed.version < name.version`, or `installed.version > name.version` and
`check_build_version` is set; the collection then gains exactly `installed`, no call
is made with another pkgname (in particular none with `name`), and `installed` is an
installed pkgname of the base of `name`, the least one when the installed set is in
order and `pkgversion()` is the least version. -/
theorem check_pkgname_mismatch_installed (pkgversion_default : V) (opts : options)
    (env : environment V P) (path : P) (st : task_state V P) (name installed : pkgname V)
    (hfound : find_installed pkgversion_default env name = some installed) :
    (event.MISMATCH_TODO installed ∈
        performed st (check_pkgname pkgversion_default opts env path st name)
      ↔ installed.version < name.version
        ∨ (name.version < installed.version ∧ opts.check_build_version = true))
    ∧ (check_pkgname pkgversion_default opts env path st name).1.res._MISMATCH_TODO
        = (if installed.version < name.version
              ∨ (name.version < installed.version ∧ opts.check_build_version = true)
           then set_insert installed st.res._MISMATCH_TODO
           else st.res._MISMATCH_TODO)
    ∧ (∀ n, event.MISMATCH_TODO n ∈
          performed st (check_pkgname pkgversion_default opts env path st name)
        → n = installed ∧ n ≠ name)
    ∧ installed ∈ env.installed_pkgnames
    ∧ installed.base = name.base
    ∧ (env.installed_pkgnames.Sorted (· < ·) → (∀ v, pkgversion_default ≤ v) →
        ∀ j ∈ env.installed_pkgnames, j.base = name.base → installed ≤ j) := by
  obtain ⟨hlb, hbase⟩ := find_installed_eq_some hfound
  have hne : installed.version ≠ name.version → installed ≠ name := by
    intro h1 h2
    exact h1 (by rw [h2])
  refine ⟨?_, ?_, ?_, (lower_bound_mem hlb).1, hbase, ?_⟩
  · unfold check_pkgname
    rw [hfound]
    rcases lt_trichotomy installed.version name.version with h | h | h
    · simp [h, ne_of_lt h, performed, task_state.emit, task_state.MISMATCH_TODO]
    · cases hb : opts.check_build_version <;>
        simp [h, hb, performed, task_state.emit, task_state.MISMATCH_TODO]
    · cases hb : opts.check_build_version <;>
        simp [h, hb, ne_of_gt h, not_lt_of_gt h, performed, task_state.emit,
          task_state.MISMATCH_TODO]
  · unfold check_pkgname
    rw [hfound]
    rcases lt_trichotomy installed.version name.version with h | h | h
    · simp [h, ne_of_lt h, task_state.emit, task_state.MISMATCH_TODO]
    · cases hb : opts.check_build_version <;>
        simp [h, hb, task_state.emit, task_state.MISMATCH_TODO]
    · cases hb : opts.check_build_version <;>
        simp [h, hb, ne_of_gt h, not_lt_of_gt h, task_state.emit,
          task_state.MISMATCH_TODO]
  · intro n
    unfold check_pkgname
    rw [hfound]
    rcases lt_trichotomy installed.version name.version with h | h | h
    · have := hne (ne_of_lt h)
      simp [h, ne_of_lt h, performed, task_state.emit, task_state.MISMATCH_TODO]
      rintro rfl
      exact ⟨rfl, this⟩
    · cases hb : opts.check_build_version <;>
        simp [h, hb, performed, task_state.emit, task_state.MISMATCH_TODO]
    · have := hne (ne_of_gt h)
      cases hb : opts.check_build_version <;>
        simp [h, hb, ne_of_gt h, not_lt_of_gt h, performed, task_state.emit,
          task_state.MISMATCH_TODO]
      rintro rfl
      exact ⟨rfl, this⟩
  · intro hs hleast j hj hjb
    refine lower_bound_least hs hlb j hj ?_
    rw [pkgname.le_iff]
    exact Or.inr ⟨hjb.symm, hleast _⟩

end classification

section classification_missing
variable {V P : Type} [LinearOrder V] [LinearOrder P]

/-- One iteration of the loop of a task, run from any state: with the installed
pkgnames in order (by base, then version) and `pkgversion()` a least version, the
iteration for a latest pkgname `name` of `path` calls `MISSING_TODO(name, path)` if
and only if no installed pkgname has the base of `name`; the map then gains the entry
and maps `name` to `path`, and is left as it was when some installed pkgname has that
base. -/
theorem check_pkgname_missing_iff (pkgversion_default : V) (opts : options)
    (env : environment V P) (path : P) (st : task_state V P) (name : pkgname V)
    (hsorted : env.installed_pkgnames.Sorted (· < ·))
    (hleast : ∀ v, pkgversion_default ≤ v) :
    (event.MISSING_TODO name path ∈
        performed st (check_pkgname pkgversion_default opts env path st name)
      ↔ ∀ i ∈ env.installed_pkgnames, i.base ≠ name.base)
    ∧ ((∀ i ∈ env.installed_pkgnames, i.base ≠ name.base) →
        (check_pkgname pkgversion_default opts env path st name).1.res._MISSING_TODO
            = map_insert_or_assign name path st.res._MISSING_TODO
          ∧ map_find name
              (check_pkgname pkgversion_default opts env path st name).1.res._MISSING_TODO
            = some path)
    ∧ ((∃ i ∈ env.installed_pkgnames, i.base = name.base) →
        (check_pkgname pkgversion_default opts env path st name).1.res._MISSING_TODO
          = st.res._MISSING_TODO) := by
  have hiff := find_installed_eq_none_iff pkgversion_default env name hsorted hleast
  cases hf : find_installed pkgversion_default env name with
  | none =>
    have hno := hiff.mp hf
    refine ⟨?_, ?_, ?_⟩
    · refine ⟨fun _ => hno, fun _ => ?_⟩
      unfold check_pkgname
      rw [hf]
      simp [performed, task_state.emit, task_state.MISSING_TODO]
    · intro _
      unfold check_pkgname
      rw [hf]
      simp [task_state.emit, task_state.MISSING_TODO, map_find_insert_or_assign]
    · rintro ⟨i, hi, hb⟩
      exact absurd hb (hno i hi)
  | some installed =>
    have hsome : ¬ ∀ i ∈ env.installed_pkgnames, i.base ≠ name.base := by
      intro h
      rw [hiff.mpr h] at hf
      cases hf
    have hunchanged :
        (check_pkgname pkgversion_default opts env path st name).1.res._MISSING_TODO
          = st.res._MISSING_TODO := by
      unfold check_pkgname
      rw [hf]
      simp only
      split_ifs <;> simp [task_state.emit, task_state.MISMATCH_TODO]
    refine ⟨⟨fun h => ?_, fun h => absurd h hsome⟩, fun h => absurd h hsome,
      fun _ => hunchanged⟩
    exfalso
    revert h
    unfold check_pkgname
    rw [hf]
    simp only
    split_ifs <;> simp [performed, task_state.emit, task_state.MISMATCH_TODO]

/-- One iteration of the loop of a task, run from any state: with
`check_build_version` unset, the iteration for a latest pkgname `name` of `path` whose
installed pkgname of the same base has the version of `name` leaves MISSING_DONE,
MISSING_TODO and MISMATCH_TODO as they were, writes the verbose message
`path - name OK` and nothing else, and does not throw. -/
theorem check_pkgname_equal_version_OK (pkgversion_default : V) (opts : options)
    (env : environment V P) (path : P) (st : task_state V P) (name installed : pkgname V)
    (hunset : opts.check_build_version = false)
    (hfound : find_installed pkgversion_default env name = some installed)
    (hversion : installed.version = name.version) :
    check_pkgname pkgversion_default opts env path st name
      = ({ res := st.res
           trace := st.trace ++
             [event.verbose [fragment.path path, fragment.lit " - ", fragment.name name,
               fragment.lit " OK", fragment.endl]] },
         Except.ok ()) := by
  unfold check_pkgname
  rw [hfound]
  simp [hversion, hunset, task_state.emit]

end classification_missing

/-- The mismatch of an older installed package: `python311-3.11.3` is installed,
`python311-3.11.4` is the latest pkgname, and `MISMATCH_TODO` is called with the
installed one. -/
theorem check_pkgname_mismatch_installed_witness :
    find_installed [] (python_environment python311_3_11_4 [python311_3_11_3])
        python311_3_11_4 = some python311_3_11_3
    ∧ event.MISMATCH_TODO python311_3_11_3 ∈
        performed task_state.init
          (check_pkgname [] (sample_options false false)
            (python_environment python311_3_11_4 [python311_3_11_3]) lang_python311
            task_state.init python311_3_11_4) :=
  ⟨by decide,
    (check_pkgname_mismatch_installed [] (sample_options false false)
      (python_environment python311_3_11_4 [python311_3_11_3]) lang_python311
      task_state.init python311_3_11_4 python311_3_11_3 (by decide)).1.mpr
      (Or.inl (by decide))⟩

/-- A clean system: nothing is installed, `python311-3.11.4` is the latest pkgname of
`lang/python311`, and `MISSING_TODO` maps the one to the other. -/
theorem check_pkgname_missing_iff_witness :
    (python_environment python311_3_11_4 []).installed_pkgnames.Sorted (· < ·)
    ∧ (∀ v : List Nat, [] ≤ v)
    ∧ map_find python311_3_11_4
        (check_pkgname [] (sample_options false false)
          (python_environment python311_3_11_4 []) lang_python311
          task_state.init python311_3_11_4).1.res._MISSING_TODO = some lang_python311 :=
  ⟨by decide, fun _ => List.nil_le,
    ((check_pkgname_missing_iff [] (sample_options false false)
      (python_environment python311_3_11_4 []) lang_python311
      task_state.init python311_3_11_4 (by decide) (fun _ => List.nil_le)).2.1
      (by decide)).2⟩

/-- An up-to-date system: `python311-3.11.4` is installed and is the latest pkgname. -/
theorem check_pkgname_equal_version_OK_witness :
    (sample_options false false).check_build_version = false
    ∧ find_installed [] (python_environment python311_3_11_4 [python311_3_11_4])
        python311_3_11_4 = some python311_3_11_4
    ∧ python311_3_11_4.version = python311_3_11_4.version
    ∧ check_pkgname [] (sample_options false false)
        (python_environment python311_3_11_4 [python311_3_11_4]) lang_python311
        task_state.init python311_3_11_4
      = ({ res := task_state.init.res
           trace := task_state.init.trace ++
             [event.verbose [fragment.path lang_python311, fragment.lit " - ",
               fragment.name python311_3_11_4, fragment.lit " OK", fragment.endl]] },
         Except.ok ()) :=
  ⟨rfl, by decide, rfl,
    check_pkgname_equal_version_OK [] (sample_options false false)
      (python_environment python311_3_11_4 [python311_3_11_4]) lang_python311
      task_state.init python311_3_11_4 python311_3_11_4 rfl (by decide) rfl⟩

section task_lemmas
variable {V P : Type} [LinearOrder V] [LinearOrder P]

theorem alternative_pkgnames_effects (env : environment V P) (path : P)
    (default_pkgname : pkgname V) (installed_pkgnames pkgnames : List (pkgname V)) :
    ∀ e ∈ (alternative_pkgnames env path default_pkgname installed_pkgnames pkgnames).1,
      (∃ m, e = event.warn m) ∨ (∃ vars, e = event.extract_pkgmk_var path "PKGNAME" vars) := by
  induction installed_pkgnames generalizing pkgnames with
  | nil => simp [alternative_pkgnames]
  | cons i rest ih =>
    intro e he
    unfold alternative_pkgnames at he
    split_ifs at he with hb
    · split at he
      · simp only [List.mem_singleton] at he
        exact Or.inr ⟨_, he⟩
      · split_ifs at he with ha
        · simp only [List.mem_cons] at he
          rcases he with he | he
          · exact Or.inr ⟨_, he⟩
          · exact ih _ e he
        · simp only [List.mem_cons, List.mem_singleton, List.not_mem_nil, or_false] at he
          rcases he with he | he
          · exact Or.inr ⟨_, he⟩
          · exact Or.inl ⟨_, he⟩
    · exact ih _ e he

theorem latest_pkgnames_effects (opts : options) (env : environment V P) (path : P) :
    ∀ e ∈ (latest_pkgnames opts env path).1,
      (∃ m, e = event.warn m) ∨ (∃ vars, e = event.extract_pkgmk_var path "PKGNAME" vars) := by
  intro e he
  unfold latest_pkgnames at he
  cases hsrc : opts.build_from_source
  · simp [hsrc, latest_pkgnames_from_binary] at he
  · simp only [hsrc, if_true] at he
    unfold latest_pkgnames_from_source at he
    cases hm : env.Makefile_exists path
    · simp [hm] at he
      exact Or.inl ⟨_, he⟩
    · cases hx : env.extract_pkgmk_var path "PKGNAME" [] with
      | none =>
        simp [hm, hx] at he
        exact Or.inr ⟨_, he⟩
      | some d =>
        cases hu : (opts.update || opts.delete_mismatched)
        · simp [hm, hx, hu] at he
          exact Or.inr ⟨_, he⟩
        · cases hf : map_find path env.installed_pkgpaths_with_pkgnames with
          | none =>
            simp [hm, hx, hu, hf] at he
            exact Or.inr ⟨_, he⟩
          | some insts =>
            simp [hm, hx, hu, hf] at he
            rcases he with he | he
            · exact Or.inr ⟨_, he⟩
            · exact alternative_pkgnames_effects _ _ _ _ _ e he

theorem alternative_pkgnames_eq_nil (env : environment V P) (path : P)
    (default_pkgname : pkgname V) (installed_pkgnames pkgnames : List (pkgname V))
    (hne : pkgnames ≠ [])
    (h : (alternative_pkgnames env path default_pkgname installed_pkgnames pkgnames).2
      = Except.ok []) :
    ∃ i ∈ installed_pkgnames, i.base ≠ default_pkgname.base ∧
      ∃ a, env.extract_pkgmk_var path "PKGNAME" (PKGNAME_REQD i.base) = some a
        ∧ a.base ≠ i.base := by
  induction installed_pkgnames generalizing pkgnames with
  | nil =>
    simp only [alternative_pkgnames, Except.ok.injEq] at h
    exact absurd h hne
  | cons i rest ih =>
    unfold alternative_pkgnames at h
    split_ifs at h with hb
    · split at h
      · cases h
      · rename_i a ha
        split_ifs at h with hab
        · obtain ⟨j, hj, hjb, r⟩ := ih _ (set_insert_ne_nil _ _) h
          exact ⟨j, List.mem_cons_of_mem _ hj, hjb, r⟩
        · exact ⟨i, List.mem_cons_self _ _, hb, a, ha, hab⟩
    · obtain ⟨j, hj, hjb, r⟩ := ih _ hne h
      exact ⟨j, List.mem_cons_of_mem _ hj, hjb, r⟩

theorem check_pkgname_trace (pkgversion_default : V) (opts : options)
    (env : environment V P) (path : P) (st : task_state V P) (name : pkgname V) :
    ∃ evs, (check_pkgname pkgversion_default opts env path st name).1.trace = st.trace ++ evs
      ∧ ∀ p, event.MISSING_DONE p ∉ evs := by
  unfold check_pkgname
  split
  · split_ifs
    · exact ⟨[], by simp, by simp⟩
    · exact ⟨_, rfl, by simp⟩
    · exact ⟨_, List.append_assoc _ _ _, by simp⟩
    · exact ⟨_, List.append_assoc _ _ _, by simp⟩
    · exact ⟨_, rfl, by simp⟩
  · exact ⟨_, List.append_assoc _ _ _, by simp⟩

theorem check_pkgnames_trace (pkgversion_default : V) (opts : options)
    (env : environment V P) (path : P) (st : task_state V P) (names : List (pkgname V)) :
    ∃ evs, (check_pkgnames pkgversion_default opts env path st names).1.trace
        = st.trace ++ evs
      ∧ ∀ p, event.MISSING_DONE p ∉ evs := by
  induction names generalizing st with
  | nil => exact ⟨[], by simp [check_pkgnames], by simp⟩
  | cons name rest ih =>
    obtain ⟨evs1, h1, hn1⟩ := check_pkgname_trace pkgversion_default opts env path st name
    unfold check_pkgnames
    split
    · rename_i st1 u heq
      rw [heq] at h1
      obtain ⟨evs2, h2, hn2⟩ := ih st1
      refine ⟨evs1 ++ evs2, ?_, ?_⟩
      · rw [h2, h1, List.append_assoc]
      · intro p hp
        rcases List.mem_append.mp hp with hp | hp
        · exact hn1 p hp
        · exact hn2 p hp
    · rename_i st1 e heq
      rw [heq] at h1
      exact ⟨evs1, h1, hn1⟩

end task_lemmas

section task_properties
variable {V P : Type} [LinearOrder V] [LinearOrder P]

theorem recorded_outcomes_latest_pkgnames (opts : options) (env : environment V P)
    (path : P) (p : P) (name : pkgname V) :
    recorded_outcomes p name (latest_pkgnames opts env path).1 = [] := by
  unfold recorded_outcomes
  rw [List.filter_eq_nil_iff]
  intro e he
  rcases latest_pkgnames_effects opts env path e he with ⟨m, rfl⟩ | ⟨vars, rfl⟩ <;>
    simp [is_outcome]

theorem check_task_of_empty (pkgversion_default : V) (opts : options)
    (env : environment V P) (st : task_state V P) (path : P)
    (h : (latest_pkgnames opts env path).2 = Except.ok []) :
    check_task pkgversion_default opts env st path
      = ((st.emit (latest_pkgnames opts env path).1).MISSING_DONE path, Except.ok ()) := by
  unfold check_task
  rcases hl : latest_pkgnames opts env path with ⟨evs, r⟩
  rw [hl] at h
  simp only at h
  subst h
  simp

/-- C3 (as amended): a task of `check_installed_packages` whose set of latest pkgnames
is empty records MISSING_DONE of its path and no other outcome; an iteration of the
loop over the latest pkgnames never records MISSING_DONE and records at most one of
the outcomes OK, MISSING_TODO for the name and MISMATCH_TODO for its installed
counterpart; it records none exactly when the installed counterpart has the version of
the name and `check_build_version` is set (the task throws), or has a greater version
and `check_build_version` is unset (the message ends in "ignoring"). -/
theorem check_pkgname_outcomes (pkgversion_default : V) (opts : options)
    (env : environment V P) (path : P) (st : task_state V P) (name : pkgname V) :
    ((latest_pkgnames opts env path).2 = Except.ok [] →
        recorded_outcomes path name
          (performed st (check_task pkgversion_default opts env st path))
          = [event.MISSING_DONE path])
    ∧ (∀ p, event.MISSING_DONE p ∉
        performed st (check_pkgname pkgversion_default opts env path st name))
    ∧ (recorded_outcomes path name
        (performed st (check_pkgname pkgversion_default opts env path st name))).length ≤ 1
    ∧ ((recorded_outcomes path name
          (performed st (check_pkgname pkgversion_default opts env path st name))).length = 0
        ↔ ∃ installed, find_installed pkgversion_default env name = some installed
            ∧ ((installed.version = name.version ∧ opts.check_build_version = true)
              ∨ (name.version < installed.version ∧ opts.check_build_version = false))) := by
  refine ⟨?_, ?_, ?_⟩
  · intro h
    rw [check_task_of_empty pkgversion_default opts env st path h]
    have := recorded_outcomes_latest_pkgnames opts env path path name
    unfold recorded_outcomes at this ⊢
    simp [performed, task_state.emit, task_state.MISSING_DONE, List.filter_append, this,
      is_outcome]
  · intro p
    obtain ⟨evs, h1, h2⟩ := check_pkgname_trace pkgversion_default opts env path st name
    simp only [performed, h1, List.drop_left]
    exact h2 p
  · cases hf : find_installed pkgversion_default env name with
    | none =>
      unfold check_pkgname
      rw [hf]
      simp [performed, task_state.emit, task_state.MISSING_TODO, recorded_outcomes,
        List.filter_cons, is_outcome]
    | some installed =>
      have hbase := (find_installed_eq_some hf).2
      unfold check_pkgname
      rw [hf]
      rcases lt_trichotomy installed.version name.version with h | h | h
      · simp [h, ne_of_lt h, not_lt_of_gt h, performed, task_state.emit,
          task_state.MISMATCH_TODO, recorded_outcomes, List.filter_cons, is_outcome, hbase]
      · cases hb : opts.check_build_version <;>
          simp [h, hb, performed, task_state.emit, recorded_outcomes, List.filter_cons,
            is_outcome]
      · cases hb : opts.check_build_version <;>
          simp [h, hb, ne_of_gt h, not_lt_of_gt h, performed, task_state.emit,
            task_state.MISMATCH_TODO, recorded_outcomes, List.filter_cons, is_outcome, hbase]

/-- C4: the task of `check_installed_packages` for `path` calls `MISSING_DONE` (and
then with `path`) if and only if the set of latest pkgnames it computes is empty; in
that case the path is inserted into MISSING_DONE, MISSING_TODO and MISMATCH_TODO stay
as they were and neither mutator is called. The set computed from the source is empty
only if the Makefile of the path is absent or some pkgname installed from the path,
of a base other than the default one, re-extracts to a pkgname of another base, and
it is empty whenever the Makefile is absent. -/
theorem check_task_missing_done_iff (pkgversion_default : V) (opts : options)
    (env : environment V P) (st : task_state V P) (path : P) :
    (event.MISSING_DONE path ∈
        performed st (check_task pkgversion_default opts env st path)
      ↔ (latest_pkgnames opts env path).2 = Except.ok [])
    ∧ (∀ p, event.MISSING_DONE p ∈
        performed st (check_task pkgversion_default opts env st path) → p = path)
    ∧ ((latest_pkgnames opts env path).2 = Except.ok [] →
        (check_task pkgversion_default opts env st path).1.res
            = { _MISSING_DONE := set_insert path st.res._MISSING_DONE
                _MISSING_TODO := st.res._MISSING_TODO
                _MISMATCH_TODO := st.res._MISMATCH_TODO }
          ∧ (check_task pkgversion_default opts env st path).2 = Except.ok ()
          ∧ ∀ e ∈ performed st (check_task pkgversion_default opts env st path),
              (∀ n p, e ≠ event.MISSING_TODO n p) ∧ (∀ n, e ≠ event.MISMATCH_TODO n))
    ∧ ((latest_pkgnames_from_source opts env path).2 = Except.ok [] →
        env.Makefile_exists path = false
          ∨ ∃ default_pkgname installed_pkgnames,
              env.extract_pkgmk_var path "PKGNAME" [] = some default_pkgname
              ∧ (opts.update || opts.delete_mismatched) = true
              ∧ map_find path env.installed_pkgpaths_with_pkgnames = some installed_pkgnames
              ∧ ∃ i ∈ installed_pkgnames, i.base ≠ default_pkgname.base
                  ∧ ∃ a, env.extract_pkgmk_var path "PKGNAME" (PKGNAME_REQD i.base) = some a
                      ∧ a.base ≠ i.base)
    ∧ (env.Makefile_exists path = false →
        (latest_pkgnames_from_source opts env path).2 = Except.ok []) := by
  have hlatest := latest_pkgnames_effects opts env path
  have hnot : ∀ p, event.MISSING_DONE p ∉ (latest_pkgnames opts env path).1 := by
    intro p hp
    rcases hlatest _ hp with ⟨m, hm⟩ | ⟨vars, hv⟩
    · cases hm
    · cases hv
  refine ⟨?_, ?_, ?_, ?_, ?_⟩
  rotate_right
  · intro hm
    unfold latest_pkgnames_from_source
    simp [hm]
  · constructor
    · intro hmem
      by_contra hne
      revert hmem
      unfold check_task
      split
      · rename_i evs e heq
        rw [heq] at hnot
        simpa [performed, task_state.emit] using hnot path
      · rename_i evs latest heq
        rw [heq] at hnot hne
        have hl : latest.isEmpty = false := by
          cases latest with
          | nil => exact absurd rfl hne
          | cons a l => rfl
        simp only [hl, Bool.false_eq_true, if_false]
        obtain ⟨evs2, h1, h2⟩ :=
          check_pkgnames_trace pkgversion_default opts env path (st.emit evs) latest
        rw [performed, h1]
        simp only [task_state.emit, List.append_assoc, List.drop_left,
          List.mem_append]
        rintro (hp | hp)
        · exact hnot path hp
        · exact h2 path hp
    · intro h
      rw [check_task_of_empty pkgversion_default opts env st path h]
      simp [performed, task_state.emit, task_state.MISSING_DONE]
  · intro p
    unfold check_task
    split
    · rename_i evs e heq
      rw [heq] at hnot
      intro hp
      simp only [performed, task_state.emit, List.drop_left] at hp
      exact absurd hp (hnot p)
    · rename_i evs latest heq
      rw [heq] at hnot
      split_ifs with hl
      · intro hp
        simp only [performed, task_state.emit, task_state.MISSING_DONE, List.append_assoc,
          List.drop_left, List.mem_append, List.mem_singleton, event.MISSING_DONE.injEq] at hp
        rcases hp with hp | hp
        · exact absurd hp (hnot p)
        · exact hp
      · obtain ⟨evs2, h1, h2⟩ :=
          check_pkgnames_trace pkgversion_default opts env path (st.emit evs) latest
        intro hp
        rw [performed, h1] at hp
        simp only [task_state.emit, List.append_assoc, List.drop_left,
          List.mem_append] at hp
        rcases hp with hp | hp
        · exact absurd hp (hnot p)
        · exact absurd hp (h2 p)
  · intro h
    rw [check_task_of_empty pkgversion_default opts env st path h]
    refine ⟨by simp [task_state.emit, task_state.MISSING_DONE], rfl, ?_⟩
    intro e he
    simp only [performed, task_state.emit, task_state.MISSING_DONE, List.append_assoc,
      List.drop_left, List.mem_append, List.mem_singleton] at he
    rcases he with he | he
    · rcases hlatest _ he with ⟨m, hm⟩ | ⟨vars, hv⟩
      · subst hm
        exact ⟨fun _ _ h => (by cases h), fun _ h => (by cases h)⟩
      · subst hv
        exact ⟨fun _ _ h => (by cases h), fun _ h => (by cases h)⟩
    · subst he
      exact ⟨fun _ _ h => (by cases h), fun _ h => (by cases h)⟩
  · intro h
    unfold latest_pkgnames_from_source at h
    cases hm : env.Makefile_exists path
    · exact Or.inl rfl
    · right
      cases hx : env.extract_pkgmk_var path "PKGNAME" [] with
      | none => simp [hm, hx] at h
      | some d =>
        cases hu : (opts.update || opts.delete_mismatched)
        · simp [hm, hx, hu] at h
        · cases hf : map_find path env.installed_pkgpaths_with_pkgnames with
          | none => simp [hm, hx, hu, hf] at h
          | some insts =>
            simp [hm, hx, hu, hf] at h
            exact ⟨d, insts, rfl, rfl, rfl,
              alternative_pkgnames_eq_nil env path d insts [d] (by simp) h⟩

end task_properties

/-- Two tasks that record none of the four outcomes for the one latest pkgname
`python311-3.11.4` of `lang/python311`: with `check_build_version` set and
`python311-3.11.4` installed the task throws; with `check_build_version` unset and the
newer `python311-3.11.5` installed it only writes a message ending in "ignoring". -/
theorem check_task_outcomes_counterexample :
    ((latest_pkgnames (sample_options false true)
          (python_environment python311_3_11_4 [python311_3_11_4]) lang_python311).2
        = Except.ok [python311_3_11_4]
      ∧ (check_task [] (sample_options false true)
          (python_environment python311_3_11_4 [python311_3_11_4])
          task_state.init lang_python311).2
        = Except.error (failure.runtime_error "FIXME: -B not implemented yet")
      ∧ ¬ ((recorded_outcomes lang_python311 python311_3_11_4
            (performed task_state.init
              (check_task [] (sample_options false true)
                (python_environment python311_3_11_4 [python311_3_11_4])
                task_state.init lang_python311))).length = 1))
    ∧ ((latest_pkgnames (sample_options false false)
          (python_environment python311_3_11_4 [python311_3_11_5]) lang_python311).2
        = Except.ok [python311_3_11_4]
      ∧ (check_task [] (sample_options false false)
          (python_environment python311_3_11_4 [python311_3_11_5])
          task_state.init lang_python311).2
        = Except.ok ()
      ∧ ¬ ((recorded_outcomes lang_python311 python311_3_11_4
            (performed task_state.init
              (check_task [] (sample_options false false)
                (python_environment python311_3_11_4 [python311_3_11_5])
                task_state.init lang_python311))).length = 1)) := by
  decide

section set_lemmas
variable {α : Type} [LinearOrder α]

theorem set_insert_sorted (x : α) (s : List α) (hs : s.Sorted (· < ·)) :
    (set_insert x s).Sorted (· < ·) := by
  induction s with
  | nil => simp [set_insert]
  | cons y ys ih =>
    have hs' := List.sorted_cons.mp hs
    unfold set_insert
    split_ifs with h1 h2
    · refine List.sorted_cons.mpr ⟨?_, hs⟩
      intro z hz
      rcases List.mem_cons.mp hz with rfl | hz
      · exact h1
      · exact lt_trans h1 (hs'.1 z hz)
    · refine List.sorted_cons.mpr ⟨?_, ih hs'.2⟩
      intro z hz
      rcases (mem_set_insert z x ys).mp hz with rfl | hz
      · exact h2
      · exact hs'.1 z hz
    · exact hs

end set_lemmas

section source_lemmas
variable {V P : Type} [LinearOrder V] [LinearOrder P]

theorem alternative_pkgnames_spec (env : environment V P) (path : P)
    (default_pkgname : pkgname V) (installed_pkgnames pkgnames : List (pkgname V))
    (hall : ∀ i ∈ installed_pkgnames, i.base ≠ default_pkgname.base →
      ∃ a, env.extract_pkgmk_var path "PKGNAME" (PKGNAME_REQD i.base) = some a) :
    ((∃ i ∈ installed_pkgnames, i.base ≠ default_pkgname.base ∧
        ∃ a, env.extract_pkgmk_var path "PKGNAME" (PKGNAME_REQD i.base) = some a
          ∧ a.base ≠ i.base)
      ∧ (alternative_pkgnames env path default_pkgname installed_pkgnames pkgnames).2
          = Except.ok [])
    ∨ ((¬ ∃ i ∈ installed_pkgnames, i.base ≠ default_pkgname.base ∧
        ∃ a, env.extract_pkgmk_var path "PKGNAME" (PKGNAME_REQD i.base) = some a
          ∧ a.base ≠ i.base)
      ∧ ∃ s, (alternative_pkgnames env path default_pkgname installed_pkgnames pkgnames).2
            = Except.ok s
          ∧ (pkgnames.Sorted (· < ·) → s.Sorted (· < ·))
          ∧ ∀ n, n ∈ s ↔ n ∈ pkgnames ∨ ∃ i ∈ installed_pkgnames,
              i.base ≠ default_pkgname.base
                ∧ env.extract_pkgmk_var path "PKGNAME" (PKGNAME_REQD i.base) = some n) := by
  induction installed_pkgnames generalizing pkgnames with
  | nil =>
    right
    exact ⟨by simp, pkgnames, rfl, id, by simp⟩
  | cons i rest ih =>
    have hrest : ∀ j ∈ rest, j.base ≠ default_pkgname.base →
        ∃ a, env.extract_pkgmk_var path "PKGNAME" (PKGNAME_REQD j.base) = some a :=
      fun j hj => hall j (List.mem_cons_of_mem _ hj)
    by_cases hb : i.base ≠ default_pkgname.base
    · obtain ⟨a, ha⟩ := hall i (List.mem_cons_self _ _) hb
      by_cases hab : a.base = i.base
      · have hstep : (alternative_pkgnames env path default_pkgname (i :: rest) pkgnames).2
            = (alternative_pkgnames env path default_pkgname rest
                (set_insert a pkgnames)).2 := by
          rw [alternative_pkgnames]
          simp [hb, ha, hab]
        rw [hstep]
        rcases ih (set_insert a pkgnames) hrest with ⟨⟨j, hj, hjb, r⟩, hres⟩ | ⟨hno, s, hs, hsorted, hmem⟩
        · left
          exact ⟨⟨j, List.mem_cons_of_mem _ hj, hjb, r⟩, hres⟩
        · right
          refine ⟨?_, s, hs, fun h => hsorted (set_insert_sorted a pkgnames h), ?_⟩
          · rintro ⟨j, hj, hjb, b, hb1, hb2⟩
            rcases List.mem_cons.mp hj with rfl | hj
            · rw [ha] at hb1
              cases hb1
              exact hb2 hab
            · exact hno ⟨j, hj, hjb, b, hb1, hb2⟩
          · intro n
            rw [hmem n, mem_set_insert]
            constructor
            · rintro ((rfl | h) | ⟨j, hj, hjb, hjn⟩)
              · exact Or.inr ⟨i, List.mem_cons_self _ _, hb, ha⟩
              · exact Or.inl h
              · exact Or.inr ⟨j, List.mem_cons_of_mem _ hj, hjb, hjn⟩
            · rintro (h | ⟨j, hj, hjb, hjn⟩)
              · exact Or.inl (Or.inr h)
              · rcases List.mem_cons.mp hj with rfl | hj
                · rw [ha] at hjn
                  cases hjn
                  exact Or.inl (Or.inl rfl)
                · exact Or.inr ⟨j, hj, hjb, hjn⟩
      · left
        refine ⟨⟨i, List.mem_cons_self _ _, hb, a, ha, hab⟩, ?_⟩
        rw [alternative_pkgnames]
        simp [hb, ha, hab]
    · have hstep : alternative_pkgnames env path default_pkgname (i :: rest) pkgnames
          = alternative_pkgnames env path default_pkgname rest pkgnames := by
        rw [alternative_pkgnames]
        simp only [hb, if_false]
      rw [hstep]
      rcases ih pkgnames hrest with ⟨⟨j, hj, hjb, r⟩, hres⟩ | ⟨hno, s, hs, hsorted, hmem⟩
      · left
        exact ⟨⟨j, List.mem_cons_of_mem _ hj, hjb, r⟩, hres⟩
      · right
        refine ⟨?_, s, hs, hsorted, ?_⟩
        · rintro ⟨j, hj, hjb, r⟩
          rcases List.mem_cons.mp hj with rfl | hj
          · exact hb hjb
          · exact hno ⟨j, hj, hjb, r⟩
        · intro n
          rw [hmem n]
          constructor
          · rintro (h | ⟨j, hj, hjb, hjn⟩)
            · exact Or.inl h
            · exact Or.inr ⟨j, List.mem_cons_of_mem _ hj, hjb, hjn⟩
          · rintro (h | ⟨j, hj, hjb, hjn⟩)
            · exact Or.inl h
            · rcases List.mem_cons.mp hj with rfl | hj
              · exact absurd hjb hb
              · exact Or.inr ⟨j, hj, hjb, hjn⟩

end source_lemmas

section source_properties
variable {V P : Type} [LinearOrder V] [LinearOrder P]

/-- C10 (as amended): for a path whose Makefile exists and whose default PKGNAME
extraction yields `default_pkgname`, `latest_pkgnames_from_source` returns exactly
the set of `default_pkgname`, after that one extraction and no other, when neither
`update` nor `delete_mismatched` is set. Otherwise, provided that the re-extraction
yields a pkgname for every pkgname installed from the path whose base differs from the
default one, it returns the empty set if one of them re-extracts to a pkgname of
another base, and else the set of `default_pkgname` and the re-extracted pkgnames. -/
theorem latest_pkgnames_from_source_returns (opts : options) (env : environment V P)
    (path : P) (default_pkgname : pkgname V)
    (hmakefile : env.Makefile_exists path = true)
    (hdefault : env.extract_pkgmk_var path "PKGNAME" [] = some default_pkgname) :
    ((opts.update || opts.delete_mismatched) = false →
      latest_pkgnames_from_source opts env path
        = ([event.extract_pkgmk_var path "PKGNAME" []], Except.ok [default_pkgname]))
    ∧ ((opts.update || opts.delete_mismatched) = true →
        (∀ i ∈ (map_find path env.installed_pkgpaths_with_pkgnames).getD [],
          i.base ≠ default_pkgname.base →
            ∃ a, env.extract_pkgmk_var path "PKGNAME" (PKGNAME_REQD i.base) = some a) →
        ((∃ i ∈ (map_find path env.installed_pkgpaths_with_pkgnames).getD [],
            i.base ≠ default_pkgname.base ∧
              ∃ a, env.extract_pkgmk_var path "PKGNAME" (PKGNAME_REQD i.base) = some a
                ∧ a.base ≠ i.base) →
          (latest_pkgnames_from_source opts env path).2 = Except.ok [])
        ∧ ((¬ ∃ i ∈ (map_find path env.installed_pkgpaths_with_pkgnames).getD [],
            i.base ≠ default_pkgname.base ∧
              ∃ a, env.extract_pkgmk_var path "PKGNAME" (PKGNAME_REQD i.base) = some a
                ∧ a.base ≠ i.base) →
          ∃ s, (latest_pkgnames_from_source opts env path).2 = Except.ok s
            ∧ s.Sorted (· < ·)
            ∧ ∀ n, n ∈ s ↔ n = default_pkgname
                ∨ ∃ i ∈ (map_find path env.installed_pkgpaths_with_pkgnames).getD [],
                    i.base ≠ default_pkgname.base
                      ∧ env.extract_pkgmk_var path "PKGNAME" (PKGNAME_REQD i.base)
                          = some n)) := by
  refine ⟨?_, ?_⟩
  · intro hu
    unfold latest_pkgnames_from_source
    simp [hmakefile, hdefault, hu]
  · intro hu hall
    cases hf : map_find path env.installed_pkgpaths_with_pkgnames with
    | none =>
      have hres : (latest_pkgnames_from_source opts env path).2
          = Except.ok [default_pkgname] := by
        unfold latest_pkgnames_from_source
        simp [hmakefile, hdefault, hu, hf]
      refine ⟨?_, ?_⟩
      · rintro ⟨i, hi, -⟩
        simp at hi
      · intro _
        exact ⟨[default_pkgname], hres, List.sorted_singleton _, by simp⟩
    | some insts =>
      rw [hf] at hall
      simp only [Option.getD_some] at hall ⊢
      have hres : (latest_pkgnames_from_source opts env path).2
          = (alternative_pkgnames env path default_pkgname insts [default_pkgname]).2 := by
        unfold latest_pkgnames_from_source
        simp [hmakefile, hdefault, hu, hf]
      rw [hres]
      rcases alternative_pkgnames_spec env path default_pkgname insts [default_pkgname] hall
        with ⟨hex, hnil⟩ | ⟨hno, s, hs, hsorted, hmem⟩
      · exact ⟨fun _ => hnil, fun h => absurd hex h⟩
      · refine ⟨fun h => absurd h hno, fun _ => ⟨s, hs, hsorted (List.sorted_singleton _), ?_⟩⟩
        intro n
        rw [hmem n, List.mem_singleton]

end source_properties

/-- A path that has dropped an alternative, under `update`: the re-extraction for the
installed `py310-foo-1.0` yields `py311-foo-1.2`, of another base, and the set returned
is empty. -/
theorem latest_pkgnames_from_source_returns_witness :
    dropped_environment.Makefile_exists devel_py_foo = true
    ∧ dropped_environment.extract_pkgmk_var devel_py_foo "PKGNAME" [] = some py311_foo_1_2
    ∧ (sample_options true false).update = true
    ∧ (latest_pkgnames_from_source (sample_options true false) dropped_environment
        devel_py_foo).2 = Except.ok [] :=
  ⟨rfl, rfl, rfl,
    ((latest_pkgnames_from_source_returns (sample_options true false) dropped_environment
      devel_py_foo py311_foo_1_2 rfl rfl).2 rfl
      (fun _ _ _ => ⟨py311_foo_1_2, rfl⟩)).1
      ⟨py310_foo_1_0, by decide, by decide, py311_foo_1_2, rfl, by decide⟩⟩

/-- A re-extraction that yields no pkgname: the Makefile of `devel/py-foo` exists and
its default PKGNAME is extracted, `update` is set, and `latest_pkgnames_from_source`
returns no set: it throws. -/
theorem latest_pkgnames_from_source_counterexample :
    unextractable_environment.Makefile_exists devel_py_foo = true
    ∧ unextractable_environment.extract_pkgmk_var devel_py_foo "PKGNAME" []
        = some py311_foo_1_2
    ∧ (latest_pkgnames_from_source (sample_options true false) unextractable_environment
        devel_py_foo).2 = Except.error failure.bad_optional_access := by
  decide

/-- A path that has dropped an alternative: the set of latest pkgnames of `devel/py-foo`
is empty, and the task records MISSING_DONE of the path and no other outcome. -/
theorem check_pkgname_outcomes_witness :
    (latest_pkgnames (sample_options true false) dropped_environment devel_py_foo).2
      = Except.ok []
    ∧ recorded_outcomes devel_py_foo py310_foo_1_0
        (performed task_state.init
          (check_task [] (sample_options true false) dropped_environment task_state.init
            devel_py_foo))
      = [event.MISSING_DONE devel_py_foo] :=
  ⟨by decide,
    (check_pkgname_outcomes [] (sample_options true false) dropped_environment devel_py_foo
      task_state.init py310_foo_1_0).1 (by decide)⟩

/-- A path that has dropped an alternative: the task inserts `devel/py-foo` into
MISSING_DONE and leaves the other two collections empty. -/
theorem check_task_missing_done_iff_witness :
    (latest_pkgnames (sample_options true false) dropped_environment devel_py_foo).2
      = Except.ok []
    ∧ (check_task [] (sample_options true false) dropped_environment task_state.init
        devel_py_foo).1.res
      = { _MISSING_DONE := [devel_py_foo], _MISSING_TODO := [], _MISMATCH_TODO := [] } :=
  ⟨by decide,
    ((check_task_missing_done_iff [] (sample_options true false) dropped_environment
      task_state.init devel_py_foo).2.2.1 (by decide)).1⟩

/-! ## The summary reader: lines -/

section string_lemmas

theorem find_eq (s : Str) (c : Char) :
    find s c = if c ∈ s then some (s.takeWhile (fun x => x != c)).length else none := by
  induction s with
  | nil => simp [find]
  | cons x xs ih =>
    unfold find
    by_cases hx : x = c
    · simp [hx]
    · have hx' : ¬ c = x := fun h => hx h.symm
      simp only [hx, if_false, ih, List.mem_cons, hx', false_or]
      by_cases hc : c ∈ xs
      · simp [hc, List.takeWhile_cons, hx]
      · simp [hc]

theorem take_length_takeWhile {α : Type} (p : α → Bool) (l : List α) :
    l.take (l.takeWhile p).length = l.takeWhile p := by
  induction l with
  | nil => simp
  | cons a l ih =>
    by_cases h : p a
    · simp [List.takeWhile_cons, h, ih]
    · simp [List.takeWhile_cons, h]

theorem drop_length_takeWhile {α : Type} (p : α → Bool) (l : List α) :
    l.drop (l.takeWhile p).length = l.dropWhile p := by
  induction l with
  | nil => simp
  | cons a l ih =>
    by_cases h : p a
    · simp [List.takeWhile_cons, List.dropWhile_cons, h, ih]
    · simp [List.takeWhile_cons, List.dropWhile_cons, h]

theorem getlines_from_no_newline (cur s : Str) (hcur : '\n' ∉ cur) :
    ∀ l ∈ getlines_from cur s, '\n' ∉ l := by
  induction s generalizing cur with
  | nil =>
    intro l hl
    unfold getlines_from at hl
    split_ifs at hl with h
    · simp at hl
    · simp only [List.mem_singleton] at hl
      subst hl
      simpa using hcur
  | cons c cs ih =>
    intro l hl
    unfold getlines_from at hl
    split_ifs at hl with h
    · rcases List.mem_cons.mp hl with rfl | hl
      · simpa using hcur
      · exact ih [] (by simp) l hl
    · refine ih (c :: cur) ?_ l hl
      simp only [List.mem_cons, not_or]
      exact ⟨fun h' => h h'.symm, hcur⟩

theorem getlines_from_line (cur l rest : Str) (hl : '\n' ∉ l) :
    getlines_from cur (l ++ '\n' :: rest) = (cur.reverse ++ l) :: getlines_from [] rest := by
  induction l generalizing cur with
  | nil => simp [getlines_from]
  | cons c l ih =>
    simp only [List.mem_cons, not_or] at hl
    have hc : ¬ c = '\n' := fun h => hl.1 h.symm
    have step : getlines_from cur (c :: (l ++ '\n' :: rest))
        = getlines_from (c :: cur) (l ++ '\n' :: rest) := by
      rw [getlines_from]
      simp only [hc, if_false]
    rw [List.cons_append, step, ih (c :: cur) hl.2]
    simp

theorem getlines_unlines (ls : List Str) (h : ∀ l ∈ ls, '\n' ∉ l) :
    getlines (unlines ls) = ls := by
  induction ls with
  | nil => simp [getlines, unlines, getlines_from]
  | cons l ls ih =>
    have h1 := h l (List.mem_cons_self _ _)
    have h2 : ∀ l' ∈ ls, '\n' ∉ l' := fun l' hl' => h l' (List.mem_cons_of_mem _ hl')
    unfold getlines unlines
    rw [getlines_from_line [] l (unlines ls) h1]
    simp only [List.reverse_nil, List.nil_append]
    exact congrArg _ (ih h2)

theorem upto_last_blank_append (ls : List Str) :
    ∃ tail, ls = upto_last_blank ls ++ tail ∧ ∀ l ∈ tail, l ≠ [] := by
  refine ⟨(ls.reverse.takeWhile (fun l => decide (l ≠ []))).reverse, ?_, ?_⟩
  · unfold upto_last_blank
    rw [← List.reverse_append, List.takeWhile_append_dropWhile, List.reverse_reverse]
  · intro l hl
    have := List.mem_takeWhile_imp (List.mem_reverse.mp hl)
    simpa using this

end string_lemmas

theorem blocks_from_ne_nil (cur ls : List Str) : blocks_from cur ls ≠ [] := by
  induction ls generalizing cur with
  | nil => simp [blocks_from]
  | cons l ls ih =>
    unfold blocks_from
    split_ifs
    · simp
    · exact ih _

section read_lemmas
variable {N P D : Type} [LinearOrder N]
variable (mkname : Str → N) (mkpath : Str → P) (mkpattern : Str → D)

theorem read_line_of_nonblank (st : read_state N P D) (line : Str) (hline : line ≠ []) :
    read_line mkname mkpath mkpattern st line =
      match line_variable line with
      | some var =>
        if var = "DEPENDS".toList then
          { st with DEPENDS := st.DEPENDS ++ [mkpattern (line_value line)] }
        else if var = "PKGNAME".toList then
          { st with PKGNAME := some (mkname (line_value line)) }
        else if var = "PKGPATH".toList then
          { st with PKGPATH := some (mkpath (line_value line)) }
        else st
      | none => st := by
  unfold read_line line_variable
  rw [if_neg hline, find_eq]
  by_cases h : '=' ∈ line
  · have hvalue : (if (line.takeWhile (fun x => x != '=')).length + 1 < line.length
          then substr_from line ((line.takeWhile (fun x => x != '=')).length + 1) else [])
        = line_value line := by
      have hdrop : line.drop ((line.takeWhile (fun x => x != '=')).length + 1)
          = line_value line := by
        unfold line_value
        rw [← drop_length_takeWhile, List.drop_drop, Nat.add_comm]
      split_ifs with hlt
      · exact hdrop
      · rw [← hdrop]
        exact (List.drop_eq_nil_of_le (not_lt.mp hlt)).symm
    simp only [h, if_true, substr, List.drop_zero, take_length_takeWhile, hvalue]
  · simp only [h, if_false]

theorem read_line_sum_of_nonblank (st : read_state N P D) (line : Str) (hline : line ≠ []) :
    (read_line mkname mkpath mkpattern st line).sum = st.sum := by
  rw [read_line_of_nonblank mkname mkpath mkpattern st line hline]
  split
  · split_ifs <;> rfl
  · rfl

theorem read_lines_sum_of_nonblank (st : read_state N P D) (ls : List Str)
    (h : ∀ l ∈ ls, l ≠ []) :
    (read_lines mkname mkpath mkpattern st ls).sum = st.sum := by
  induction ls generalizing st with
  | nil => rfl
  | cons l ls ih =>
    have h1 := h l (List.mem_cons_self _ _)
    have h2 : ∀ l' ∈ ls, l' ≠ [] := fun l' hl' => h l' (List.mem_cons_of_mem _ hl')
    unfold read_lines
    rw [List.foldl_cons]
    exact (ih (read_line mkname mkpath mkpattern st l) h2).trans
      (read_line_sum_of_nonblank mkname mkpath mkpattern st l h1)

theorem read_lines_append (st : read_state N P D) (xs ys : List Str) :
    read_lines mkname mkpath mkpattern st (xs ++ ys)
      = read_lines mkname mkpath mkpattern (read_lines mkname mkpath mkpattern st xs) ys := by
  simp [read_lines, List.foldl_append]

theorem block_values_append_singleton (var : Str) (b : List Str) (l : Str) :
    block_values var (b ++ [l])
      = block_values var b ++ (if line_variable l = some var then [line_value l] else []) := by
  unfold block_values
  rw [List.filter_append, List.map_append]
  by_cases h : line_variable l = some var
  · simp [List.filter_cons, h]
  · simp [List.filter_cons, h]

theorem read_lines_block (m : summary N P D) (b : List Str) (hb : ∀ l ∈ b, l ≠ []) :
    read_lines mkname mkpath mkpattern (read_reset m) b =
      { sum := m
        DEPENDS := (block_values "DEPENDS".toList b).map mkpattern
        PKGNAME := (block_values "PKGNAME".toList b).getLast?.map mkname
        PKGPATH := (block_values "PKGPATH".toList b).getLast?.map mkpath } := by
  induction b using List.reverseRecOn with
  | nil => rfl
  | append_singleton b l ih =>
    have hl : l ≠ [] := hb l (by simp)
    have hb' : ∀ l' ∈ b, l' ≠ [] := fun l' hl' => hb l' (by simp [hl'])
    rw [read_lines_append, ih hb']
    simp only [read_lines, List.foldl_cons, List.foldl_nil]
    rw [read_line_of_nonblank mkname mkpath mkpattern _ l hl]
    simp only [block_values_append_singleton]
    cases hv : line_variable l with
    | none => simp
    | some var =>
      by_cases h1 : var = "DEPENDS".toList
      · subst h1
        simp
      · by_cases h2 : var = "PKGNAME".toList
        · subst h2
          simp
        · by_cases h3 : var = "PKGPATH".toList
          · subst h3
            simp
          · simp only [String.toList] at h1 h2 h3
            simp [h1, h2, h3]

theorem read_line_blank (st : read_state N P D) :
    read_line mkname mkpath mkpattern st [] =
      read_reset (match st.PKGNAME, st.PKGPATH with
        | some n, some p =>
          map_emplace n { DEPENDS := st.DEPENDS, PKGNAME := n, PKGPATH := p } st.sum
        | _, _ => st.sum) := by
  simp [read_line, read_reset]

theorem read_lines_block_blank (m : summary N P D) (b : List Str) (hb : ∀ l ∈ b, l ≠ []) :
    read_lines mkname mkpath mkpattern (read_reset m) (b ++ [[]])
      = read_reset (add_block mkname mkpath mkpattern m b) := by
  rw [read_lines_append, read_lines_block mkname mkpath mkpattern m b hb]
  simp only [read_lines, List.foldl_cons, List.foldl_nil, read_line_blank]
  unfold add_block block_record
  cases (block_values "PKGNAME".toList b).getLast? <;>
    cases (block_values "PKGPATH".toList b).getLast? <;> rfl

theorem read_lines_blocks_from (m : summary N P D) (cur ls : List Str)
    (hcur : ∀ l ∈ cur, l ≠ []) :
    (read_lines mkname mkpath mkpattern
        (read_lines mkname mkpath mkpattern (read_reset m) cur) ls).sum
      = (blocks_from cur ls).dropLast.foldl (add_block mkname mkpath mkpattern) m := by
  induction ls generalizing m cur with
  | nil =>
    simp only [blocks_from, List.dropLast_single, List.foldl_nil]
    exact read_lines_sum_of_nonblank mkname mkpath mkpattern _ cur hcur
  | cons l ls ih =>
    by_cases hl : l = []
    · subst hl
      have hstep : read_lines mkname mkpath mkpattern
            (read_lines mkname mkpath mkpattern (read_reset m) cur) ([] :: ls)
          = read_lines mkname mkpath mkpattern
              (read_lines mkname mkpath mkpattern
                (read_reset (add_block mkname mkpath mkpattern m cur)) []) ls := by
        rw [← read_lines_block_blank mkname mkpath mkpattern m cur hcur, read_lines_append]
        rfl
      rw [hstep, ih _ [] (by simp)]
      have hne : blocks_from [] ls ≠ [] := blocks_from_ne_nil [] ls
      simp only [blocks_from, if_true]
      rw [List.dropLast_cons_of_ne_nil hne, List.foldl_cons]
    · have hstep : read_lines mkname mkpath mkpattern
            (read_lines mkname mkpath mkpattern (read_reset m) cur) (l :: ls)
          = read_lines mkname mkpath mkpattern
              (read_lines mkname mkpath mkpattern (read_reset m) (cur ++ [l])) ls := by
        rw [read_lines_append]
        rfl
      rw [hstep, ih m (cur ++ [l])]
      · simp only [blocks_from, hl, if_false]
      · intro l' hl'
        rcases List.mem_append.mp hl' with h | h
        · exact hcur l' h
        · simp only [List.mem_singleton] at h
          subst h
          exact hl

end read_lemmas

section map_lemmas
variable {κ β : Type} [LinearOrder κ]

theorem map_find_eq_none_iff (k : κ) (m : List (κ × β)) :
    map_find k m = none ↔ k ∉ m.map Prod.fst := by
  induction m with
  | nil => simp [map_find]
  | cons e m ih =>
    unfold map_find
    by_cases h : e.1 = k
    · simp [h]
    · have h' : ¬ k = e.1 := fun hk => h hk.symm
      simp [h, h', ih]

theorem mem_keys_map_emplace (k' k : κ) (v : β) (m : List (κ × β)) :
    k' ∈ (map_emplace k v m).map Prod.fst ↔ k' = k ∨ k' ∈ m.map Prod.fst := by
  induction m with
  | nil => simp [map_emplace]
  | cons e m ih =>
    unfold map_emplace
    split_ifs with h1 h2
    · simp
    · simp only [List.map_cons, List.mem_cons, ih]
      tauto
    · have hk : k = e.1 := le_antisymm (not_lt.mp h2) (not_lt.mp h1)
      simp only [List.map_cons, List.mem_cons]
      constructor
      · exact Or.inr
      · rintro (h | h)
        · exact Or.inl (h.trans hk)
        · exact h

theorem mem_map_emplace (x : κ × β) (k : κ) (v : β) (m : List (κ × β)) :
    x ∈ map_emplace k v m → x = (k, v) ∨ x ∈ m := by
  induction m with
  | nil => simp [map_emplace]
  | cons e m ih =>
    unfold map_emplace
    split_ifs with h1 h2
    · simp
    · simp only [List.mem_cons]
      rintro (h | h)
      · exact Or.inr (Or.inl h)
      · rcases ih h with h | h
        · exact Or.inl h
        · exact Or.inr (Or.inr h)
    · exact Or.inr

theorem map_emplace_sorted (k : κ) (v : β) (m : List (κ × β))
    (hs : (m.map Prod.fst).Sorted (· < ·)) :
    ((map_emplace k v m).map Prod.fst).Sorted (· < ·) := by
  induction m with
  | nil => simp [map_emplace]
  | cons e m ih =>
    have hs' := List.sorted_cons.mp hs
    unfold map_emplace
    split_ifs with h1 h2
    · refine List.sorted_cons.mpr ⟨?_, hs⟩
      intro z hz
      rcases List.mem_cons.mp hz with rfl | hz
      · exact h1
      · exact lt_trans h1 (hs'.1 z hz)
    · refine List.sorted_cons.mpr ⟨?_, ih hs'.2⟩
      intro z hz
      rcases (mem_keys_map_emplace z k v m).mp hz with rfl | hz
      · exact h2
      · exact hs'.1 z hz
    · exact hs

theorem map_find_map_emplace_of_ne (k' k : κ) (v : β) (m : List (κ × β)) (h : k' ≠ k) :
    map_find k' (map_emplace k v m) = map_find k' m := by
  have h' : ¬ k = k' := fun hk => h hk.symm
  induction m with
  | nil => simp [map_emplace, map_find, h']
  | cons e m ih =>
    unfold map_emplace
    split_ifs with h1 h2
    · simp [map_find, h']
    · simp only [map_find, ih]
    · rfl

theorem map_find_map_emplace_of_none (k : κ) (v : β) (m : List (κ × β))
    (h : map_find k m = none) : map_find k (map_emplace k v m) = some v := by
  induction m with
  | nil => simp [map_emplace, map_find]
  | cons e m ih =>
    unfold map_find at h
    split_ifs at h with he
    unfold map_emplace
    split_ifs with h1 h2
    · simp [map_find]
    · simp only [map_find, he, if_false]
      exact ih h
    · exact absurd (le_antisymm (not_lt.mp h1) (not_lt.mp h2)) he

theorem map_emplace_of_some (k : κ) (v v0 : β) (m : List (κ × β))
    (hs : (m.map Prod.fst).Sorted (· < ·)) (h : map_find k m = some v0) :
    map_emplace k v m = m := by
  induction m with
  | nil => simp [map_find] at h
  | cons e m ih =>
    have hs' := List.sorted_cons.mp hs
    unfold map_find at h
    unfold map_emplace
    split_ifs at h with he
    · simp [he]
    · have hk : k ∈ m.map Prod.fst := by
        by_contra hno
        rw [(map_find_eq_none_iff k m).mpr hno] at h
        cases h
      have hlt : e.1 < k := hs'.1 k hk
      simp only [not_lt_of_gt hlt, if_false, hlt, if_true]
      rw [ih hs'.2 h]

theorem length_map_emplace_of_none (k : κ) (v : β) (m : List (κ × β))
    (h : map_find k m = none) : (map_emplace k v m).length = m.length + 1 := by
  induction m with
  | nil => simp [map_emplace]
  | cons e m ih =>
    unfold map_find at h
    split_ifs at h with he
    unfold map_emplace
    split_ifs with h1 h2
    · simp
    · simp [ih h]
    · exact absurd (le_antisymm (not_lt.mp h1) (not_lt.mp h2)) he

end map_lemmas

section read_invariants
variable {N P D : Type} [LinearOrder N]
variable (mkname : Str → N) (mkpath : Str → P) (mkpattern : Str → D)

theorem read_line_sum_cases (st : read_state N P D) (line : Str) :
    (read_line mkname mkpath mkpattern st line).sum = st.sum
      ∨ ∃ n p d, (read_line mkname mkpath mkpattern st line).sum
          = map_emplace n { DEPENDS := d, PKGNAME := n, PKGPATH := p } st.sum := by
  by_cases hl : line = []
  · subst hl
    rw [read_line_blank]
    cases hn : st.PKGNAME with
    | none => exact Or.inl rfl
    | some n =>
      cases hp : st.PKGPATH with
      | none => exact Or.inl rfl
      | some p => exact Or.inr ⟨n, p, st.DEPENDS, rfl⟩
  · exact Or.inl (read_line_sum_of_nonblank mkname mkpath mkpattern st line hl)

theorem read_lines_sum_induction (Q : summary N P D → Prop)
    (hQ : ∀ m n p d, Q m → Q (map_emplace n { DEPENDS := d, PKGNAME := n, PKGPATH := p } m))
    (st : read_state N P D) (ls : List Str) (h : Q st.sum) :
    Q (read_lines mkname mkpath mkpattern st ls).sum := by
  induction ls generalizing st with
  | nil => exact h
  | cons l ls ih =>
    unfold read_lines
    rw [List.foldl_cons]
    refine ih _ ?_
    rcases read_line_sum_cases mkname mkpath mkpattern st l with h1 | ⟨n, p, d, h1⟩
    · rw [h1]
      exact h
    · rw [h1]
      exact hQ _ _ _ _ h

theorem read_lines_sorted (st : read_state N P D) (ls : List Str)
    (h : (st.sum.map Prod.fst).Sorted (· < ·)) :
    ((read_lines mkname mkpath mkpattern st ls).sum.map Prod.fst).Sorted (· < ·) :=
  read_lines_sum_induction mkname mkpath mkpattern
    (fun m => (m.map Prod.fst).Sorted (· < ·))
    (fun m n _ _ hm => map_emplace_sorted n _ m hm) st ls h

theorem read_lines_keeps_entry (st : read_state N P D) (ls : List Str) (k : N)
    (r : pkgvars N P D) (hs : (st.sum.map Prod.fst).Sorted (· < ·))
    (h : map_find k st.sum = some r) :
    map_find k (read_lines mkname mkpath mkpattern st ls).sum = some r := by
  have := read_lines_sum_induction mkname mkpath mkpattern
    (fun m => (m.map Prod.fst).Sorted (· < ·) ∧ map_find k m = some r)
    (fun m n p d hm => by
      refine ⟨map_emplace_sorted n _ m hm.1, ?_⟩
      by_cases hk : k = n
      · subst hk
        rw [map_emplace_of_some k _ r m hm.1 hm.2]
        exact hm.2
      · rw [map_find_map_emplace_of_ne k n _ m hk]
        exact hm.2) st ls ⟨hs, h⟩
  exact this.2

theorem read_lines_of_complete (pre : List Str) (hpre : pre = [] ∨ pre.getLast? = some []) :
    read_lines mkname mkpath mkpattern read_init pre
      = read_reset (read_lines mkname mkpath mkpattern read_init pre).sum := by
  rcases hpre with rfl | hpre
  · rfl
  · obtain ⟨pre', rfl⟩ : ∃ pre', pre = pre' ++ [[]] := by
      rcases List.eq_nil_or_concat pre with rfl | ⟨pre', l, rfl⟩
      · simp at hpre
      · rw [List.concat_eq_append, List.getLast?_append] at hpre
        simp at hpre
        exact ⟨pre', by rw [List.concat_eq_append, hpre]⟩
    rw [read_lines_append]
    simp only [read_lines, List.foldl_cons, List.foldl_nil, read_line_blank, read_reset]

theorem read_summary_eq_blocks (input : Str) :
    read_summary mkname mkpath mkpattern input
      = (terminated_blocks (getlines input)).foldl (add_block mkname mkpath mkpattern) [] := by
  have := read_lines_blocks_from mkname mkpath mkpattern [] [] (getlines input) (by simp)
  exact this

theorem mem_keys_foldl_add_block (bs : List (List Str)) (m : summary N P D) (k : N) :
    k ∈ (bs.foldl (add_block mkname mkpath mkpattern) m).map Prod.fst
      ↔ k ∈ m.map Prod.fst
        ∨ ∃ b ∈ bs, ∃ r, block_record mkname mkpath mkpattern b = some r ∧ r.PKGNAME = k := by
  induction bs generalizing m with
  | nil => simp
  | cons b bs ih =>
    rw [List.foldl_cons, ih]
    unfold add_block
    cases hr : block_record mkname mkpath mkpattern b with
    | none =>
      simp only [List.mem_cons, exists_eq_or_imp, hr, false_and, exists_false, false_or,
        reduceCtorEq]
    | some r =>
      simp only [mem_keys_map_emplace, List.mem_cons, exists_eq_or_imp, hr, Option.some.injEq,
        exists_eq_left']
      constructor
      · rintro ((h | h) | h)
        · exact Or.inr (Or.inl h.symm)
        · exact Or.inl h
        · exact Or.inr (Or.inr h)
      · rintro (h | h | h)
        · exact Or.inl (Or.inr h)
        · exact Or.inl (Or.inl h.symm)
        · exact Or.inr h

theorem length_foldl_add_block (bs : List (List Str)) (m : summary N P D)
    (hdisjoint : ∀ k ∈ m.map Prod.fst,
      k ∉ (bs.filterMap (block_record mkname mkpath mkpattern)).map (fun r => r.PKGNAME))
    (hnodup : ((bs.filterMap (block_record mkname mkpath mkpattern)).map
      (fun r => r.PKGNAME)).Nodup) :
    (bs.foldl (add_block mkname mkpath mkpattern) m).length
      = m.length + (bs.filterMap (block_record mkname mkpath mkpattern)).length := by
  induction bs generalizing m with
  | nil => simp
  | cons b bs ih =>
    rw [List.foldl_cons]
    cases hr : block_record mkname mkpath mkpattern b with
    | none =>
      have hadd : add_block mkname mkpath mkpattern m b = m := by
        unfold add_block
        rw [hr]
      rw [hadd, List.filterMap_cons_none hr]
      rw [List.filterMap_cons_none hr] at hdisjoint hnodup
      exact ih m hdisjoint hnodup
    | some r =>
      have hadd : add_block mkname mkpath mkpattern m b = map_emplace r.PKGNAME r m := by
        unfold add_block
        rw [hr]
      rw [List.filterMap_cons_some hr] at hdisjoint hnodup ⊢
      simp only [List.map_cons, List.nodup_cons, List.mem_cons, not_or] at hdisjoint hnodup
      have hfresh : map_find r.PKGNAME m = none := by
        rw [map_find_eq_none_iff]
        intro hk
        exact (hdisjoint _ hk).1 rfl
      rw [hadd, ih]
      · rw [length_map_emplace_of_none _ _ _ hfresh, List.length_cons]
        omega
      · intro k hk
        rcases (mem_keys_map_emplace k _ _ _).mp hk with rfl | hk
        · exact hnodup.1
        · exact (hdisjoint k hk).2
      · exact hnodup.2

omit [LinearOrder N] in
theorem block_record_eq_none_iff (b : List Str) :
    block_record mkname mkpath mkpattern b = none ↔ sets_both b = false := by
  have hv : ∀ var, (block_values var b).getLast? = none ↔ has_variable var b = false := by
    intro var
    rw [List.getLast?_eq_none_iff]
    unfold block_values has_variable
    rw [List.map_eq_nil_iff, List.filter_eq_nil_iff, List.any_eq_false]
  unfold block_record sets_both
  rw [Bool.and_eq_false_iff, ← hv, ← hv]
  cases (block_values "PKGNAME".toList b).getLast? <;>
    cases (block_values "PKGPATH".toList b).getLast? <;> simp

omit [LinearOrder N] in
theorem length_filterMap_block_record (bs : List (List Str)) :
    (bs.filterMap (block_record mkname mkpath mkpattern)).length
      = (bs.filter sets_both).length := by
  induction bs with
  | nil => rfl
  | cons b bs ih =>
    cases hr : block_record mkname mkpath mkpattern b with
    | none =>
      have := (block_record_eq_none_iff mkname mkpath mkpattern b).mp hr
      rw [List.filterMap_cons_none hr, List.filter_cons, this]
      simpa using ih
    | some r =>
      have : sets_both b = true := by
        by_contra h
        rw [Bool.not_eq_true] at h
        rw [(block_record_eq_none_iff mkname mkpath mkpattern b).mpr h] at hr
        cases hr
      rw [List.filterMap_cons_some hr, List.filter_cons, this]
      simpa using ih

end read_invariants

theorem getlines_from_prefix (cur s : Str) (keep tail : List Str)
    (hsplit : getlines_from cur s = keep ++ tail)
    (hkeep : keep = [] ∨ keep.getLast? = some []) :
    ∃ rest, cur.reverse ++ s = unlines keep ++ rest := by
  induction s generalizing cur keep with
  | nil =>
    rcases hkeep with rfl | hkeep
    · exact ⟨_, rfl⟩
    · exfalso
      unfold getlines_from at hsplit
      split_ifs at hsplit with hcur
      · have := List.append_eq_nil.mp hsplit.symm
        rw [this.1] at hkeep
        simp at hkeep
      · rcases keep with _ | ⟨k, keep⟩
        · simp at hkeep
        · simp only [List.cons_append, List.cons.injEq] at hsplit
          have h2 := List.append_eq_nil.mp hsplit.2.symm
          rw [h2.1] at hkeep
          simp only [List.getLast?_singleton, Option.some.injEq] at hkeep
          rw [hkeep] at hsplit
          exact hcur (List.reverse_eq_nil_iff.mp hsplit.1)
  | cons c cs ih =>
    rcases keep with _ | ⟨k, keep⟩
    · exact ⟨_, rfl⟩
    · have hkeep' : keep = [] ∨ keep.getLast? = some [] := by
        rcases keep with _ | ⟨k', keep'⟩
        · exact Or.inl rfl
        · right
          rcases hkeep with h | h
          · cases h
          · simpa [List.getLast?_cons_cons] using h
      unfold getlines_from at hsplit
      split_ifs at hsplit with hc
      · simp only [List.cons_append, List.cons.injEq] at hsplit
        obtain ⟨rest, hrest⟩ := ih [] keep hsplit.2 hkeep'
        refine ⟨rest, ?_⟩
        simp only [List.reverse_nil, List.nil_append] at hrest
        rw [hc, hrest, ← hsplit.1]
        simp [unlines]
      · obtain ⟨rest, hrest⟩ := ih (c :: cur) (k :: keep) hsplit hkeep
        refine ⟨rest, ?_⟩
        rw [← hrest]
        simp

theorem getlines_unlines_append (ls : List Str) (rest : Str) (h : ∀ l ∈ ls, '\n' ∉ l) :
    getlines (unlines ls ++ rest) = ls ++ getlines rest := by
  induction ls with
  | nil => rfl
  | cons l ls ih =>
    have h1 := h l (List.mem_cons_self _ _)
    have h2 : ∀ l' ∈ ls, '\n' ∉ l' := fun l' hl' => h l' (List.mem_cons_of_mem _ hl')
    have hstep : unlines (l :: ls) ++ rest = l ++ '\n' :: (unlines ls ++ rest) := by
      simp [unlines]
    unfold getlines
    rw [hstep, getlines_from_line [] l _ h1]
    simp only [List.reverse_nil, List.nil_append, List.cons_append]
    exact congrArg _ (ih h2)

theorem upto_last_blank_complete (ls : List Str) :
    upto_last_blank ls = [] ∨ (upto_last_blank ls).getLast? = some [] := by
  unfold upto_last_blank
  rcases h : ls.reverse.dropWhile (fun l => decide (l ≠ [])) with _ | ⟨x, xs⟩
  · exact Or.inl rfl
  · right
    have hx := List.head_dropWhile_not (fun l => decide (l ≠ [])) ls.reverse
    simp only [h] at hx
    have hx' : x = [] := by simpa using hx (by simp)
    simp [hx']

section read_properties
variable {N P D : Type} [LinearOrder N]
variable (mkname : Str → N) (mkpath : Str → P) (mkpattern : Str → D)

/-- C6 (as amended): when a summary stream contains a complete record (a block of
non-blank lines that sets both PKGNAME and PKGPATH and is followed by a blank line)
and no record before it carries its PKGNAME, the result of `read_summary` maps that
PKGNAME to this record, whatever follows it: a later record with the same PKGNAME
does not replace it. The result has one entry per distinct PKGNAME: its keys are
pairwise distinct and are exactly the PKGNAMEs of the complete records. -/
theorem read_summary_keeps_earliest (input : Str) (pre b post : List Str)
    (r : pkgvars N P D)
    (hlines : getlines input = pre ++ b ++ [] :: post)
    (hpre : pre = [] ∨ pre.getLast? = some [])
    (hb : ∀ l ∈ b, l ≠ [])
    (hr : block_record mkname mkpath mkpattern b = some r)
    (hfirst : map_find r.PKGNAME (read_lines mkname mkpath mkpattern read_init pre).sum
      = none) :
    map_find r.PKGNAME (read_summary mkname mkpath mkpattern input) = some r
    ∧ ((read_summary mkname mkpath mkpattern input).map Prod.fst).Nodup
    ∧ ∀ k, k ∈ (read_summary mkname mkpath mkpattern input).map Prod.fst
        ↔ ∃ b' ∈ terminated_blocks (getlines input),
            ∃ r', block_record mkname mkpath mkpattern b' = some r' ∧ r'.PKGNAME = k := by
  have hsorted : ∀ ls, ((read_lines mkname mkpath mkpattern read_init ls).sum.map
      Prod.fst).Sorted (· < ·) :=
    fun ls => read_lines_sorted mkname mkpath mkpattern read_init ls (by simp [read_init])
  refine ⟨?_, (hsorted _).nodup, ?_⟩
  · unfold read_summary
    have hsplit : pre ++ b ++ [] :: post = pre ++ (b ++ [[]]) ++ post := by simp
    rw [hlines, hsplit, read_lines_append, read_lines_append,
      read_lines_of_complete mkname mkpath mkpattern pre hpre,
      read_lines_block_blank mkname mkpath mkpattern _ b hb]
    have hadd : add_block mkname mkpath mkpattern
        (read_lines mkname mkpath mkpattern read_init pre).sum b
        = map_emplace r.PKGNAME r (read_lines mkname mkpath mkpattern read_init pre).sum := by
      unfold add_block
      rw [hr]
    rw [hadd]
    refine read_lines_keeps_entry mkname mkpath mkpattern _ post r.PKGNAME r ?_ ?_
    · exact map_emplace_sorted _ _ _ (hsorted pre)
    · exact map_find_map_emplace_of_none _ _ _ hfirst
  · intro k
    rw [read_summary_eq_blocks, mem_keys_foldl_add_block]
    simp

/-- C7: for an input stream in which every block of non-blank lines is followed by a
blank line (the run of lines after the last blank line is empty) and the records of
the blocks that set both PKGNAME and PKGPATH carry pairwise distinct PKGNAMEs, the
number of entries of the summary that `read_summary` returns is the number of blocks
that contain both a PKGNAME line and a PKGPATH line; every entry is keyed by the
PKGNAME of such a block, so the other blocks contribute none. -/
theorem read_summary_length (input : Str)
    (hterminated : (blocks (getlines input)).getLast? = some [])
    (hdistinct : (((blocks (getlines input)).filterMap
      (block_record mkname mkpath mkpattern)).map (fun r => r.PKGNAME)).Nodup) :
    (read_summary mkname mkpath mkpattern input).length
      = ((blocks (getlines input)).filter sets_both).length
    ∧ ∀ k ∈ (read_summary mkname mkpath mkpattern input).map Prod.fst,
        ∃ b ∈ blocks (getlines input), sets_both b = true
          ∧ ∃ r, block_record mkname mkpath mkpattern b = some r ∧ r.PKGNAME = k := by
  obtain ⟨bs, hbs⟩ : ∃ bs, blocks (getlines input) = bs ++ [[]] := by
    rcases List.eq_nil_or_concat (blocks (getlines input)) with h | ⟨bs, l, h⟩
    · rw [h] at hterminated
      simp at hterminated
    · rw [h, List.concat_eq_append, List.getLast?_append] at hterminated
      simp at hterminated
      exact ⟨bs, by rw [h, List.concat_eq_append, hterminated]⟩
  have hrec : block_record mkname mkpath mkpattern ([] : List Str) = none := by
    rw [block_record_eq_none_iff]
    rfl
  have hterm : terminated_blocks (getlines input) = bs := by
    unfold terminated_blocks
    rw [hbs, List.dropLast_concat]
  have hmap : (bs ++ [[]]).filterMap (block_record mkname mkpath mkpattern)
      = bs.filterMap (block_record mkname mkpath mkpattern) := by
    rw [List.filterMap_append]
    simp [hrec]
  rw [hbs, hmap] at hdistinct
  refine ⟨?_, ?_⟩
  · rw [read_summary_eq_blocks, hterm,
      length_foldl_add_block mkname mkpath mkpattern bs [] (by simp) hdistinct,
      length_filterMap_block_record, hbs, List.filter_append]
    simp [sets_both, has_variable]
  · intro k hk
    rw [read_summary_eq_blocks, hterm, mem_keys_foldl_add_block] at hk
    rcases hk with hk | ⟨b, hb, r', hr', hk⟩
    · simp at hk
    · refine ⟨b, by rw [hbs]; exact List.mem_append_left _ hb, ?_, r', hr', hk⟩
      by_contra h
      rw [Bool.not_eq_true] at h
      rw [(block_record_eq_none_iff mkname mkpath mkpattern b).mpr h] at hr'
      cases hr'

/-- C8: for a block of non-blank lines of a summary stream that is followed by a blank
line, begins the stream or follows a blank line, and sets both PKGNAME and PKGPATH,
`read_summary` builds the record whose PKGNAME is read from the value of the last
PKGNAME line of the block, whose PKGPATH from the value of its last PKGPATH line and
whose DEPENDS from the values of the DEPENDS lines of the block in order, and of no
other block; it emplaces that record under its PKGNAME into the summary read so far
and goes on with nothing accumulated. The variable of a line is the text before its
first `=` and the value all the text after it; a non-blank line with another variable
or without `=` changes nothing. -/
theorem read_summary_block_record (input : Str) (pre b post : List Str) (n p : Str)
    (hlines : getlines input = pre ++ b ++ [] :: post)
    (hpre : pre = [] ∨ pre.getLast? = some [])
    (hb : ∀ l ∈ b, l ≠ [])
    (hn : (block_values "PKGNAME".toList b).getLast? = some n)
    (hp : (block_values "PKGPATH".toList b).getLast? = some p) :
    read_lines mkname mkpath mkpattern read_init (pre ++ b ++ [[]])
      = read_reset (map_emplace (mkname n)
          { DEPENDS := (block_values "DEPENDS".toList b).map mkpattern
            PKGNAME := mkname n
            PKGPATH := mkpath p }
          (read_lines mkname mkpath mkpattern read_init pre).sum)
    ∧ read_summary mkname mkpath mkpattern input
      = (read_lines mkname mkpath mkpattern
          (read_reset (map_emplace (mkname n)
            { DEPENDS := (block_values "DEPENDS".toList b).map mkpattern
              PKGNAME := mkname n
              PKGPATH := mkpath p }
            (read_lines mkname mkpath mkpattern read_init pre).sum)) post).sum
    ∧ ∀ (st : read_state N P D) (line : Str), line ≠ [] →
        line_variable line ≠ some "DEPENDS".toList →
        line_variable line ≠ some "PKGNAME".toList →
        line_variable line ≠ some "PKGPATH".toList →
        read_line mkname mkpath mkpattern st line = st := by
  have hrec : block_record mkname mkpath mkpattern b
      = some { DEPENDS := (block_values "DEPENDS".toList b).map mkpattern
               PKGNAME := mkname n
               PKGPATH := mkpath p } := by
    unfold block_record
    rw [hn, hp]
  have hblock : read_lines mkname mkpath mkpattern read_init (pre ++ b ++ [[]])
      = read_reset (map_emplace (mkname n)
          { DEPENDS := (block_values "DEPENDS".toList b).map mkpattern
            PKGNAME := mkname n
            PKGPATH := mkpath p }
          (read_lines mkname mkpath mkpattern read_init pre).sum) := by
    rw [List.append_assoc, read_lines_append,
      read_lines_of_complete mkname mkpath mkpattern pre hpre,
      read_lines_block_blank mkname mkpath mkpattern _ b hb]
    unfold add_block
    rw [hrec]
    rfl
  refine ⟨hblock, ?_, ?_⟩
  · unfold read_summary
    have hsplit : pre ++ b ++ [] :: post = (pre ++ b ++ [[]]) ++ post := by simp
    rw [hlines, hsplit, read_lines_append, hblock]
  · intro st line hline h1 h2 h3
    rw [read_line_of_nonblank mkname mkpath mkpattern st line hline]
    cases hv : line_variable line with
    | none => rfl
    | some var =>
      rw [hv] at h1 h2 h3
      simp only [ne_eq, Option.some.injEq] at h1 h2 h3
      simp only [h1, h2, h3, if_false]

/-- C9: the lines after the last blank line of a summary stream contribute nothing:
`read_summary` of the stream is `read_summary` of the stream made of its lines up to
and including the last blank line, which is the stream cut after that blank line (a
prefix of it), and it is the empty summary when the stream has no blank line. -/
theorem read_summary_upto_last_blank (input : Str) :
    read_summary mkname mkpath mkpattern input
      = read_summary mkname mkpath mkpattern (unlines (upto_last_blank (getlines input)))
    ∧ (∃ rest, input = unlines (upto_last_blank (getlines input)) ++ rest
        ∧ ∀ l ∈ getlines rest, l ≠ [])
    ∧ ((∀ l ∈ getlines input, l ≠ []) → read_summary mkname mkpath mkpattern input = []) := by
  refine ⟨?_, ?_, ?_⟩
  rotate_left
  · obtain ⟨tail, hsplit, htail⟩ := upto_last_blank_append (getlines input)
    obtain ⟨rest, hrest⟩ := getlines_from_prefix [] input _ tail hsplit
      (upto_last_blank_complete _)
    simp only [List.reverse_nil, List.nil_append] at hrest
    refine ⟨rest, hrest, ?_⟩
    have hclean : ∀ l ∈ upto_last_blank (getlines input), '\n' ∉ l := by
      intro l hl
      refine getlines_from_no_newline [] input (by simp) l ?_
      show l ∈ getlines input
      rw [hsplit]
      exact List.mem_append_left _ hl
    have hlines := getlines_unlines_append _ rest hclean
    rw [← hrest] at hlines
    have htail' : getlines rest = tail :=
      List.append_cancel_left (hlines.symm.trans hsplit)
    rw [htail']
    exact htail
  · intro h
    exact read_lines_sum_of_nonblank mkname mkpath mkpattern read_init _ h
  · obtain ⟨tail, hsplit, htail⟩ := upto_last_blank_append (getlines input)
    have hclean : ∀ l ∈ upto_last_blank (getlines input), '\n' ∉ l := by
      intro l hl
      refine getlines_from_no_newline [] input (by simp) l ?_
      show l ∈ getlines input
      rw [hsplit]
      exact List.mem_append_left _ hl
    unfold read_summary
    rw [getlines_unlines _ hclean]
    conv_lhs => rw [hsplit, read_lines_append]
    exact read_lines_sum_of_nonblank mkname mkpath mkpattern _ tail htail

end read_properties

/-- Two complete records with the PKGNAME `a-1`: the summary maps `a-1` to the first
record, of PKGPATH `x/a`. -/
theorem read_summary_keeps_earliest_witness :
    getlines duplicate_stream = [] ++ record_a_x ++ [] :: (record_a_y ++ [[]])
    ∧ map_find "a-1".toList
        (read_summary (id : Str → Str) (id : Str → Str) (id : Str → Str) duplicate_stream)
      = some (record_a "x/a".toList []) :=
  ⟨by decide,
    (read_summary_keeps_earliest (id : Str → Str) (id : Str → Str) (id : Str → Str)
      duplicate_stream [] record_a_x (record_a_y ++ [[]]) (record_a "x/a".toList [])
      (by decide) (Or.inl rfl) (by decide) (by decide) (by decide)).1⟩

/-- Two complete records with the PKGNAME `a-1`, the later one with PKGPATH `y/a`: the
summary does not map `a-1` to the later record. -/
theorem read_summary_duplicate_counterexample :
    getlines duplicate_stream = record_a_x ++ [] :: (record_a_y ++ [[]])
    ∧ block_record (id : Str → Str) (id : Str → Str) (id : Str → Str) record_a_y
      = some (record_a "y/a".toList [])
    ∧ ¬ (map_find "a-1".toList
        (read_summary (id : Str → Str) (id : Str → Str) (id : Str → Str) duplicate_stream)
      = some (record_a "y/a".toList [])) := by
  decide

/-- Three terminated blocks, two of which set both PKGNAME and PKGPATH: the summary
has two entries. -/
theorem read_summary_length_witness :
    (blocks (getlines terminated_stream)).getLast? = some []
    ∧ (read_summary (id : Str → Str) (id : Str → Str) (id : Str → Str)
        terminated_stream).length = 2 :=
  ⟨by decide,
    (read_summary_length (id : Str → Str) (id : Str → Str) (id : Str → Str)
      terminated_stream (by decide) (by decide)).1.trans (by decide)⟩

/-- A block with two DEPENDS lines, a line of another variable and two PKGPATH lines:
the record has both DEPENDS values in order, one of them empty, and the PKGPATH of the
last PKGPATH line; the unterminated record after it adds nothing. -/
theorem read_summary_block_record_witness :
    getlines sample_stream = [] ++ record_a_long ++ [] :: record_b
    ∧ read_summary (id : Str → Str) (id : Str → Str) (id : Str → Str) sample_stream
      = [("a-1".toList, record_a "x/a".toList ["z>=1".toList, []])] :=
  ⟨by decide,
    (read_summary_block_record (id : Str → Str) (id : Str → Str) (id : Str → Str)
      sample_stream [] record_a_long record_b "a-1".toList "x/a".toList
      (by decide) (Or.inl rfl) (by decide) (by decide) (by decide)).2.1.trans (by decide)⟩

/-- A stream without a blank line that sets both PKGNAME and PKGPATH: the summary is
empty. -/
theorem read_summary_upto_last_blank_witness :
    (∀ l ∈ getlines unterminated_stream, l ≠ [])
    ∧ read_summary (id : Str → Str) (id : Str → Str) (id : Str → Str) unterminated_stream
      = [] :=
  ⟨by decide,
    (read_summary_upto_last_blank (id : Str → Str) (id : Str → Str) (id : Str → Str)
      unterminated_stream).2.2 (by decide)⟩

/-! ## The paths to check, and the tasks that cannot compute latest pkgnames -/

section engine_lemmas
variable {α : Type} [LinearOrder α]

theorem mem_foldl_set_insert (a : α) (l s : List α) :
    a ∈ l.foldl (fun s x => set_insert x s) s ↔ a ∈ s ∨ a ∈ l := by
  induction l generalizing s with
  | nil => simp
  | cons x l ih =>
    rw [List.foldl_cons, ih, mem_set_insert, List.mem_cons]
    tauto

theorem foldl_set_insert_sorted (l s : List α) (hs : s.Sorted (· < ·)) :
    (l.foldl (fun s x => set_insert x s) s).Sorted (· < ·) := by
  induction l generalizing s with
  | nil => exact hs
  | cons x l ih =>
    rw [List.foldl_cons]
    exact ih _ (set_insert_sorted x s hs)

end engine_lemmas

section engine_properties
variable {V P : Type} [LinearOrder V] [LinearOrder P]

/-- C11: for a path whose Makefile does not exist, `latest_pkgnames_from_source`
writes one warning and returns the empty set, whatever the options are; it performs
no other effect, so `extract_pkgmk_var` is not called and no `make` is run for the
path. -/
theorem latest_pkgnames_from_source_no_makefile (opts : options) (env : environment V P)
    (path : P) (habsent : env.Makefile_exists path = false) :
    latest_pkgnames_from_source opts env path
      = ([event.warn [fragment.lit "No ", fragment.path path,
            fragment.lit "/Makefile - package moved or obsolete?", fragment.endl]],
          Except.ok [])
    ∧ ∀ dir var vars, event.extract_pkgmk_var dir var vars
        ∉ (latest_pkgnames_from_source opts env path).1 := by
  have h : latest_pkgnames_from_source opts env path
      = ([event.warn [fragment.lit "No ", fragment.path path,
            fragment.lit "/Makefile - package moved or obsolete?", fragment.endl]],
          Except.ok []) := by
    unfold latest_pkgnames_from_source
    simp [habsent]
  refine ⟨h, ?_⟩
  intro dir var vars
  rw [h]
  simp

/-- C12: `pkgpaths_to_check` returns the union of the installed pkgpaths, taken when
`delete_mismatched` or `update` is set, and of the pkgpaths that the configuration
file yields under `apply_tags`, taken when `add_missing` is set; the set is in order
when the installed pkgpaths are. With none of the three options set it returns the
empty set; with `add_missing` unset it constructs no `config`, performs no effect and
returns a set that does not depend on the configuration file. -/
theorem pkgpaths_to_check_union (opts : options) (env : environment V P) :
    (∀ p, p ∈ (pkgpaths_to_check opts env).2
        ↔ ((opts.delete_mismatched || opts.update) = true ∧ p ∈ env.installed_pkgpaths)
          ∨ (opts.add_missing = true ∧ p ∈ env.conf_apply_tags))
    ∧ (env.installed_pkgpaths.Sorted (· < ·) →
        (pkgpaths_to_check opts env).2.Sorted (· < ·))
    ∧ (opts.delete_mismatched = false → opts.update = false → opts.add_missing = false →
        pkgpaths_to_check opts env = ([], []))
    ∧ (opts.add_missing = false →
        pkgpaths_to_check opts env
          = ([], if opts.delete_mismatched || opts.update then env.installed_pkgpaths
                 else []))
    ∧ (opts.add_missing = true →
        (pkgpaths_to_check opts env).1
          = [event.verbose [fragment.lit "Append to PKGDIRLIST based on config ",
              fragment.file env.PKGCHK_CONF, fragment.endl],
            event.config env.PKGCHK_CONF]) := by
  refine ⟨?_, ?_, ?_, ?_, ?_⟩
  · intro p
    unfold pkgpaths_to_check
    cases ha : opts.add_missing <;> cases hu : (opts.delete_mismatched || opts.update) <;>
      simp [mem_foldl_set_insert]
  · intro hs
    unfold pkgpaths_to_check
    cases ha : opts.add_missing <;> cases hu : (opts.delete_mismatched || opts.update)
    · simp
    · simpa using hs
    · simpa using foldl_set_insert_sorted env.conf_apply_tags [] (by simp)
    · simpa using foldl_set_insert_sorted env.conf_apply_tags _ hs
  · intro h1 h2 h3
    unfold pkgpaths_to_check
    simp [h1, h2, h3]
  · intro h
    unfold pkgpaths_to_check
    simp [h]
  · intro h
    unfold pkgpaths_to_check
    simp [h]

theorem check_tasks_of_binary (pkgversion_default : V) (opts : options)
    (env : environment V P) (st : task_state V P) (paths : List P)
    (hunset : opts.build_from_source = false) :
    (check_tasks pkgversion_default opts env st paths).1 = st := by
  cases paths with
  | nil => rfl
  | cons path rest =>
    unfold check_tasks check_task latest_pkgnames
    simp [hunset, latest_pkgnames_from_binary, task_state.emit]

/-- C18: `latest_pkgnames_from_binary` throws for every environment and every path,
performing no effect; so with `build_from_source` unset every task of
`check_installed_packages` throws and leaves the state as it was, and the three
collections are empty and no effect has been performed when the tasks have ended,
whenever the result is read. -/
theorem latest_pkgnames_from_binary_throws (pkgversion_default : V) (opts : options)
    (env : environment V P) (st : task_state V P) (path : P) (pkgpaths : List P)
    (returned_at : Nat) :
    latest_pkgnames_from_binary env path
      = ([], Except.error (failure.runtime_error "FIXME: -b not implemented yet"))
    ∧ (opts.build_from_source = false →
        check_task pkgversion_default opts env st path
            = (st, Except.error (failure.runtime_error "FIXME: -b not implemented yet"))
          ∧ (check_installed_packages pkgversion_default opts env pkgpaths returned_at).1
            = task_state.init
          ∧ (check_tasks pkgversion_default opts env task_state.init pkgpaths).1
            = task_state.init) := by
  refine ⟨rfl, fun hunset => ⟨?_, ?_, ?_⟩⟩
  · unfold check_task latest_pkgnames
    simp [hunset, latest_pkgnames_from_binary, task_state.emit]
  · unfold check_installed_packages
    simp only [check_tasks_of_binary pkgversion_default opts env _ pkgpaths hunset]
    simp [task_state.init, apply_mutations]
  · exact check_tasks_of_binary pkgversion_default opts env _ pkgpaths hunset

end engine_properties

/-- An obsolete path: `lang/python27` has no Makefile, and the set of its latest
pkgnames is empty. -/
theorem latest_pkgnames_from_source_no_makefile_witness :
    obsolete_environment.Makefile_exists lang_python27 = false
    ∧ (latest_pkgnames_from_source (sample_options true false) obsolete_environment
        lang_python27).2 = Except.ok [] :=
  ⟨rfl,
    congrArg Prod.snd
      (latest_pkgnames_from_source_no_makefile (sample_options true false)
        obsolete_environment lang_python27 rfl).1⟩

/-- With `add_missing` alone, the paths to check are those of the configuration file. -/
theorem pkgpaths_to_check_union_witness :
    (python_environment python311_3_11_4 []).installed_pkgpaths.Sorted (· < ·)
    ∧ lang_python311
        ∈ (pkgpaths_to_check (sample_options false false)
            (python_environment python311_3_11_4 [])).2 :=
  ⟨by decide,
    ((pkgpaths_to_check_union (sample_options false false)
      (python_environment python311_3_11_4 [])).1 lang_python311).mpr
      (Or.inr ⟨rfl, by decide⟩)⟩

/-- With `build_from_source` unset the task of `lang/python311` throws and records
nothing. -/
theorem latest_pkgnames_from_binary_throws_witness :
    binary_options.build_from_source = false
    ∧ check_task [] binary_options (python_environment python311_3_11_4 [])
        task_state.init lang_python311
      = (task_state.init,
          Except.error (failure.runtime_error "FIXME: -b not implemented yet")) :=
  ⟨rfl,
    ((latest_pkgnames_from_binary_throws [] binary_options
      (python_environment python311_3_11_4 []) task_state.init lang_python311
      [lang_python311] 0).2 rfl).1⟩

/-! ## Ordered containers as canonical forms -/

section canonical_lemmas
variable {α κ β : Type} [LinearOrder α] [LinearOrder κ]

theorem sorted_ext (l1 l2 : List α) (h1 : l1.Sorted (· < ·)) (h2 : l2.Sorted (· < ·))
    (h : ∀ a, a ∈ l1 ↔ a ∈ l2) : l1 = l2 :=
  List.eq_of_perm_of_sorted ((List.perm_ext_iff_of_nodup h1.nodup h2.nodup).mpr h) h1 h2

theorem foldl_set_insert_perm (l l' s : List α) (hs : s.Sorted (· < ·)) (h : l.Perm l') :
    l.foldl (fun s x => set_insert x s) s = l'.foldl (fun s x => set_insert x s) s := by
  refine sorted_ext _ _ (foldl_set_insert_sorted l s hs) (foldl_set_insert_sorted l' s hs) ?_
  intro a
  rw [mem_foldl_set_insert, mem_foldl_set_insert, h.mem_iff]

theorem map_find_of_sorted_head (e : κ × β) (m : List (κ × β))
    (hs : ((e :: m).map Prod.fst).Sorted (· < ·)) : map_find e.1 m = none := by
  rw [map_find_eq_none_iff]
  intro hk
  have := (List.sorted_cons.mp hs).1 e.1 hk
  exact lt_irrefl _ this

theorem map_ext_of_sorted (m1 m2 : List (κ × β))
    (h1 : (m1.map Prod.fst).Sorted (· < ·)) (h2 : (m2.map Prod.fst).Sorted (· < ·))
    (h : ∀ k, map_find k m1 = map_find k m2) : m1 = m2 := by
  induction m1 generalizing m2 with
  | nil =>
    cases m2 with
    | nil => rfl
    | cons e2 t2 =>
      have := h e2.1
      simp [map_find] at this
  | cons e1 t1 ih =>
    cases m2 with
    | nil =>
      have := h e1.1
      simp [map_find] at this
    | cons e2 t2 =>
      have hs1 := List.sorted_cons.mp h1
      have hs2 := List.sorted_cons.mp h2
      have hn1 := map_find_of_sorted_head e1 t1 h1
      have hn2 := map_find_of_sorted_head e2 t2 h2
      have hkey : e1.1 = e2.1 := by
        by_contra hne
        have ha := h e1.1
        have hb := h e2.1
        have hne' : ¬ e2.1 = e1.1 := fun h' => hne h'.symm
        simp only [map_find, if_true, hne, hne', if_false] at ha hb
        have hk1 : e1.1 ∈ t2.map Prod.fst := by
          by_contra hno
          rw [(map_find_eq_none_iff e1.1 t2).mpr hno] at ha
          cases ha
        have hk2 : e2.1 ∈ t1.map Prod.fst := by
          by_contra hno
          rw [(map_find_eq_none_iff e2.1 t1).mpr hno] at hb
          cases hb
        exact lt_irrefl _ (lt_trans (hs2.1 _ hk1) (hs1.1 _ hk2))
      have hval : e1.2 = e2.2 := by
        have ha := h e1.1
        simp only [map_find, if_true, hkey] at ha
        exact Option.some.inj ha
      have htail : ∀ k, map_find k t1 = map_find k t2 := by
        intro k
        by_cases hk : e1.1 = k
        · subst hk
          rw [hn1]
          rw [hkey]
          exact hn2.symm
        · have ha := h k
          have hk' : ¬ e2.1 = k := fun h' => hk (hkey.trans h')
          simpa only [map_find, hk, hk', if_false] using ha
      rw [ih t2 hs1.2 hs2.2 htail]
      exact congrArg (· :: t2) (Prod.ext hkey hval)

theorem mem_keys_map_insert_or_assign (k' k : κ) (v : β) (m : List (κ × β)) :
    k' ∈ (map_insert_or_assign k v m).map Prod.fst ↔ k' = k ∨ k' ∈ m.map Prod.fst := by
  induction m with
  | nil => simp [map_insert_or_assign]
  | cons e m ih =>
    unfold map_insert_or_assign
    split_ifs with h1 h2
    · simp
    · simp only [List.map_cons, List.mem_cons, ih]
      tauto
    · have hk : k = e.1 := le_antisymm (not_lt.mp h2) (not_lt.mp h1)
      simp only [List.map_cons, List.mem_cons]
      constructor
      · exact Or.inr
      · rintro (h | h)
        · exact Or.inl (h.trans hk)
        · exact h

theorem map_insert_or_assign_sorted (k : κ) (v : β) (m : List (κ × β))
    (hs : (m.map Prod.fst).Sorted (· < ·)) :
    ((map_insert_or_assign k v m).map Prod.fst).Sorted (· < ·) := by
  induction m with
  | nil => simp [map_insert_or_assign]
  | cons e m ih =>
    have hs' := List.sorted_cons.mp hs
    unfold map_insert_or_assign
    split_ifs with h1 h2
    · refine List.sorted_cons.mpr ⟨?_, hs⟩
      intro z hz
      rcases List.mem_cons.mp hz with rfl | hz
      · exact h1
      · exact lt_trans h1 (hs'.1 z hz)
    · refine List.sorted_cons.mpr ⟨?_, ih hs'.2⟩
      intro z hz
      rcases (mem_keys_map_insert_or_assign z k v m).mp hz with rfl | hz
      · exact h2
      · exact hs'.1 z hz
    · exact hs

theorem map_find_map_insert_or_assign_of_ne (k' k : κ) (v : β) (m : List (κ × β))
    (h : k' ≠ k) : map_find k' (map_insert_or_assign k v m) = map_find k' m := by
  have h' : ¬ k = k' := fun hk => h hk.symm
  induction m with
  | nil => simp [map_insert_or_assign, map_find, h']
  | cons e m ih =>
    unfold map_insert_or_assign
    split_ifs with h1 h2
    · simp [map_find, h']
    · simp only [map_find, ih]
    · have hk : k = e.1 := le_antisymm (not_lt.mp h2) (not_lt.mp h1)
      have he : ¬ e.1 = k' := fun h'' => h' (hk.trans h'')
      simp only [map_find, he, if_false]

theorem foldl_map_insert_or_assign_sorted (l m : List (κ × β))
    (hs : (m.map Prod.fst).Sorted (· < ·)) :
    ((l.foldl (fun m e => map_insert_or_assign e.1 e.2 m) m).map Prod.fst).Sorted (· < ·) := by
  induction l generalizing m with
  | nil => exact hs
  | cons x l ih =>
    rw [List.foldl_cons]
    exact ih _ (map_insert_or_assign_sorted x.1 x.2 m hs)

theorem map_find_foldl_map_insert_or_assign (l m : List (κ × β))
    (hcons : ∀ k v v', (k, v) ∈ l → (k, v') ∈ l → v = v') (k : κ) (v : β) :
    map_find k (l.foldl (fun m e => map_insert_or_assign e.1 e.2 m) m) = some v
      ↔ (k, v) ∈ l ∨ ((∀ v', (k, v') ∉ l) ∧ map_find k m = some v) := by
  induction l generalizing m with
  | nil => simp
  | cons x l ih =>
    have hcons' : ∀ k v v', (k, v) ∈ l → (k, v') ∈ l → v = v' :=
      fun k v v' h1 h2 => hcons k v v' (List.mem_cons_of_mem _ h1) (List.mem_cons_of_mem _ h2)
    rw [List.foldl_cons, ih _ hcons']
    by_cases hk : k = x.1
    · subst hk
      rw [map_find_insert_or_assign]
      constructor
      · rintro (h | ⟨-, h⟩)
        · exact Or.inl (List.mem_cons_of_mem _ h)
        · left
          cases h
          exact List.mem_cons_self _ _
      · rintro (h | ⟨h, -⟩)
        · rcases List.mem_cons.mp h with h | h
          · by_cases hin : ∃ v', (x.1, v') ∈ l
            · obtain ⟨v', hv'⟩ := hin
              have : v = v' := hcons _ _ _ (by rw [h]; exact List.mem_cons_self _ _)
                (List.mem_cons_of_mem _ hv')
              subst this
              exact Or.inl hv'
            · right
              refine ⟨fun v' hv' => hin ⟨v', hv'⟩, ?_⟩
              rw [← h]
          · exact Or.inl h
        · exact absurd (List.mem_cons_self _ _) (h x.2)
    · rw [map_find_map_insert_or_assign_of_ne k x.1 x.2 m hk]
      have hne : ∀ v', (k, v') ≠ x := fun v' h => hk (by rw [← h])
      constructor
      · rintro (h | ⟨h1, h2⟩)
        · exact Or.inl (List.mem_cons_of_mem _ h)
        · right
          refine ⟨fun v' hv' => ?_, h2⟩
          rcases List.mem_cons.mp hv' with h | h
          · exact hne v' h
          · exact h1 v' h
      · rintro (h | ⟨h1, h2⟩)
        · rcases List.mem_cons.mp h with h | h
          · exact absurd h (hne v)
          · exact Or.inl h
        · exact Or.inr ⟨fun v' hv' => h1 v' (List.mem_cons_of_mem _ hv'), h2⟩

theorem foldl_map_insert_or_assign_perm (l l' m : List (κ × β))
    (hs : (m.map Prod.fst).Sorted (· < ·)) (h : l.Perm l')
    (hcons : ∀ k v v', (k, v) ∈ l → (k, v') ∈ l → v = v') :
    l.foldl (fun m e => map_insert_or_assign e.1 e.2 m) m
      = l'.foldl (fun m e => map_insert_or_assign e.1 e.2 m) m := by
  have hcons' : ∀ k v v', (k, v) ∈ l' → (k, v') ∈ l' → v = v' :=
    fun k v v' h1 h2 => hcons k v v' (h.mem_iff.mpr h1) (h.mem_iff.mpr h2)
  refine map_ext_of_sorted _ _ (foldl_map_insert_or_assign_sorted l m hs)
    (foldl_map_insert_or_assign_sorted l' m hs) ?_
  intro k
  apply Option.ext
  intro v
  rw [Option.mem_def, Option.mem_def, map_find_foldl_map_insert_or_assign l m hcons,
    map_find_foldl_map_insert_or_assign l' m hcons']
  simp only [h.mem_iff]

end canonical_lemmas

/-! ## The tasks as sequences of mutations -/

section uniform_lemmas
variable {V P : Type} [LinearOrder V] [LinearOrder P]

theorem apply_mutations_append (res : check_result V P) (xs ys : List (event V P)) :
    apply_mutations res (xs ++ ys) = apply_mutations (apply_mutations res xs) ys := by
  simp [apply_mutations, List.foldl_append]

theorem check_pkgname_uniform (pkgversion_default : V) (opts : options)
    (env : environment V P) (path : P) (name : pkgname V) :
    ∃ E r, ∀ st : task_state V P,
      check_pkgname pkgversion_default opts env path st name
        = ({ res := apply_mutations st.res E, trace := st.trace ++ E }, r) := by
  refine ⟨(check_pkgname pkgversion_default opts env path task_state.init name).1.trace,
    (check_pkgname pkgversion_default opts env path task_state.init name).2, fun st => ?_⟩
  unfold check_pkgname
  cases find_installed pkgversion_default env name with
  | none =>
    simp [task_state.emit, task_state.MISSING_TODO, task_state.init, apply_mutations,
      apply_mutation]
  | some installed =>
    simp only
    split_ifs <;>
      simp [task_state.emit, task_state.MISMATCH_TODO, task_state.init, apply_mutations,
        apply_mutation]

theorem check_pkgnames_uniform (pkgversion_default : V) (opts : options)
    (env : environment V P) (path : P) (names : List (pkgname V)) :
    ∃ E r, ∀ st : task_state V P,
      check_pkgnames pkgversion_default opts env path st names
        = ({ res := apply_mutations st.res E, trace := st.trace ++ E }, r) := by
  induction names with
  | nil => exact ⟨[], Except.ok (), fun st => by simp [check_pkgnames, apply_mutations]⟩
  | cons name rest ih =>
    obtain ⟨E1, r1, h1⟩ := check_pkgname_uniform pkgversion_default opts env path name
    obtain ⟨E2, r2, h2⟩ := ih
    cases r1 with
    | error e =>
      refine ⟨E1, Except.error e, fun st => ?_⟩
      rw [check_pkgnames, h1 st]
    | ok u =>
      refine ⟨E1 ++ E2, r2, fun st => ?_⟩
      rw [check_pkgnames, h1 st]
      simp only
      rw [h2]
      simp [apply_mutations_append]

theorem apply_mutations_of_no_mutation (evs : List (event V P))
    (h : ∀ e ∈ evs, ∀ res : check_result V P, apply_mutation res e = res)
    (res : check_result V P) : apply_mutations res evs = res := by
  induction evs generalizing res with
  | nil => rfl
  | cons e evs ih =>
    unfold apply_mutations
    rw [List.foldl_cons, h e (List.mem_cons_self _ _) res]
    exact ih (fun e' he' => h e' (List.mem_cons_of_mem _ he')) res

theorem check_task_uniform (pkgversion_default : V) (opts : options)
    (env : environment V P) (path : P) :
    ∃ E r, ∀ st : task_state V P,
      check_task pkgversion_default opts env st path
        = ({ res := apply_mutations st.res E, trace := st.trace ++ E }, r) := by
  have hlatest := latest_pkgnames_effects opts env path
  rcases hl : latest_pkgnames opts env path with ⟨evs, r⟩
  rw [hl] at hlatest
  simp only at hlatest
  have hid : ∀ res : check_result V P, apply_mutations res evs = res := by
    refine apply_mutations_of_no_mutation evs ?_
    intro e he res
    rcases hlatest e he with ⟨m, rfl⟩ | ⟨vars, rfl⟩ <;> rfl
  cases r with
  | error e =>
    refine ⟨evs, Except.error e, fun st => ?_⟩
    unfold check_task
    rw [hl]
    simp [task_state.emit, hid]
  | ok latest =>
    cases latest with
    | nil =>
      refine ⟨evs ++ [event.MISSING_DONE path], Except.ok (), fun st => ?_⟩
      unfold check_task
      rw [hl]
      simp only [task_state.emit, task_state.MISSING_DONE, apply_mutations_append, hid,
        List.append_assoc, List.isEmpty_nil, if_true]
      simp [apply_mutations, apply_mutation]
    | cons n ns =>
      obtain ⟨E2, r2, h2⟩ :=
        check_pkgnames_uniform pkgversion_default opts env path (n :: ns)
      refine ⟨evs ++ E2, r2, fun st => ?_⟩
      unfold check_task
      rw [hl]
      simp only [List.isEmpty_cons, Bool.false_eq_true, if_false]
      rw [h2]
      simp [task_state.emit, apply_mutations_append, hid]

end uniform_lemmas

section order_lemmas
variable {V P : Type} [LinearOrder V] [LinearOrder P]

theorem check_task_eq (pkgversion_default : V) (opts : options) (env : environment V P)
    (st : task_state V P) (path : P) :
    (check_task pkgversion_default opts env st path).1
      = { res := apply_mutations st.res (task_effects pkgversion_default opts env path)
          trace := st.trace ++ task_effects pkgversion_default opts env path } := by
  obtain ⟨E, r, h⟩ := check_task_uniform pkgversion_default opts env path
  have hE : task_effects pkgversion_default opts env path = E := by
    unfold task_effects
    rw [h]
    simp [task_state.init]
  rw [hE, h]

theorem check_task_result (pkgversion_default : V) (opts : options) (env : environment V P)
    (st : task_state V P) (path : P) :
    (check_task pkgversion_default opts env st path).2
      = (check_task pkgversion_default opts env task_state.init path).2 := by
  obtain ⟨E, r, h⟩ := check_task_uniform pkgversion_default opts env path
  rw [h st, h task_state.init]

theorem check_tasks_eq (pkgversion_default : V) (opts : options) (env : environment V P)
    (st : task_state V P) (paths : List P) :
    (check_tasks pkgversion_default opts env st paths).1
      = { res := apply_mutations st.res
            ((tasks_run pkgversion_default opts env paths).flatMap
              (task_effects pkgversion_default opts env))
          trace := st.trace ++ (tasks_run pkgversion_default opts env paths).flatMap
              (task_effects pkgversion_default opts env) } := by
  induction paths generalizing st with
  | nil => simp [check_tasks, tasks_run, apply_mutations]
  | cons path rest ih =>
    have h1 := check_task_eq pkgversion_default opts env st path
    have h2 := check_task_result pkgversion_default opts env st path
    rw [check_tasks, tasks_run]
    cases hr : check_task pkgversion_default opts env st path with
    | mk st1 r =>
      rw [hr] at h1 h2
      simp only at h1 h2
      rw [← h2]
      cases r with
      | ok u =>
        simp only
        rw [ih, h1]
        simp [List.flatMap_cons, apply_mutations_append]
      | error e =>
        simp only
        rw [h1]
        simp [List.flatMap_cons]

theorem check_tasks_ok_iff (pkgversion_default : V) (opts : options)
    (env : environment V P) (st : task_state V P) (paths : List P) :
    (check_tasks pkgversion_default opts env st paths).2 = Except.ok ()
      ↔ ∀ p ∈ paths,
          (check_task pkgversion_default opts env task_state.init p).2 = Except.ok () := by
  induction paths generalizing st with
  | nil => simp [check_tasks]
  | cons path rest ih =>
    have h2 := check_task_result pkgversion_default opts env st path
    rw [check_tasks]
    cases hr : check_task pkgversion_default opts env st path with
    | mk st1 r =>
      rw [hr] at h2
      simp only at h2
      cases r with
      | ok u =>
        simp only
        rw [ih]
        simp [← h2]
      | error e =>
        simp [← h2]

theorem tasks_run_of_ok (pkgversion_default : V) (opts : options) (env : environment V P)
    (paths : List P)
    (h : ∀ p ∈ paths,
      (check_task pkgversion_default opts env task_state.init p).2 = Except.ok ()) :
    tasks_run pkgversion_default opts env paths = paths := by
  induction paths with
  | nil => rfl
  | cons path rest ih =>
    rw [tasks_run, h path (List.mem_cons_self _ _)]
    simp only
    rw [ih (fun p hp => h p (List.mem_cons_of_mem _ hp))]

theorem check_tasks_res_eq (pkgversion_default : V) (opts : options)
    (env : environment V P) (paths : List P) :
    (check_tasks pkgversion_default opts env task_state.init paths).1.res
      = apply_mutations check_result.empty
          (check_tasks pkgversion_default opts env task_state.init paths).1.trace := by
  rw [check_tasks_eq]
  simp [task_state.init]

theorem apply_mutations_missing_done (res : check_result V P) (evs : List (event V P)) :
    (apply_mutations res evs)._MISSING_DONE
      = (evs.filterMap missing_done_of).foldl (fun s x => set_insert x s)
          res._MISSING_DONE := by
  induction evs generalizing res with
  | nil => rfl
  | cons e evs ih =>
    unfold apply_mutations
    rw [List.foldl_cons]
    have := ih (apply_mutation res e)
    unfold apply_mutations at this
    rw [this]
    cases e <;> simp [apply_mutation, missing_done_of, List.filterMap_cons]

theorem apply_mutations_mismatch_todo (res : check_result V P) (evs : List (event V P)) :
    (apply_mutations res evs)._MISMATCH_TODO
      = (evs.filterMap mismatch_todo_of).foldl (fun s x => set_insert x s)
          res._MISMATCH_TODO := by
  induction evs generalizing res with
  | nil => rfl
  | cons e evs ih =>
    unfold apply_mutations
    rw [List.foldl_cons]
    have := ih (apply_mutation res e)
    unfold apply_mutations at this
    rw [this]
    cases e <;> simp [apply_mutation, mismatch_todo_of, List.filterMap_cons]

theorem apply_mutations_missing_todo (res : check_result V P) (evs : List (event V P)) :
    (apply_mutations res evs)._MISSING_TODO
      = (evs.filterMap missing_todo_of).foldl
          (fun m e => map_insert_or_assign e.1 e.2 m) res._MISSING_TODO := by
  induction evs generalizing res with
  | nil => rfl
  | cons e evs ih =>
    unfold apply_mutations
    rw [List.foldl_cons]
    have := ih (apply_mutation res e)
    unfold apply_mutations at this
    rw [this]
    cases e <;> simp [apply_mutation, missing_todo_of, List.filterMap_cons]

theorem mem_filterMap_missing_todo_of (evs : List (event V P)) (n : pkgname V) (p : P) :
    (n, p) ∈ evs.filterMap missing_todo_of ↔ event.MISSING_TODO n p ∈ evs := by
  rw [List.mem_filterMap]
  constructor
  · rintro ⟨e, he, h⟩
    cases e <;> simp [missing_todo_of] at h
    obtain ⟨rfl, rfl⟩ := h
    exact he
  · intro h
    exact ⟨_, h, rfl⟩

theorem apply_mutations_perm (res : check_result V P) (ms ms' : List (event V P))
    (hres : res.ordered) (hperm : ms.Perm ms') :
    (apply_mutations res ms)._MISSING_DONE = (apply_mutations res ms')._MISSING_DONE
    ∧ (apply_mutations res ms)._MISMATCH_TODO = (apply_mutations res ms')._MISMATCH_TODO
    ∧ ((∀ n p p', event.MISSING_TODO n p ∈ ms → event.MISSING_TODO n p' ∈ ms → p = p') →
        (apply_mutations res ms)._MISSING_TODO = (apply_mutations res ms')._MISSING_TODO) := by
  refine ⟨?_, ?_, ?_⟩
  · rw [apply_mutations_missing_done, apply_mutations_missing_done]
    exact foldl_set_insert_perm _ _ _ hres.1 (hperm.filterMap _)
  · rw [apply_mutations_mismatch_todo, apply_mutations_mismatch_todo]
    exact foldl_set_insert_perm _ _ _ hres.2.2 (hperm.filterMap _)
  · intro hcons
    rw [apply_mutations_missing_todo, apply_mutations_missing_todo]
    refine foldl_map_insert_or_assign_perm _ _ _ hres.2.1 (hperm.filterMap _) ?_
    intro n p p' h1 h2
    rw [mem_filterMap_missing_todo_of] at h1 h2
    exact hcons n p p' h1 h2

theorem check_result_empty_ordered : (check_result.empty : check_result V P).ordered := by
  simp [check_result.ordered, check_result.empty]

end order_lemmas

section order_properties
variable {V P : Type} [LinearOrder V] [LinearOrder P]

theorem map_find_apply_mutations_missing_todo (res : check_result V P)
    (ms : List (event V P)) (n : pkgname V) :
    map_find n (apply_mutations res ms)._MISSING_TODO
      = ((last_missing_todo n ms).orElse (fun _ => map_find n res._MISSING_TODO)) := by
  induction ms using List.reverseRecOn with
  | nil => simp [apply_mutations, last_missing_todo]
  | append_singleton ms e ih =>
    rw [apply_mutations_append]
    have hlast : last_missing_todo n (ms ++ [e])
        = (((missing_todo_of e).bind (fun x => if x.1 = n then some x.2 else none)).orElse
            (fun _ => last_missing_todo n ms)) := by
      unfold last_missing_todo
      rw [List.filterMap_append]
      cases h : (missing_todo_of e).bind (fun x => if x.1 = n then some x.2 else none) with
      | none => simp [List.filterMap_cons, h]
      | some p => simp [List.filterMap_cons, h]
    rw [hlast]
    cases e with
    | MISSING_TODO name path =>
      by_cases hn : name = n
      · subst hn
        simp [apply_mutations, apply_mutation, missing_todo_of, map_find_insert_or_assign]
      · have hn' : n ≠ name := fun h => hn h.symm
        simp only [apply_mutations, List.foldl_cons, List.foldl_nil, apply_mutation,
          missing_todo_of, Option.some_bind, hn, if_false, Option.none_orElse]
        rw [map_find_map_insert_or_assign_of_ne _ _ _ _ hn']
        exact ih
    | _ =>
      simp only [apply_mutations, List.foldl_cons, List.foldl_nil, apply_mutation,
        missing_todo_of, Option.none_bind, Option.none_orElse]
      exact ih

/-- C19 (as amended): the mutations of the tasks of `check_installed_packages`,
applied in any order `ms`, give the same MISSING_DONE and the same MISMATCH_TODO as
applied task after task. MISSING_TODO maps a pkgname to the path of the call of
`MISSING_TODO` for it that is applied last, so it, and the whole result, comes out
the same provided that no pkgname is recorded as missing with two different paths.
The result of a run of the tasks is that of its mutations applied in the order of the
run, and when the tasks all run to their end in one order of the paths they do so in
any other, with the same mutations. -/
theorem check_tasks_order_independent (pkgversion_default : V) (opts : options)
    (env : environment V P) (paths paths' : List P) (ms : List (event V P))
    (hperm : paths.Perm paths')
    (hms : ms.Perm (paths.flatMap (task_effects pkgversion_default opts env))) :
    (apply_mutations check_result.empty ms)._MISSING_DONE
      = (apply_mutations check_result.empty
          (paths.flatMap (task_effects pkgversion_default opts env)))._MISSING_DONE
    ∧ (apply_mutations check_result.empty ms)._MISMATCH_TODO
      = (apply_mutations check_result.empty
          (paths.flatMap (task_effects pkgversion_default opts env)))._MISMATCH_TODO
    ∧ (∀ n, map_find n (apply_mutations check_result.empty ms)._MISSING_TODO
        = last_missing_todo n ms)
    ∧ ((∀ n p p', event.MISSING_TODO n p ∈ ms → event.MISSING_TODO n p' ∈ ms → p = p') →
        apply_mutations check_result.empty ms
          = apply_mutations check_result.empty
              (paths.flatMap (task_effects pkgversion_default opts env)))
    ∧ (check_tasks pkgversion_default opts env task_state.init paths).1.res
      = apply_mutations check_result.empty
          (check_tasks pkgversion_default opts env task_state.init paths).1.trace
    ∧ ((check_tasks pkgversion_default opts env task_state.init paths).2 = Except.ok () →
        (check_tasks pkgversion_default opts env task_state.init paths).1.trace
            = paths.flatMap (task_effects pkgversion_default opts env)
          ∧ (check_tasks pkgversion_default opts env task_state.init paths').2 = Except.ok ()
          ∧ (check_tasks pkgversion_default opts env task_state.init paths').1.trace
            = paths'.flatMap (task_effects pkgversion_default opts env)
          ∧ (check_tasks pkgversion_default opts env task_state.init paths').1.trace.Perm
              (check_tasks pkgversion_default opts env task_state.init paths).1.trace
          ∧ (check_tasks pkgversion_default opts env task_state.init
                paths').1.res._MISSING_DONE
            = (check_tasks pkgversion_default opts env task_state.init
                paths).1.res._MISSING_DONE
          ∧ (check_tasks pkgversion_default opts env task_state.init
                paths').1.res._MISMATCH_TODO
            = (check_tasks pkgversion_default opts env task_state.init
                paths).1.res._MISMATCH_TODO
          ∧ (∀ n, map_find n
                (check_tasks pkgversion_default opts env task_state.init
                  paths').1.res._MISSING_TODO
              = last_missing_todo n
                  (check_tasks pkgversion_default opts env task_state.init paths').1.trace)
          ∧ ((∀ n p p',
                event.MISSING_TODO n p
                  ∈ (check_tasks pkgversion_default opts env task_state.init paths).1.trace →
                event.MISSING_TODO n p'
                  ∈ (check_tasks pkgversion_default opts env task_state.init paths).1.trace →
                p = p') →
              (check_tasks pkgversion_default opts env task_state.init paths').1.res
                = (check_tasks pkgversion_default opts env task_state.init paths).1.res)) := by
  have hlastw : ∀ (l : List (event V P)) (n : pkgname V),
      map_find n (apply_mutations check_result.empty l)._MISSING_TODO
        = last_missing_todo n l := by
    intro l n
    rw [map_find_apply_mutations_missing_todo]
    cases last_missing_todo n l <;> simp [check_result.empty, map_find]
  have hwhole : ∀ (l l' : List (event V P)), l.Perm l' →
      (∀ n p p', event.MISSING_TODO n p ∈ l → event.MISSING_TODO n p' ∈ l → p = p') →
      apply_mutations check_result.empty l = apply_mutations check_result.empty l' := by
    intro l l' hl hcons
    have hp := apply_mutations_perm check_result.empty l l' check_result_empty_ordered hl
    have h3 := hp.2.2 hcons
    generalize apply_mutations check_result.empty l = r at hp h3
    generalize apply_mutations check_result.empty l' = r' at hp h3
    cases r
    cases r'
    simp only at hp h3
    simp only [check_result.mk.injEq]
    exact ⟨hp.1, h3, hp.2.1⟩
  have hp := apply_mutations_perm check_result.empty _ _ check_result_empty_ordered hms
  refine ⟨hp.1, hp.2.1, hlastw ms, hwhole _ _ hms, check_tasks_res_eq _ _ _ _, ?_⟩
  intro hok
  have hall := (check_tasks_ok_iff pkgversion_default opts env task_state.init paths).mp hok
  have hall' : ∀ p ∈ paths',
      (check_task pkgversion_default opts env task_state.init p).2 = Except.ok () :=
    fun p hp' => hall p (hperm.mem_iff.mpr hp')
  have hE := check_tasks_eq pkgversion_default opts env task_state.init paths
  have hE' := check_tasks_eq pkgversion_default opts env task_state.init paths'
  rw [tasks_run_of_ok _ _ _ _ hall] at hE
  rw [tasks_run_of_ok _ _ _ _ hall'] at hE'
  have hinit : (task_state.init : task_state V P).res = check_result.empty := rfl
  have hnil : (task_state.init : task_state V P).trace = [] := rfl
  rw [hinit, hnil, List.nil_append] at hE hE'
  have hflat := (hperm.flatMap_right (task_effects pkgversion_default opts env)).symm
  have hq := apply_mutations_perm check_result.empty _ _ check_result_empty_ordered hflat
  rw [hE, hE']
  simp only
  refine ⟨trivial, (check_tasks_ok_iff _ _ _ _ _).mpr hall', trivial, hflat, hq.1, hq.2.1,
    hlastw _, ?_⟩
  intro hcons
  exact hwhole _ _ hflat (fun n p p' h1 h2 =>
    hcons n p p' (hflat.mem_iff.mp h1) (hflat.mem_iff.mp h2))

end order_properties

/-- Two paths that provide the same latest pkgname, which is not installed: no task
fails, and the path that MISSING_TODO records for the pkgname is the one of the task
run last, so the two orders of the tasks give two different results. -/
theorem check_tasks_order_counterexample :
    (check_tasks [] (sample_options false false) (python_environment python311_3_11_4 [])
        task_state.init [lang_python311, lang_python312]).2 = Except.ok ()
    ∧ (check_tasks [] (sample_options false false) (python_environment python311_3_11_4 [])
        task_state.init [lang_python311, lang_python312]).1.res._MISSING_TODO
      = [(python311_3_11_4, lang_python312)]
    ∧ (check_tasks [] (sample_options false false) (python_environment python311_3_11_4 [])
        task_state.init [lang_python312, lang_python311]).1.res._MISSING_TODO
      = [(python311_3_11_4, lang_python311)]
    ∧ ¬ ((check_tasks [] (sample_options false false)
          (python_environment python311_3_11_4 []) task_state.init
          [lang_python312, lang_python311]).1.res
        = (check_tasks [] (sample_options false false)
          (python_environment python311_3_11_4 []) task_state.init
          [lang_python311, lang_python312]).1.res) := by
  decide

/-- Two paths whose latest pkgname is newer than the installed one: the mutations of
the two tasks applied in the other order of the tasks give the same MISMATCH_TODO. -/
theorem check_tasks_order_independent_witness :
    [lang_python311, lang_python312].Perm [lang_python312, lang_python311]
    ∧ ([lang_python312, lang_python311].flatMap
          (task_effects [] (sample_options false false)
            (python_environment python311_3_11_4 [python311_3_11_3]))).Perm
        ([lang_python311, lang_python312].flatMap
          (task_effects [] (sample_options false false)
            (python_environment python311_3_11_4 [python311_3_11_3])))
    ∧ (apply_mutations check_result.empty
        ([lang_python312, lang_python311].flatMap
          (task_effects [] (sample_options false false)
            (python_environment python311_3_11_4 [python311_3_11_3]))))._MISMATCH_TODO
      = (apply_mutations check_result.empty
        ([lang_python311, lang_python312].flatMap
          (task_effects [] (sample_options false false)
            (python_environment python311_3_11_4 [python311_3_11_3]))))._MISMATCH_TODO :=
  ⟨List.Perm.swap _ _ _,
    (List.Perm.swap lang_python311 lang_python312 []).flatMap_right _,
    (check_tasks_order_independent [] (sample_options false false)
      (python_environment python311_3_11_4 [python311_3_11_3])
      [lang_python311, lang_python312] [lang_python312, lang_python311]
      ([lang_python312, lang_python311].flatMap
        (task_effects [] (sample_options false false)
          (python_environment python311_3_11_4 [python311_3_11_3])))
      (List.Perm.swap _ _ _)
      ((List.Perm.swap lang_python311 lang_python312 []).flatMap_right _)).2.1⟩

/-! ## The iterations of a task -/

section task_iterations
variable {V P : Type} [LinearOrder V] [LinearOrder P]

theorem check_pkgnames_append (pkgversion_default : V) (opts : options)
    (env : environment V P) (path : P) (st : task_state V P) (l1 l2 : List (pkgname V)) :
    check_pkgnames pkgversion_default opts env path st (l1 ++ l2)
      = (match check_pkgnames pkgversion_default opts env path st l1 with
          | (st1, Except.ok _) => check_pkgnames pkgversion_default opts env path st1 l2
          | (st1, Except.error e) => (st1, Except.error e)) := by
  induction l1 generalizing st with
  | nil => simp [check_pkgnames]
  | cons n l1 ih =>
    rw [List.cons_append, check_pkgnames, check_pkgnames]
    cases h : check_pkgname pkgversion_default opts env path st n with
    | mk st1 r =>
      cases r with
      | ok u =>
        simp only
        exact ih st1
      | error e => rfl

theorem check_pkgname_ok_of_reached (pkgversion_default : V) (opts : options)
    (env : environment V P) (path : P) (st : task_state V P) (name : pkgname V)
    (h : ∀ i, find_installed pkgversion_default env name = some i →
      i.version = name.version → opts.check_build_version = false) :
    (check_pkgname pkgversion_default opts env path st name).2 = Except.ok () := by
  unfold check_pkgname
  cases hf : find_installed pkgversion_default env name with
  | none => rfl
  | some i =>
    simp only
    split_ifs with h1 h2 <;> first | rfl | skip
    rw [h i hf h1] at h2
    cases h2

theorem check_pkgnames_ok_of_reached (pkgversion_default : V) (opts : options)
    (env : environment V P) (path : P) (st : task_state V P) (names : List (pkgname V))
    (h : ∀ n ∈ names, ∀ i, find_installed pkgversion_default env n = some i →
      i.version = n.version → opts.check_build_version = false) :
    (check_pkgnames pkgversion_default opts env path st names).2 = Except.ok () := by
  induction names generalizing st with
  | nil => rfl
  | cons n names ih =>
    rw [check_pkgnames]
    have h1 := check_pkgname_ok_of_reached pkgversion_default opts env path st n
      (h n (List.mem_cons_self _ _))
    cases hr : check_pkgname pkgversion_default opts env path st n with
    | mk st1 r =>
      rw [hr] at h1
      simp only at h1
      subst h1
      simp only
      exact ih st1 (fun m hm => h m (List.mem_cons_of_mem _ hm))

theorem check_task_of_latest (pkgversion_default : V) (opts : options)
    (env : environment V P) (st : task_state V P) (path : P) (evs : List (event V P))
    (latest : List (pkgname V))
    (hlatest : latest_pkgnames opts env path = (evs, Except.ok latest))
    (hne : latest ≠ []) :
    check_task pkgversion_default opts env st path
      = check_pkgnames pkgversion_default opts env path (st.emit evs) latest := by
  unfold check_task
  rw [hlatest]
  cases latest with
  | nil => exact absurd rfl hne
  | cons n l => simp

/-- A task whose iterations before the one for `name` do not throw runs the iteration
for `name` from the state that they leave, and goes on with the pkgnames after `name`
unless that iteration throws. -/
theorem check_task_iteration (pkgversion_default : V) (opts : options)
    (env : environment V P) (st : task_state V P) (path : P) (evs : List (event V P))
    (before rest : List (pkgname V)) (name : pkgname V)
    (hlatest : latest_pkgnames opts env path = (evs, Except.ok (before ++ name :: rest)))
    (hreached : ∀ n ∈ before, ∀ i, find_installed pkgversion_default env n = some i →
      i.version = n.version → opts.check_build_version = false) :
    check_task pkgversion_default opts env st path
      = (match check_pkgname pkgversion_default opts env path
            (check_pkgnames pkgversion_default opts env path (st.emit evs) before).1 name with
          | (st2, Except.ok _) => check_pkgnames pkgversion_default opts env path st2 rest
          | (st2, Except.error e) => (st2, Except.error e)) := by
  rw [check_task_of_latest pkgversion_default opts env st path evs _ hlatest (by simp),
    check_pkgnames_append]
  have hok := check_pkgnames_ok_of_reached pkgversion_default opts env path (st.emit evs)
    before hreached
  cases hr : check_pkgnames pkgversion_default opts env path (st.emit evs) before with
  | mk st1 r =>
    rw [hr] at hok
    simp only at hok
    subst hok
    simp only
    rw [check_pkgnames]

theorem check_pkgnames_mismatch_todo_grows (pkgversion_default : V) (opts : options)
    (env : environment V P) (path : P) (st : task_state V P) (names : List (pkgname V))
    (x : pkgname V) (h : x ∈ st.res._MISMATCH_TODO) :
    x ∈ (check_pkgnames pkgversion_default opts env path st names).1.res._MISMATCH_TODO := by
  obtain ⟨E, r, hE⟩ := check_pkgnames_uniform pkgversion_default opts env path names
  rw [hE st]
  simp only
  rw [apply_mutations_mismatch_todo, mem_foldl_set_insert]
  exact Or.inl h

theorem check_pkgname_missing_todo_cases (pkgversion_default : V) (opts : options)
    (env : environment V P) (path : P) (st : task_state V P) (n : pkgname V) :
    (check_pkgname pkgversion_default opts env path st n).1.res._MISSING_TODO
        = st.res._MISSING_TODO
      ∨ (check_pkgname pkgversion_default opts env path st n).1.res._MISSING_TODO
        = map_insert_or_assign n path st.res._MISSING_TODO := by
  unfold check_pkgname
  cases hf : find_installed pkgversion_default env n with
  | none =>
    right
    simp [task_state.emit, task_state.MISSING_TODO]
  | some i =>
    left
    simp only
    split_ifs <;> simp [task_state.emit, task_state.MISMATCH_TODO]

theorem check_pkgnames_missing_todo_keeps (pkgversion_default : V) (opts : options)
    (env : environment V P) (path : P) (st : task_state V P) (names : List (pkgname V))
    (name : pkgname V) (h : map_find name st.res._MISSING_TODO = some path) :
    map_find name
        (check_pkgnames pkgversion_default opts env path st names).1.res._MISSING_TODO
      = some path := by
  induction names generalizing st with
  | nil => exact h
  | cons n names ih =>
    rw [check_pkgnames]
    have hstep : map_find name
        (check_pkgname pkgversion_default opts env path st n).1.res._MISSING_TODO
          = some path := by
      rcases check_pkgname_missing_todo_cases pkgversion_default opts env path st n
        with hc | hc
      · rw [hc]
        exact h
      · rw [hc]
        by_cases hn : name = n
        · rw [hn]
          exact map_find_insert_or_assign _ _ _
        · rw [map_find_map_insert_or_assign_of_ne _ _ _ _ hn]
          exact h
    cases hr : check_pkgname pkgversion_default opts env path st n with
    | mk st1 r =>
      rw [hr] at hstep
      cases r with
      | ok u => exact ih st1 hstep
      | error e => exact hstep

/-- What an iteration performs is among what the task performs. -/
theorem mem_performed_check_task (pkgversion_default : V) (opts : options)
    (env : environment V P) (st : task_state V P) (path : P) (evs : List (event V P))
    (before rest : List (pkgname V)) (name : pkgname V)
    (hlatest : latest_pkgnames opts env path = (evs, Except.ok (before ++ name :: rest)))
    (hreached : ∀ n ∈ before, ∀ i, find_installed pkgversion_default env n = some i →
      i.version = n.version → opts.check_build_version = false)
    (e : event V P)
    (he : e ∈ performed
        (check_pkgnames pkgversion_default opts env path (st.emit evs) before).1
        (check_pkgname pkgversion_default opts env path
          (check_pkgnames pkgversion_default opts env path (st.emit evs) before).1 name)) :
    e ∈ performed st (check_task pkgversion_default opts env st path) := by
  rw [check_task_iteration pkgversion_default opts env st path evs before rest name hlatest
    hreached]
  obtain ⟨Eb, hEb, -⟩ := check_pkgnames_trace pkgversion_default opts env path (st.emit evs)
    before
  generalize (check_pkgnames pkgversion_default opts env path (st.emit evs) before).1 = st1
    at he hEb ⊢
  obtain ⟨E1, hE1, -⟩ := check_pkgname_trace pkgversion_default opts env path st1 name
  have he1 : e ∈ E1 := by
    unfold performed at he
    rw [hE1] at he
    simpa using he
  cases hr : check_pkgname pkgversion_default opts env path st1 name with
  | mk st2 r =>
    rw [hr] at hE1
    simp only at hE1
    cases r with
    | ok u =>
      simp only
      obtain ⟨Er, hEr, -⟩ := check_pkgnames_trace pkgversion_default opts env path st2 rest
      unfold performed
      rw [hEr, hE1, hEb]
      simp [task_state.emit, he1]
    | error err =>
      simp only
      unfold performed
      rw [hE1, hEb]
      simp [task_state.emit, he1]

end task_iterations
section task_classification
variable {V P : Type} [LinearOrder V] [LinearOrder P]

/-- C1 (as amended): in the task of `check_installed_packages` for `path`, let `name`
be a latest pkgname of `path` whose iteration is reached, that is, no latest pkgname
before it in the set has an installed pkgname of its base and of its version while
`check_build_version` is set, and let `installed` be the installed pkgname found for
`name`. The task then runs the iteration for `name` from the state that the earlier
iterations leave. That iteration calls `MISMATCH_TODO` with `installed` if and only if
`installed.version < name.version`, or `installed.version > name.version` and
`check_build_version` is set; the set then gains exactly `installed`, no call is made
with another pkgname (none with `name`), and in that case the call is among the
effects of the task and `installed` is in MISMATCH_TODO when the task ends.
`installed` is an installed pkgname of the base of `name`, the least one when the
installed set is in order and `pkgversion()` is a least version. -/
theorem check_task_mismatch_installed (pkgversion_default : V) (opts : options)
    (env : environment V P) (st : task_state V P) (path : P) (evs : List (event V P))
    (before rest : List (pkgname V)) (name installed : pkgname V)
    (hlatest : latest_pkgnames opts env path = (evs, Except.ok (before ++ name :: rest)))
    (hreached : ∀ n ∈ before, ∀ i, find_installed pkgversion_default env n = some i →
      i.version = n.version → opts.check_build_version = false)
    (hfound : find_installed pkgversion_default env name = some installed) :
    check_task pkgversion_default opts env st path
      = (match check_pkgname pkgversion_default opts env path
            (check_pkgnames pkgversion_default opts env path (st.emit evs) before).1 name with
          | (st2, Except.ok _) => check_pkgnames pkgversion_default opts env path st2 rest
          | (st2, Except.error e) => (st2, Except.error e))
    ∧ (event.MISMATCH_TODO installed ∈
          performed (check_pkgnames pkgversion_default opts env path (st.emit evs) before).1
            (check_pkgname pkgversion_default opts env path
              (check_pkgnames pkgversion_default opts env path (st.emit evs) before).1 name)
        ↔ installed.version < name.version
          ∨ (name.version < installed.version ∧ opts.check_build_version = true))
    ∧ (check_pkgname pkgversion_default opts env path
          (check_pkgnames pkgversion_default opts env path (st.emit evs) before).1
          name).1.res._MISMATCH_TODO
        = (if installed.version < name.version
              ∨ (name.version < installed.version ∧ opts.check_build_version = true)
           then set_insert installed
             (check_pkgnames pkgversion_default opts env path (st.emit evs)
               before).1.res._MISMATCH_TODO
           else (check_pkgnames pkgversion_default opts env path (st.emit evs)
               before).1.res._MISMATCH_TODO)
    ∧ (∀ n, event.MISMATCH_TODO n ∈
          performed (check_pkgnames pkgversion_default opts env path (st.emit evs) before).1
            (check_pkgname pkgversion_default opts env path
              (check_pkgnames pkgversion_default opts env path (st.emit evs) before).1 name)
        → n = installed ∧ n ≠ name)
    ∧ (installed.version < name.version
          ∨ (name.version < installed.version ∧ opts.check_build_version = true) →
        event.MISMATCH_TODO installed
            ∈ performed st (check_task pkgversion_default opts env st path)
          ∧ installed
            ∈ (check_task pkgversion_default opts env st path).1.res._MISMATCH_TODO)
    ∧ installed ∈ env.installed_pkgnames
    ∧ installed.base = name.base
    ∧ (env.installed_pkgnames.Sorted (· < ·) → (∀ v, pkgversion_default ≤ v) →
        ∀ j ∈ env.installed_pkgnames, j.base = name.base → installed ≤ j) := by
  have hiter := check_task_iteration pkgversion_default opts env st path evs before rest
    name hlatest hreached
  have hstep := check_pkgname_mismatch_installed pkgversion_default opts env path
    (check_pkgnames pkgversion_default opts env path (st.emit evs) before).1 name installed
    hfound
  refine ⟨hiter, hstep.1, hstep.2.1, hstep.2.2.1, ?_, hstep.2.2.2.1, hstep.2.2.2.2.1,
    hstep.2.2.2.2.2⟩
  intro hcond
  refine ⟨mem_performed_check_task pkgversion_default opts env st path evs before rest name
    hlatest hreached _ (hstep.1.mpr hcond), ?_⟩
  rw [hiter]
  have hset := hstep.2.1
  rw [if_pos hcond] at hset
  have hmem : installed ∈ (check_pkgname pkgversion_default opts env path
      (check_pkgnames pkgversion_default opts env path (st.emit evs) before).1
      name).1.res._MISMATCH_TODO := by
    rw [hset, mem_set_insert]
    exact Or.inl rfl
  cases hr : check_pkgname pkgversion_default opts env path
      (check_pkgnames pkgversion_default opts env path (st.emit evs) before).1 name with
  | mk st2 r =>
    rw [hr] at hmem
    cases r with
    | ok u =>
      exact check_pkgnames_mismatch_todo_grows pkgversion_default opts env path st2 rest
        installed hmem
    | error e => exact hmem

/-- C2 (as amended): with the installed pkgnames in order (by base, then version) and
`pkgversion()` a least version, in the task of `check_installed_packages` for `path`
let `name` be a latest pkgname of `path` whose iteration is reached, that is, no
latest pkgname before it in the set has an installed pkgname of its base and of its
version while `check_build_version` is set. The task then runs the iteration for
`name` from the state that the earlier iterations leave, and that iteration calls
`MISSING_TODO(name, path)` if and only if no installed pkgname has the base of
`name`. In that case the call is among the effects of the task, and the map maps
`name` to `path` after the iteration and when the task ends; when some installed
pkgname has that base the iteration leaves the map as it was. -/
theorem check_task_missing_iff (pkgversion_default : V) (opts : options)
    (env : environment V P) (st : task_state V P) (path : P) (evs : List (event V P))
    (before rest : List (pkgname V)) (name : pkgname V)
    (hsorted : env.installed_pkgnames.Sorted (· < ·))
    (hleast : ∀ v, pkgversion_default ≤ v)
    (hlatest : latest_pkgnames opts env path = (evs, Except.ok (before ++ name :: rest)))
    (hreached : ∀ n ∈ before, ∀ i, find_installed pkgversion_default env n = some i →
      i.version = n.version → opts.check_build_version = false) :
    check_task pkgversion_default opts env st path
      = (match check_pkgname pkgversion_default opts env path
            (check_pkgnames pkgversion_default opts env path (st.emit evs) before).1 name with
          | (st2, Except.ok _) => check_pkgnames pkgversion_default opts env path st2 rest
          | (st2, Except.error e) => (st2, Except.error e))
    ∧ (event.MISSING_TODO name path ∈
          performed (check_pkgnames pkgversion_default opts env path (st.emit evs) before).1
            (check_pkgname pkgversion_default opts env path
              (check_pkgnames pkgversion_default opts env path (st.emit evs) before).1 name)
        ↔ ∀ i ∈ env.installed_pkgnames, i.base ≠ name.base)
    ∧ ((∀ i ∈ env.installed_pkgnames, i.base ≠ name.base) →
        event.MISSING_TODO name path
            ∈ performed st (check_task pkgversion_default opts env st path)
          ∧ (check_pkgname pkgversion_default opts env path
              (check_pkgnames pkgversion_default opts env path (st.emit evs) before).1
              name).1.res._MISSING_TODO
            = map_insert_or_assign name path
                (check_pkgnames pkgversion_default opts env path (st.emit evs)
                  before).1.res._MISSING_TODO
          ∧ map_find name
              (check_task pkgversion_default opts env st path).1.res._MISSING_TODO
            = some path)
    ∧ ((∃ i ∈ env.installed_pkgnames, i.base = name.base) →
        (check_pkgname pkgversion_default opts env path
            (check_pkgnames pkgversion_default opts env path (st.emit evs) before).1
            name).1.res._MISSING_TODO
          = (check_pkgnames pkgversion_default opts env path (st.emit evs)
              before).1.res._MISSING_TODO) := by
  have hiter := check_task_iteration pkgversion_default opts env st path evs before rest
    name hlatest hreached
  have hstep := check_pkgname_missing_iff pkgversion_default opts env path
    (check_pkgnames pkgversion_default opts env path (st.emit evs) before).1 name hsorted
    hleast
  refine ⟨hiter, hstep.1, ?_, hstep.2.2⟩
  intro hno
  have hmap := hstep.2.1 hno
  refine ⟨mem_performed_check_task pkgversion_default opts env st path evs before rest name
    hlatest hreached _ (hstep.1.mpr hno), hmap.1, ?_⟩
  rw [hiter]
  have hfind := hmap.2
  cases hr : check_pkgname pkgversion_default opts env path
      (check_pkgnames pkgversion_default opts env path (st.emit evs) before).1 name with
  | mk st2 r =>
    rw [hr] at hfind
    cases r with
    | ok u =>
      exact check_pkgnames_missing_todo_keeps pkgversion_default opts env path st2 rest
        name hfind
    | error e => exact hfind

end task_classification

/-- A task that throws before it reaches a latest pkgname. With `update` and
`check_build_version` set, `py310-foo-1.0` and `py311-foo-1.1` installed from
`devel/py-foo` and `py311-foo-1.2` the default pkgname of the path, the latest
pkgnames are `py310-foo-1.0` and `py311-foo-1.2`. The installed pkgname found for
`py311-foo-1.2` is the older `py311-foo-1.1`, but the iteration for `py310-foo-1.0`
throws, and `MISMATCH_TODO` is not called at all. -/
theorem check_task_mismatch_counterexample :
    (latest_pkgnames (sample_options true true)
        (py_foo_environment [py310_foo_1_0, py311_foo_1_1]) devel_py_foo).2
      = Except.ok [py310_foo_1_0, py311_foo_1_2]
    ∧ find_installed [] (py_foo_environment [py310_foo_1_0, py311_foo_1_1]) py311_foo_1_2
      = some py311_foo_1_1
    ∧ py311_foo_1_1.version < py311_foo_1_2.version
    ∧ (check_task [] (sample_options true true)
        (py_foo_environment [py310_foo_1_0, py311_foo_1_1]) task_state.init devel_py_foo).2
      = Except.error (failure.runtime_error "FIXME: -B not implemented yet")
    ∧ event.MISMATCH_TODO py311_foo_1_1
      ∉ (check_task [] (sample_options true true)
          (py_foo_environment [py310_foo_1_0, py311_foo_1_1]) task_state.init
          devel_py_foo).1.trace
    ∧ (check_task [] (sample_options true true)
        (py_foo_environment [py310_foo_1_0, py311_foo_1_1]) task_state.init
        devel_py_foo).1.res._MISMATCH_TODO = [] := by
  decide

/-- With `check_build_version` unset the same task reaches `py311-foo-1.2`, and
`MISMATCH_TODO` is called with the installed `py311-foo-1.1`. -/
theorem check_task_mismatch_installed_witness :
    latest_pkgnames (sample_options true false)
        (py_foo_environment [py310_foo_1_0, py311_foo_1_1]) devel_py_foo
      = ((latest_pkgnames (sample_options true false)
            (py_foo_environment [py310_foo_1_0, py311_foo_1_1]) devel_py_foo).1,
          Except.ok ([py310_foo_1_0] ++ py311_foo_1_2 :: []))
    ∧ (∀ n ∈ [py310_foo_1_0], ∀ i,
        find_installed [] (py_foo_environment [py310_foo_1_0, py311_foo_1_1]) n = some i →
        i.version = n.version → (sample_options true false).check_build_version = false)
    ∧ find_installed [] (py_foo_environment [py310_foo_1_0, py311_foo_1_1]) py311_foo_1_2
      = some py311_foo_1_1
    ∧ py311_foo_1_1
      ∈ (check_task [] (sample_options true false)
          (py_foo_environment [py310_foo_1_0, py311_foo_1_1]) task_state.init
          devel_py_foo).1.res._MISMATCH_TODO :=
  ⟨by decide, fun _ _ _ _ _ => rfl, by decide,
    ((check_task_mismatch_installed [] (sample_options true false)
      (py_foo_environment [py310_foo_1_0, py311_foo_1_1]) task_state.init devel_py_foo
      (latest_pkgnames (sample_options true false)
        (py_foo_environment [py310_foo_1_0, py311_foo_1_1]) devel_py_foo).1
      [py310_foo_1_0] [] py311_foo_1_2 py311_foo_1_1 (by decide) (fun _ _ _ _ _ => rfl)
      (by decide)).2.2.2.2.1 (Or.inl (by decide))).2⟩

/-- A task that throws before it reaches a latest pkgname without an installed
counterpart. With `update` and `check_build_version` set and `py310-foo-1.0` alone
installed from `devel/py-foo`, the latest pkgnames are `py310-foo-1.0` and
`py311-foo-1.2`; no installed pkgname has the base `py311-foo`, but the iteration for
`py310-foo-1.0` throws, and `MISSING_TODO` is not called at all. -/
theorem check_task_missing_counterexample :
    (py_foo_environment [py310_foo_1_0]).installed_pkgnames.Sorted (· < ·)
    ∧ (latest_pkgnames (sample_options true true) (py_foo_environment [py310_foo_1_0])
        devel_py_foo).2
      = Except.ok [py310_foo_1_0, py311_foo_1_2]
    ∧ (∀ i ∈ (py_foo_environment [py310_foo_1_0]).installed_pkgnames,
        i.base ≠ py311_foo_1_2.base)
    ∧ (check_task [] (sample_options true true) (py_foo_environment [py310_foo_1_0])
        task_state.init devel_py_foo).2
      = Except.error (failure.runtime_error "FIXME: -B not implemented yet")
    ∧ event.MISSING_TODO py311_foo_1_2 devel_py_foo
      ∉ (check_task [] (sample_options true true) (py_foo_environment [py310_foo_1_0])
          task_state.init devel_py_foo).1.trace
    ∧ (check_task [] (sample_options true true) (py_foo_environment [py310_foo_1_0])
        task_state.init devel_py_foo).1.res._MISSING_TODO = [] := by
  decide

/-- With `check_build_version` unset the same task reaches `py311-foo-1.2`, and
MISSING_TODO maps it to `devel/py-foo` when the task ends. -/
theorem check_task_missing_iff_witness :
    (py_foo_environment [py310_foo_1_0]).installed_pkgnames.Sorted (· < ·)
    ∧ (∀ v : List Nat, [] ≤ v)
    ∧ latest_pkgnames (sample_options true false) (py_foo_environment [py310_foo_1_0])
        devel_py_foo
      = ((latest_pkgnames (sample_options true false) (py_foo_environment [py310_foo_1_0])
            devel_py_foo).1,
          Except.ok ([py310_foo_1_0] ++ py311_foo_1_2 :: []))
    ∧ (∀ n ∈ [py310_foo_1_0], ∀ i,
        find_installed [] (py_foo_environment [py310_foo_1_0]) n = some i →
        i.version = n.version → (sample_options true false).check_build_version = false)
    ∧ map_find py311_foo_1_2
        (check_task [] (sample_options true false) (py_foo_environment [py310_foo_1_0])
          task_state.init devel_py_foo).1.res._MISSING_TODO
      = some devel_py_foo :=
  ⟨by decide, fun _ => List.nil_le, by decide, fun _ _ _ _ _ => rfl,
    ((check_task_missing_iff [] (sample_options true false)
      (py_foo_environment [py310_foo_1_0]) task_state.init devel_py_foo
      (latest_pkgnames (sample_options true false) (py_foo_environment [py310_foo_1_0])
        devel_py_foo).1
      [py310_foo_1_0] [] py311_foo_1_2 (by decide) (fun _ => List.nil_le) (by decide)
      (fun _ _ _ _ _ => rfl)).2.2.1 (by decide)).2.2⟩

theorem foldl_escape (arg ss : Str) :
    arg.foldl (fun ss c => if c = dquote then ss ++ [backslash, dquote] else ss ++ [c]) ss
      = ss ++ arg.flatMap (fun c => if c = dquote then [backslash, dquote] else [c]) := by
  induction arg generalizing ss with
  | nil => simp
  | cons c arg ih =>
    rw [List.foldl_cons, ih, List.flatMap_cons]
    split_ifs <;> simp

theorem find_ne_none_iff (s : Str) (c : Char) : find s c ≠ none ↔ c ∈ s := by
  rw [find_eq]
  split_ifs with h <;> simp [h]

theorem stringify_argv_step (state : Str × Bool) (arg : Str) :
    (if find arg ' ' ≠ none then
        (arg.foldl
          (fun ss c => if c = dquote then ss ++ [backslash, dquote] else ss ++ [c])
          ((if state.2 then state.1 else state.1 ++ [' ']) ++ [dquote]) ++ [dquote], false)
      else
        ((if state.2 then state.1 else state.1 ++ [' ']) ++ arg, false))
      = ((if state.2 then state.1 else state.1 ++ [' ']) ++ rendering_of_space arg, false) := by
  unfold rendering_of_space quoted
  by_cases h : ' ' ∈ arg
  · simp [(find_ne_none_iff arg ' ').mpr h, h, foldl_escape]
  · have h' : ¬ find arg ' ' ≠ none := fun hf => h ((find_ne_none_iff arg ' ').mp hf)
    simp only [h', h, if_false]

theorem stringify_argv_foldl (ss : Str) (argv : List Str) :
    (argv.foldl
      (fun (state : Str × Bool) (arg : Str) =>
        let ss := if state.2 then state.1 else state.1 ++ [' ']
        if find arg ' ' ≠ none then
          (arg.foldl
            (fun ss c => if c = dquote then ss ++ [backslash, dquote] else ss ++ [c])
            (ss ++ [dquote]) ++ [dquote], false)
        else
          (ss ++ arg, false))
      (ss, false)).1
      = ss ++ argv.flatMap (fun arg => ' ' :: rendering_of_space arg) := by
  induction argv generalizing ss with
  | nil => simp
  | cons arg rest ih =>
    rw [List.foldl_cons]
    simp only
    rw [stringify_argv_step (ss, false) arg]
    simp only [Bool.false_eq_true, if_false]
    rw [ih]
    simp

theorem join_with_spaces_cons (x : Str) (xs : List Str) :
    join_with_spaces (x :: xs) = x ++ xs.flatMap (fun y => ' ' :: y) := by
  induction xs generalizing x with
  | nil => simp [join_with_spaces]
  | cons y rest ih =>
    rw [join_with_spaces, ih y]
    simp

/-- C16 (as amended): `stringify_argv` returns the renderings of the elements of the
argument vector joined by single spaces, where an element that contains a space is
rendered as a double quote, the element with a backslash put before each of its double
quotes, and a closing double quote, and an element without a space is rendered
unchanged, also when it contains a tab. -/
theorem stringify_argv_eq (argv : List Str) :
    stringify_argv argv = join_with_spaces (argv.map rendering_of_space)
    ∧ (∀ arg : Str, ' ' ∈ arg → rendering_of_space arg = quoted arg)
    ∧ (∀ arg : Str, ' ' ∉ arg → rendering_of_space arg = arg) := by
  refine ⟨?_, fun arg h => by simp [rendering_of_space, h],
    fun arg h => by simp [rendering_of_space, h]⟩
  cases argv with
  | nil => rfl
  | cons arg rest =>
    have hstep := stringify_argv_step ([], true) arg
    unfold stringify_argv
    rw [List.foldl_cons]
    simp only [if_true, List.nil_append] at hstep ⊢
    rw [hstep, stringify_argv_foldl, List.map_cons, join_with_spaces_cons]
    simp [List.flatMap_def, List.map_map, Function.comp_def]

/-- An argument vector whose one element contains a tab and no space: it is rendered
unchanged, not between double quotes. -/
theorem stringify_argv_tab_counterexample :
    stringify_argv ["a\tb".toList] = "a\tb".toList
    ∧ ¬ (stringify_argv ["a\tb".toList]
        = join_with_spaces (["a\tb".toList].map rendering_of_whitespace)) := by
  decide

/-- An argument with a space is quoted, one without is not. -/
theorem stringify_argv_eq_witness :
    ' ' ∈ "a b".toList
    ∧ stringify_argv ["sh".toList, "a b".toList]
      = "sh ".toList ++ [dquote] ++ "a b".toList ++ [dquote] :=
  ⟨by decide,
    (stringify_argv_eq ["sh".toList, "a b".toList]).1.trans (by decide)⟩

/-- C20: the move constructor of `harness` gives the new harness the pid, the three
streams and the status of the source, and leaves the source without pid, streams and
status, so that its destructor does not wait; but the command, the argument vector,
the working directory and the environment map of the new harness are default
constructed, not those of the source, as for the harness of a running `make`. -/
theorem harness_move_drops_command (other : harness) :
    ((harness.move other).1._pid = other._pid
      ∧ (harness.move other).1._stdin = other._stdin
      ∧ (harness.move other).1._stdout = other._stdout
      ∧ (harness.move other).1._stderr = other._stderr
      ∧ (harness.move other).1._status = other._status)
    ∧ ((harness.move other).2._pid = none
      ∧ (harness.move other).2._stdin = none
      ∧ (harness.move other).2._stdout = none
      ∧ (harness.move other).2._stderr = none
      ∧ (harness.move other).2._status = none
      ∧ (harness.move other).2.destructor_waits = false)
    ∧ ((harness.move other).1._cmd = []
      ∧ (harness.move other).1._argv = []
      ∧ (harness.move other).1._cwd = none
      ∧ (harness.move other).1._env = [])
    ∧ ((harness.move make_harness).1._cmd ≠ make_harness._cmd
      ∧ (harness.move make_harness).1._argv ≠ make_harness._argv
      ∧ (harness.move make_harness).1._cwd ≠ make_harness._cwd
      ∧ (harness.move make_harness).1._env ≠ make_harness._env) := by
  refine ⟨⟨rfl, rfl, rfl, rfl, rfl⟩, ⟨rfl, rfl, rfl, rfl, rfl, rfl⟩, ⟨rfl, rfl, rfl, rfl⟩, ?_⟩
  decide

/-! ## String algorithms: `trim` -/

theorem find_if_from_zero_some (p : Char → Bool) (s : Str) (b : Nat)
    (h : find_if_from p s 0 = some b) :
    ∃ a c rest, s = a ++ c :: rest ∧ a.length = b ∧ p c = true ∧ ∀ x ∈ a, p x = false := by
  induction s generalizing b with
  | nil => simp [find_if_from] at h
  | cons x xs ih =>
    unfold find_if_from at h
    by_cases hx : p x = true
    · simp only [hx, if_true, Option.some.injEq] at h
      exact ⟨[], x, xs, rfl, by simp [← h], hx, by simp⟩
    · simp only [hx, Bool.false_eq_true, if_false, Option.map_eq_some'] at h
      obtain ⟨b', hb', rfl⟩ := h
      obtain ⟨a, c, rest, hs, hlen, hc, ha⟩ := ih b' hb'
      refine ⟨x :: a, c, rest, by rw [hs]; rfl, by simp [hlen], hc, ?_⟩
      intro y hy
      rcases List.mem_cons.mp hy with rfl | hy
      · simpa using hx
      · exact ha y hy

theorem find_if_from_zero_none (p : Char → Bool) (s : Str)
    (h : find_if_from p s 0 = none) : ∀ x ∈ s, p x = false := by
  induction s with
  | nil => simp
  | cons x xs ih =>
    unfold find_if_from at h
    by_cases hx : p x = true
    · simp [hx] at h
    · simp only [hx, Bool.false_eq_true, if_false, Option.map_eq_none'] at h
      intro y hy
      rcases List.mem_cons.mp hy with rfl | hy
      · simpa using hx
      · exact ih h y hy

theorem find_last_if_some (p : Char → Bool) (s : Str) (e : Nat)
    (h : find_last_if p s = some e) :
    ∃ a c rest, s = a ++ c :: rest ∧ a.length = e ∧ p c = true ∧ ∀ x ∈ rest, p x = false := by
  induction s generalizing e with
  | nil => simp [find_last_if] at h
  | cons x xs ih =>
    unfold find_last_if at h
    cases hl : find_last_if p xs with
    | some i =>
      rw [hl] at h
      simp only [Option.some.injEq] at h
      obtain ⟨a, c, rest, hs, hlen, hc, hr⟩ := ih i hl
      exact ⟨x :: a, c, rest, by rw [hs]; rfl, by simp [hlen, h], hc, hr⟩
    | none =>
      rw [hl] at h
      simp only at h
      split_ifs at h with hx
      simp only [Option.some.injEq] at h
      refine ⟨[], x, xs, rfl, by simp [← h], hx, ?_⟩
      clear ih h
      induction xs with
      | nil => simp
      | cons y ys ihy =>
        unfold find_last_if at hl
        cases hl' : find_last_if p ys with
        | some i => simp [hl'] at hl
        | none =>
          rw [hl'] at hl
          simp only at hl
          intro z hz
          rcases List.mem_cons.mp hz with rfl | hz
          · by_contra hz'
            simp [hz'] at hl
          · exact ihy hl' z hz

theorem find_last_if_none (p : Char → Bool) (s : Str)
    (h : find_last_if p s = none) : ∀ x ∈ s, p x = false := by
  induction s with
  | nil => simp
  | cons y ys ihy =>
    unfold find_last_if at h
    cases hl' : find_last_if p ys with
    | some i => simp [hl'] at h
    | none =>
      rw [hl'] at h
      simp only at h
      intro z hz
      rcases List.mem_cons.mp hz with rfl | hz
      · by_contra hz'
        simp [hz'] at h
      · exact ihy hl' z hz

/-- C15: `trim(str, seps)` is the slice of `str` left when the longest prefix and the
longest suffix made only of separators are removed: `str` is `l ++ trim(str, seps) ++
r` with `l` and `r` made only of separators, the slice is empty or begins and ends
with a character that is not a separator, and it is empty if and only if `str` has no
character that is not a separator. The assertion of `trim` never fails. -/
theorem trim_slice (str seps : Str) :
    (∃ l r, str = l ++ trim str seps ++ r ∧ (∀ c ∈ l, c ∈ seps) ∧ (∀ c ∈ r, c ∈ seps))
    ∧ (trim str seps = []
        ∨ ∃ first last, (trim str seps).head? = some first
            ∧ (trim str seps).getLast? = some last ∧ first ∉ seps ∧ last ∉ seps)
    ∧ (trim str seps = [] ↔ ∀ c ∈ str, c ∈ seps)
    ∧ (find_first_not_of str seps 0 ≠ none → find_last_not_of str seps ≠ none) := by
  have hsep : ∀ (l : Str), (∀ x ∈ l, (fun c => !decide (c ∈ seps)) x = false)
      → ∀ c ∈ l, c ∈ seps := by
    intro l h c hc
    simpa using h c hc
  cases hb : find_first_not_of str seps 0 with
  | none =>
    have hall := hsep str (find_if_from_zero_none _ str hb)
    have htrim : trim str seps = [] := by
      unfold trim
      rw [hb]
    rw [htrim]
    exact ⟨⟨str, [], by simp, hall, by simp⟩, Or.inl rfl, ⟨fun _ => hall, fun _ => rfl⟩,
      fun h => absurd rfl h⟩
  | some b =>
    obtain ⟨a1, c1, r1, hs1, hlen1, hc1, ha1⟩ := find_if_from_zero_some _ str b hb
    have hc1' : c1 ∉ seps := by simpa using hc1
    cases he : find_last_not_of str seps with
    | none =>
      exfalso
      have := find_last_if_none _ str he c1 (by rw [hs1]; simp)
      rw [hc1] at this
      cases this
    | some e =>
      obtain ⟨a2, c2, r2, hs2, hlen2, hc2, hr2⟩ := find_last_if_some _ str e he
      have hc2' : c2 ∉ seps := by simpa using hc2
      have heq : a1 ++ c1 :: r1 = a2 ++ c2 :: r2 := hs1.symm.trans hs2
      obtain ⟨a', ha', hmid⟩ : ∃ a', a2 = a1 ++ a' ∧ c1 :: r1 = a' ++ c2 :: r2 := by
        rcases List.append_eq_append_iff.mp heq with ⟨a', h1, h2⟩ | ⟨c', h1, h2⟩
        · exact ⟨a', h1, h2⟩
        · cases c' with
          | nil =>
            simp only [List.append_nil, List.nil_append] at h1 h2
            exact ⟨[], by simp [h1], by simp [h2]⟩
          | cons x c'' =>
            exfalso
            simp only [List.cons_append, List.cons.injEq] at h2
            have hx : c2 ∈ a1 := by
              rw [h1, h2.1]
              simp
            have := ha1 c2 hx
            rw [hc2] at this
            cases this
      have htrim : trim str seps = a' ++ [c2] := by
        unfold trim
        rw [hb, he]
        simp only [substr]
        have hdrop : List.drop b str = a' ++ c2 :: r2 := by
          rw [hs1, ← hlen1, List.drop_left, hmid]
        have hlen : e - b + 1 = (a' ++ [c2]).length := by
          rw [← hlen2, ← hlen1, ha']
          simp
        rw [hdrop, hlen]
        have : a' ++ c2 :: r2 = (a' ++ [c2]) ++ r2 := by simp
        rw [this, List.take_left]
      have hne : trim str seps ≠ [] := by
        rw [htrim]
        simp
      refine ⟨⟨a1, r2, ?_, hsep a1 ha1, hsep r2 hr2⟩, Or.inr ?_, ?_, fun _ h => by cases h⟩
      · rw [htrim, hs2, ha']
        simp
      · rw [htrim]
        cases a' with
        | nil =>
          simp only [List.nil_append, List.cons.injEq, and_true] at hmid
          exact ⟨c2, c2, rfl, rfl, hc2', hc2'⟩
        | cons x a'' =>
          simp only [List.cons_append, List.cons.injEq] at hmid
          refine ⟨c1, c2, ?_, ?_, hc1', hc2'⟩
          · rw [hmid.1]
            rfl
          · show ((x :: a'') ++ [c2]).getLast? = some c2
            rw [List.getLast?_append]
            rfl
      · constructor
        · intro h
          exact absurd h hne
        · intro h
          exact absurd (h c1 (by rw [hs1]; simp)) hc1'

/-- The slice of a string between blanks and tabs. -/
theorem trim_slice_witness :
    find_first_not_of "  ab c \t".toList " \t".toList 0 ≠ none
    ∧ find_last_not_of "  ab c \t".toList " \t".toList ≠ none :=
  ⟨by decide,
    (trim_slice "  ab c \t".toList " \t".toList).2.2.2 (by decide)⟩
/-! ## String algorithms: `words` -/

theorem find_if_from_drop (p : Char → Bool) (s : Str) (pos : Nat) :
    find_if_from p s pos = (find_if_from p (s.drop pos) 0).map (· + pos) := by
  induction s generalizing pos with
  | nil => simp [find_if_from]
  | cons c cs ih =>
    cases pos with
    | zero => simp
    | succ pos =>
      rw [find_if_from, ih pos]
      simp [Option.map_map, Function.comp_def, Nat.add_assoc]

theorem find_if_from_zero (p q : Char → Bool) (hq : ∀ c, q c = !p c) (u : Str) :
    find_if_from p u 0
      = if u.dropWhile q = [] then none else some (u.takeWhile q).length := by
  induction u with
  | nil => simp [find_if_from]
  | cons c cs ih =>
    unfold find_if_from
    by_cases hc : p c = true
    · simp [hc, hq, List.dropWhile_cons, List.takeWhile_cons]
    · have hqc : q c = true := by simp [hq, hc]
      simp only [hc, Bool.false_eq_true, if_false, ih, List.dropWhile_cons, hqc, if_true,
        List.takeWhile_cons]
      split_ifs <;> simp

theorem runs_from_dropWhile (seps u : Str) :
    runs_from seps [] u = runs_from seps [] (u.dropWhile (fun c => decide (c ∈ seps))) := by
  induction u with
  | nil => rfl
  | cons c cs ih =>
    by_cases hc : c ∈ seps
    · rw [List.dropWhile_cons]
      simp only [hc, decide_True, if_true]
      rw [← ih, runs_from]
      simp [hc]
    · rw [List.dropWhile_cons]
      simp [hc]

theorem runs_from_word (seps cur u : Str)
    (h : cur ≠ [] ∨ ∃ c rest, u = c :: rest ∧ c ∉ seps) :
    runs_from seps cur u
      = (cur.reverse ++ u.takeWhile (fun c => !decide (c ∈ seps)))
        :: runs_from seps [] ((u.dropWhile (fun c => !decide (c ∈ seps))).drop 1) := by
  induction u generalizing cur with
  | nil =>
    rcases h with h | ⟨c, rest, h, -⟩
    · simp [runs_from, h]
    · cases h
  | cons c cs ih =>
    by_cases hc : c ∈ seps
    · have hcur : cur ≠ [] := by
        rcases h with h | ⟨c', rest, h, hc'⟩
        · exact h
        · simp only [List.cons.injEq] at h
          rw [← h.1] at hc'
          exact absurd hc hc'
      rw [runs_from]
      simp [hc, hcur, List.takeWhile_cons, List.dropWhile_cons]
    · rw [runs_from]
      simp only [hc, if_false]
      rw [ih (c :: cur) (Or.inl (by simp))]
      simp [List.takeWhile_cons, List.dropWhile_cons, hc]

theorem runs_from_eq_splitOnP (seps cur s : Str) :
    runs_from seps cur s
      = (((s.splitOnP (fun c => decide (c ∈ seps))).modifyHead (cur.reverse ++ ·)).filter
          (fun w => decide (w ≠ []))) := by
  induction s generalizing cur with
  | nil =>
    rw [runs_from, List.splitOnP_nil]
    by_cases h : cur = []
    · simp [h]
    · simp [h, List.modifyHead]
  | cons c cs ih =>
    rw [runs_from, List.splitOnP_cons]
    by_cases hc : c ∈ seps
    · have hnil := ih []
      simp only [List.reverse_nil, List.nil_append] at hnil
      have hid : ∀ l : List Str, List.modifyHead (fun x => x) l = l := by
        intro l
        cases l <;> rfl
      rw [hid] at hnil
      simp only [hc, if_true, decide_True, List.modifyHead_cons, List.append_nil]
      by_cases h : cur = []
      · simp [h, hnil]
      · simp [h, hnil, List.filter_cons]
    · simp only [hc, if_false, decide_False, Bool.false_eq_true]
      rw [ih (c :: cur), List.modifyHead_modifyHead]
      congr 2
      funext l
      simp

theorem maximal_runs_eq_runs_from (view seps : Str) :
    maximal_runs view seps = runs_from seps [] view := by
  rw [runs_from_eq_splitOnP]
  unfold maximal_runs
  congr 1
  cases (List.splitOnP (fun c => decide (c ∈ seps)) view) <;> simp [List.modifyHead]

theorem runs_from_words (seps cur s : Str) (hcur : ∀ c ∈ cur, c ∉ seps) :
    ∀ w ∈ runs_from seps cur s, w ≠ [] ∧ ∀ c ∈ w, c ∉ seps := by
  induction s generalizing cur with
  | nil =>
    intro w hw
    rw [runs_from] at hw
    split_ifs at hw with h
    · simp at hw
    · simp only [List.mem_singleton] at hw
      subst hw
      exact ⟨by simpa using h, fun c hc => hcur c (List.mem_reverse.mp hc)⟩
  | cons c cs ih =>
    intro w hw
    rw [runs_from] at hw
    split_ifs at hw with hc h
    · exact ih [] (by simp) w hw
    · rcases List.mem_cons.mp hw with rfl | hw
      · exact ⟨by simpa using h, fun c hc => hcur c (List.mem_reverse.mp hc)⟩
      · exact ih [] (by simp) w hw
    · refine ih (c :: cur) ?_ w hw
      intro x hx
      rcases List.mem_cons.mp hx with rfl | hx
      · exact hc
      · exact hcur x hx

theorem runs_from_of_separators (seps s : Str) (h : ∀ c ∈ s, c ∈ seps) :
    runs_from seps [] s = [] := by
  induction s with
  | nil => rfl
  | cons c cs ih =>
    rw [runs_from]
    simp [h c (List.mem_cons_self _ _), ih (fun x hx => h x (List.mem_cons_of_mem _ hx))]
theorem update_current_seek (s seps : Str) (j : Nat) (current : Option Str) :
    word_iterator.update_current
        { _source := some s, _seps := seps, _pos := find_first_not_of s seps j,
          _current := current }
      = if (s.drop j).dropWhile (fun c => decide (c ∈ seps)) = [] then
          { _source := some s, _seps := seps, _pos := none, _current := none }
        else
          { _source := some s, _seps := seps
            _pos := some (j + ((s.drop j).takeWhile (fun c => decide (c ∈ seps))).length)
            _current := some (((s.drop j).dropWhile (fun c => decide (c ∈ seps))).takeWhile
              (fun c => !decide (c ∈ seps))) } := by
  have hpos : find_first_not_of s seps j
      = if (s.drop j).dropWhile (fun c => decide (c ∈ seps)) = [] then none
        else some (j + ((s.drop j).takeWhile (fun c => decide (c ∈ seps))).length) := by
    unfold find_first_not_of
    rw [find_if_from_drop,
      find_if_from_zero _ (fun c => decide (c ∈ seps)) (fun c => by simp)]
    split_ifs <;> simp [Nat.add_comm]
  rw [hpos]
  split_ifs with hnil
  · simp [word_iterator.update_current]
  · -- the position found holds a character that is not a separator
    obtain ⟨c, rest, hu⟩ : ∃ c rest,
        (s.drop j).dropWhile (fun c => decide (c ∈ seps)) = c :: rest :=
      List.exists_cons_of_ne_nil hnil
    have hc : c ∉ seps := by
      have := List.head_dropWhile_not (fun c => decide (c ∈ seps)) (s.drop j)
      simp only [hu] at this
      simpa using this (by simp)
    have hdrop : s.drop (j + ((s.drop j).takeWhile (fun c => decide (c ∈ seps))).length)
        = c :: rest := by
      rw [← List.drop_drop, drop_length_takeWhile, hu]
    have hdrop1 : s.drop (j + ((s.drop j).takeWhile
        (fun c => decide (c ∈ seps))).length + 1) = rest := by
      rw [← List.drop_drop, hdrop]
      rfl
    simp only [word_iterator.update_current, Option.getD_some]
    unfold find_first_of
    rw [find_if_from_drop,
      find_if_from_zero _ (fun c => !decide (c ∈ seps)) (fun c => by simp), hdrop1, hu]
    have htw : (c :: rest).takeWhile (fun c => !decide (c ∈ seps))
        = c :: rest.takeWhile (fun c => !decide (c ∈ seps)) := by
      simp [List.takeWhile_cons, hc]
    rw [htw]
    split_ifs with hrest
    · simp only [substr_from, hdrop]
      have := List.takeWhile_append_dropWhile (fun c => !decide (c ∈ seps)) rest
      rw [hrest, List.append_nil] at this
      rw [this]
      simp only [Option.map_none']
    · simp only [Option.map_some', substr, hdrop]
      have hlen : (rest.takeWhile (fun c => !decide (c ∈ seps))).length
            + (j + ((s.drop j).takeWhile (fun c => decide (c ∈ seps))).length + 1)
            - (j + ((s.drop j).takeWhile (fun c => decide (c ∈ seps))).length)
          = (rest.takeWhile (fun c => !decide (c ∈ seps))).length + 1 := by
        omega
      rw [hlen, List.take_succ_cons, take_length_takeWhile]

theorem collect_seek (s seps : Str) (fuel j : Nat) (current : Option Str)
    (hfuel : s.length - j < fuel) :
    word_iterator.collect fuel
        (word_iterator.update_current
          { _source := some s, _seps := seps, _pos := find_first_not_of s seps j,
            _current := current })
      = some (runs_from seps [] (s.drop j)) := by
  induction fuel generalizing j current with
  | zero => omega
  | succ fuel ih =>
    rw [update_current_seek]
    split_ifs with hnil
    · rw [runs_from_dropWhile, hnil]
      simp [word_iterator.collect, word_iterator.equals, word_iterator.end_iterator,
        runs_from]
    · obtain ⟨c, rest, hu⟩ : ∃ c rest,
          (s.drop j).dropWhile (fun c => decide (c ∈ seps)) = c :: rest :=
        List.exists_cons_of_ne_nil hnil
      have hc : c ∉ seps := by
        have := List.head_dropWhile_not (fun c => decide (c ∈ seps)) (s.drop j)
        simp only [hu] at this
        simpa using this (by simp)
      have hj : j < s.length := by
        by_contra hge
        rw [List.drop_eq_nil_of_le (not_lt.mp hge)] at hnil
        exact hnil rfl
      have hdrop : s.drop (j + ((s.drop j).takeWhile (fun c => decide (c ∈ seps))).length)
          = c :: rest := by
        rw [← List.drop_drop, drop_length_takeWhile, hu]
      have hnext := ih
        (j + ((s.drop j).takeWhile (fun c => decide (c ∈ seps))).length
          + ((c :: rest).takeWhile (fun c => !decide (c ∈ seps))).length + 1)
        (some ((c :: rest).takeWhile (fun c => !decide (c ∈ seps)))) (by omega)
      have htail : s.drop (j + ((s.drop j).takeWhile (fun c => decide (c ∈ seps))).length
            + ((c :: rest).takeWhile (fun c => !decide (c ∈ seps))).length + 1)
          = ((c :: rest).dropWhile (fun c => !decide (c ∈ seps))).drop 1 := by
        rw [← List.drop_drop, ← List.drop_drop, hdrop, drop_length_takeWhile]
      rw [htail] at hnext
      rw [runs_from_dropWhile, hu, runs_from_word seps [] (c :: rest) (Or.inr ⟨c, rest, rfl, hc⟩)]
      simp only [word_iterator.collect, word_iterator.equals, word_iterator.end_iterator,
        Option.isSome_some, Option.isSome_none, Bool.and_false, Bool.false_eq_true, if_false,
        if_true, word_iterator.increment, Option.getD_some, hnext, Option.map_some',
        List.reverse_nil, List.nil_append, reduceCtorEq, decide_False]

/-- C14: the loop over `words(view, seps)` from `begin()` until the iterator equals
`end()` ends after finitely many increments, one for each word and so no more than
`view` has characters plus one, and yields, in order, the maximal runs of consecutive
non-separator characters of `view`; every word yielded is non-empty and has no
separator character, and a view that is empty or made only of separators yields no
word. -/
theorem words_yield_maximal_runs (view seps : Str) :
    word_iterator.collect (view.length + 1) (word_iterator.begin_iterator view seps)
      = some (maximal_runs view seps)
    ∧ (∀ w ∈ maximal_runs view seps, w ≠ [] ∧ ∀ c ∈ w, c ∉ seps)
    ∧ ((∀ c ∈ view, c ∈ seps) → maximal_runs view seps = []) := by
  rw [maximal_runs_eq_runs_from]
  refine ⟨?_, runs_from_words seps [] view (by simp), runs_from_of_separators seps view⟩
  have h := collect_seek view seps (view.length + 1) 0 none (by omega)
  rw [List.drop_zero] at h
  exact h

/-- The words of a string between blanks and tabs. -/
theorem words_yield_maximal_runs_witness :
    (∀ c ∈ " \t ".toList, c ∈ " \t".toList)
    ∧ maximal_runs " \t ".toList " \t".toList = [] :=
  ⟨by decide,
    (words_yield_maximal_runs " \t ".toList " \t".toList).2.2 (by decide)⟩

/-! ## The index of a summary -/

section modify_lemmas
variable {κ β : Type} [LinearOrder κ]

theorem mem_keys_map_modify (k' k : κ) (f : β → β) (d : β) (m : List (κ × β)) :
    k' ∈ (map_modify k f d m).map Prod.fst ↔ k' = k ∨ k' ∈ m.map Prod.fst := by
  induction m with
  | nil => simp [map_modify]
  | cons e m ih =>
    unfold map_modify
    split_ifs with h1 h2
    · simp
    · simp only [List.map_cons, List.mem_cons, ih]
      tauto
    · have hk : k = e.1 := le_antisymm (not_lt.mp h2) (not_lt.mp h1)
      simp only [List.map_cons, List.mem_cons]
      constructor
      · exact Or.inr
      · rintro (h | h)
        · exact Or.inl (h.trans hk)
        · exact h

theorem map_modify_sorted (k : κ) (f : β → β) (d : β) (m : List (κ × β))
    (hs : (m.map Prod.fst).Sorted (· < ·)) :
    ((map_modify k f d m).map Prod.fst).Sorted (· < ·) := by
  induction m with
  | nil => simp [map_modify]
  | cons e m ih =>
    have hs' := List.sorted_cons.mp hs
    unfold map_modify
    split_ifs with h1 h2
    · refine List.sorted_cons.mpr ⟨?_, hs⟩
      intro z hz
      rcases List.mem_cons.mp hz with rfl | hz
      · exact h1
      · exact lt_trans h1 (hs'.1 z hz)
    · refine List.sorted_cons.mpr ⟨?_, ih hs'.2⟩
      intro z hz
      rcases (mem_keys_map_modify z k f d m).mp hz with rfl | hz
      · exact h2
      · exact hs'.1 z hz
    · exact hs

theorem map_find_map_modify_of_ne (k' k : κ) (f : β → β) (d : β) (m : List (κ × β))
    (h : k' ≠ k) : map_find k' (map_modify k f d m) = map_find k' m := by
  have h' : ¬ k = k' := fun hk => h hk.symm
  induction m with
  | nil => simp [map_modify, map_find, h']
  | cons e m ih =>
    unfold map_modify
    split_ifs with h1 h2
    · simp [map_find, h']
    · simp only [map_find, ih]
    · have hk : k = e.1 := le_antisymm (not_lt.mp h2) (not_lt.mp h1)
      have he : ¬ e.1 = k' := fun h'' => h' (hk.trans h'')
      simp only [map_find, he, if_false]

theorem map_find_map_modify_self (k : κ) (f : β → β) (d : β) (m : List (κ × β))
    (hs : (m.map Prod.fst).Sorted (· < ·)) :
    map_find k (map_modify k f d m) = some (f ((map_find k m).getD d)) := by
  induction m with
  | nil => simp [map_modify, map_find]
  | cons e m ih =>
    have hs' := List.sorted_cons.mp hs
    unfold map_modify
    split_ifs with h1 h2
    · have hnone : map_find k (e :: m) = none := by
        rw [map_find_eq_none_iff]
        intro hk
        rcases List.mem_cons.mp hk with hk | hk
        · rw [hk] at h1
          exact lt_irrefl _ h1
        · exact lt_irrefl _ (lt_trans h1 (hs'.1 k hk))
      rw [hnone]
      simp [map_find]
    · simp only [map_find, ne_of_lt h2, if_false]
      exact ih hs'.2
    · have hk : e.1 = k := le_antisymm (not_lt.mp h1) (not_lt.mp h2)
      simp [map_find, hk]

theorem mem_of_map_find {k : κ} {v : β} {m : List (κ × β)} (h : map_find k m = some v) :
    (k, v) ∈ m := by
  induction m with
  | nil => simp [map_find] at h
  | cons e m ih =>
    unfold map_find at h
    split_ifs at h with he
    · simp only [Option.some.injEq] at h
      rw [← he, ← h]
      exact List.mem_cons_self _ _
    · exact List.mem_cons_of_mem _ (ih h)

theorem map_find_of_mem {x : κ × β} {m : List (κ × β)}
    (hs : (m.map Prod.fst).Sorted (· < ·)) (h : x ∈ m) : map_find x.1 m = some x.2 := by
  induction m with
  | nil => cases h
  | cons e l ih =>
    have hl' := List.sorted_cons.mp hs
    rcases List.mem_cons.mp h with rfl | hxl
    · simp [map_find]
    · have hne : ¬ e.1 = x.1 := by
        intro he
        have := hl'.1 x.1 (List.mem_map_of_mem _ hxl)
        rw [he] at this
        exact lt_irrefl _ this
      simp only [map_find, hne, if_false]
      exact ih hl'.2 hxl

theorem mem_map_modify (x : κ × β) (k : κ) (f : β → β) (d : β) (m : List (κ × β))
    (hs : (m.map Prod.fst).Sorted (· < ·)) (h : x ∈ map_modify k f d m) :
    (x ∈ m ∧ x.1 ≠ k) ∨ x = (k, f ((map_find k m).getD d)) := by
  have hfind := map_find_map_modify_self k f d m hs
  have hsorted := map_modify_sorted k f d m hs
  by_cases hx : x.1 = k
  · right
    have := map_find_of_mem hsorted h
    rw [hx, hfind] at this
    exact Prod.ext hx (Option.some.inj this).symm
  · left
    refine ⟨?_, hx⟩
    clear hfind hsorted
    induction m with
    | nil =>
      simp only [map_modify, List.mem_singleton] at h
      rw [h] at hx
      exact absurd rfl hx
    | cons e m ih =>
      have hs' := List.sorted_cons.mp hs
      unfold map_modify at h
      split_ifs at h with h1 h2
      · rcases List.mem_cons.mp h with h | h
        · rw [h] at hx
          exact absurd rfl hx
        · exact h
      · rcases List.mem_cons.mp h with h | h
        · exact List.mem_cons.mpr (Or.inl h)
        · exact List.mem_cons_of_mem _ (ih hs'.2 h)
      · rcases List.mem_cons.mp h with h | h
        · have hk : e.1 = k := le_antisymm (not_lt.mp h1) (not_lt.mp h2)
          rw [h] at hx
          exact absurd hk hx
        · exact List.mem_cons_of_mem _ h

theorem sum_map_modify (g : β → Nat) (k : κ) (f : β → β) (d : β) (m : List (κ × β))
    (hs : (m.map Prod.fst).Sorted (· < ·)) (hd : g d = 0)
    (hf : g (f ((map_find k m).getD d)) = g ((map_find k m).getD d) + 1) :
    ((map_modify k f d m).map (fun e => g e.2)).sum = (m.map (fun e => g e.2)).sum + 1 := by
  induction m with
  | nil =>
    simp only [map_find, Option.getD_none] at hf
    simp [map_modify, hf, hd]
  | cons e m ih =>
    have hs' := List.sorted_cons.mp hs
    unfold map_modify
    split_ifs with h1 h2
    · have hnone : map_find k (e :: m) = none := by
        rw [map_find_eq_none_iff]
        intro hk
        rcases List.mem_cons.mp hk with hk | hk
        · rw [hk] at h1
          exact lt_irrefl _ h1
        · exact lt_irrefl _ (lt_trans h1 (hs'.1 k hk))
      rw [hnone] at hf
      simp only [Option.getD_none] at hf
      simp only [List.map_cons, List.sum_cons, hf, hd]
      omega
    · have hf' : g (f ((map_find k m).getD d)) = g ((map_find k m).getD d) + 1 := by
        simpa only [map_find, ne_of_lt h2, if_false] using hf
      simp only [List.map_cons, List.sum_cons, ih hs'.2 hf']
      omega
    · have hk : e.1 = k := le_antisymm (not_lt.mp h1) (not_lt.mp h2)
      simp only [map_find, hk, if_true, Option.getD_some] at hf
      simp only [List.map_cons, List.sum_cons, hf]
      omega

end modify_lemmas
section modify_more
variable {κ β : Type} [LinearOrder κ]

theorem map_modify_ne_nil (k : κ) (f : β → β) (d : β) (m : List (κ × β)) :
    map_modify k f d m ≠ [] := by
  cases m with
  | nil => simp [map_modify]
  | cons e m =>
    unfold map_modify
    split_ifs <;> simp

theorem map_emplace_ne_nil (k : κ) (v : β) (m : List (κ × β)) : map_emplace k v m ≠ [] := by
  cases m with
  | nil => simp [map_emplace]
  | cons e m =>
    unfold map_emplace
    split_ifs <;> simp

end modify_more

section pkgmap_lemmas
variable {V P D : Type} [LinearOrder V] [LinearOrder P]

/-- The buckets that `pkgmap_lookup` goes through are those of the map, or empty. -/
theorem pkgmap_bases_wellformed (pm : pkgmap V P D) (hw : pkgmap_wellformed pm) (p : P) :
    (((map_find p pm).getD []).map Prod.fst).Sorted (· < ·)
      ∧ ∀ e' ∈ (map_find p pm).getD [], (e'.2.map Prod.fst).Sorted (· < ·) ∧ e'.2 ≠ [] := by
  cases h : map_find p pm with
  | none => simp
  | some bases =>
    have := hw.2 _ (mem_of_map_find h)
    exact ⟨this.1, this.2.2⟩

theorem pkgmap_names_sorted (pm : pkgmap V P D) (hw : pkgmap_wellformed pm) (p : P)
    (b : pkgbase) :
    (((map_find b ((map_find p pm).getD [])).getD []).map Prod.fst).Sorted (· < ·) := by
  cases h : map_find b ((map_find p pm).getD []) with
  | none => simp
  | some names => exact ((pkgmap_bases_wellformed pm hw p).2 _ (mem_of_map_find h)).1

theorem pkgmap_insert_wellformed (pm : pkgmap V P D) (hw : pkgmap_wellformed pm)
    (pair : pkgname V × pkgvars (pkgname V) P D) :
    pkgmap_wellformed (pkgmap_insert pm pair) := by
  have hb := pkgmap_bases_wellformed pm hw pair.2.PKGPATH
  refine ⟨map_modify_sorted _ _ _ _ hw.1, ?_⟩
  intro e he
  rcases mem_map_modify e _ _ _ _ hw.1 he with ⟨he, _⟩ | he
  · exact hw.2 e he
  · rw [he]
    refine ⟨map_modify_sorted _ _ _ _ hb.1, map_modify_ne_nil _ _ _ _, ?_⟩
    intro e' he'
    rcases mem_map_modify e' _ _ _ _ hb.1 he' with ⟨he', _⟩ | he'
    · exact hb.2 e' he'
    · rw [he']
      exact ⟨map_emplace_sorted _ _ _
        (pkgmap_names_sorted pm hw pair.2.PKGPATH pair.2.PKGNAME.base),
        map_emplace_ne_nil _ _ _⟩

theorem pkgmap_lookup_insert (pm : pkgmap V P D) (hw : pkgmap_wellformed pm)
    (pair : pkgname V × pkgvars (pkgname V) P D) (p : P) (b : pkgbase) (n : pkgname V) :
    pkgmap_lookup (pkgmap_insert pm pair) p b n =
      if p = pair.2.PKGPATH ∧ b = pair.2.PKGNAME.base then
        map_find n (map_emplace pair.1 pair.2
          ((map_find b ((map_find p pm).getD [])).getD []))
      else pkgmap_lookup pm p b n := by
  have hb := pkgmap_bases_wellformed pm hw pair.2.PKGPATH
  unfold pkgmap_lookup pkgmap_insert
  by_cases hp : p = pair.2.PKGPATH
  · subst hp
    rw [map_find_map_modify_self _ _ _ _ hw.1, Option.getD_some]
    by_cases hbb : b = pair.2.PKGNAME.base
    · subst hbb
      rw [map_find_map_modify_self _ _ _ _ hb.1, Option.getD_some]
      simp
    · rw [map_find_map_modify_of_ne _ _ _ _ _ hbb]
      simp [hbb]
  · rw [map_find_map_modify_of_ne _ _ _ _ _ hp]
    simp [hp]

theorem pkgmap_leaves_insert (pm : pkgmap V P D) (hw : pkgmap_wellformed pm)
    (pair : pkgname V × pkgvars (pkgname V) P D)
    (hfresh : pkgmap_lookup pm pair.2.PKGPATH pair.2.PKGNAME.base pair.1 = none) :
    pkgmap_leaves (pkgmap_insert pm pair) = pkgmap_leaves pm + 1 := by
  have hb := pkgmap_bases_wellformed pm hw pair.2.PKGPATH
  unfold pkgmap_leaves pkgmap_insert
  refine sum_map_modify
    (fun (bases : List (pkgbase × summary (pkgname V) P D)) =>
      (bases.map (fun e' => e'.2.length)).sum)
    pair.2.PKGPATH
    (fun bases =>
      map_modify pair.2.PKGNAME.base (fun names => map_emplace pair.1 pair.2 names) [] bases)
    [] pm hw.1 (by simp) ?_
  refine sum_map_modify
    (fun (names : summary (pkgname V) P D) => names.length)
    pair.2.PKGNAME.base (fun names => map_emplace pair.1 pair.2 names) []
    ((map_find pair.2.PKGPATH pm).getD []) hb.1 (by simp) ?_
  exact length_map_emplace_of_none _ _ _ hfresh

/-- The state of the index after the records of a list without a repeated key have
been inserted one by one. -/
theorem pkgmap_foldl_invariant (S : summary (pkgname V) P D)
    (hs : (S.map Prod.fst).Nodup) :
    pkgmap_wellformed (S.foldl pkgmap_insert ([] : pkgmap V P D))
      ∧ (∀ p b n v, pkgmap_lookup (S.foldl pkgmap_insert ([] : pkgmap V P D)) p b n = some v
            ↔ (n, v) ∈ S ∧ p = v.PKGPATH ∧ b = v.PKGNAME.base)
      ∧ pkgmap_leaves (S.foldl pkgmap_insert ([] : pkgmap V P D)) = S.length := by
  induction S using List.reverseRecOn with
  | nil =>
    refine ⟨⟨List.sorted_nil, ?_⟩, ?_, rfl⟩
    · intro e he
      cases he
    · intro p b n v
      simp [pkgmap_lookup, map_find]
  | append_singleton S pair ih =>
    rw [List.map_append, List.nodup_append] at hs
    obtain ⟨hw, hl, hn⟩ := ih hs.1
    have hfresh : ∀ p b, pkgmap_lookup (S.foldl pkgmap_insert ([] : pkgmap V P D)) p b pair.1
        = none := by
      intro p b
      cases h : pkgmap_lookup (S.foldl pkgmap_insert ([] : pkgmap V P D)) p b pair.1 with
      | none => rfl
      | some v =>
        exfalso
        have hm := ((hl p b pair.1 v).mp h).1
        exact hs.2.2 (List.mem_map_of_mem Prod.fst hm) (by simp)
    rw [List.foldl_append, List.foldl_cons, List.foldl_nil]
    refine ⟨pkgmap_insert_wellformed _ hw pair, ?_, ?_⟩
    · intro p b n v
      rw [pkgmap_lookup_insert _ hw]
      by_cases hpb : p = pair.2.PKGPATH ∧ b = pair.2.PKGNAME.base
      · rw [if_pos hpb]
        by_cases hnn : n = pair.1
        · rw [hnn, map_find_map_emplace_of_none _ _ _ (hfresh p b)]
          constructor
          · intro hv
            have hv' : pair.2 = v := Option.some.inj hv
            subst hv'
            exact ⟨List.mem_append_right _ (by simp), hpb.1, hpb.2⟩
          · rintro ⟨hm, -, -⟩
            rcases List.mem_append.mp hm with hm | hm
            · exact absurd (List.mem_map_of_mem Prod.fst hm) (fun hk => hs.2.2 hk (by simp))
            · have : (pair.1, v) = pair := by simpa using hm
              rw [← this]
        · rw [map_find_map_emplace_of_ne _ _ _ _ hnn]
          have := hl p b n v
          unfold pkgmap_lookup at this
          rw [this]
          constructor
          · rintro ⟨hm, h1, h2⟩
            exact ⟨List.mem_append_left _ hm, h1, h2⟩
          · rintro ⟨hm, h1, h2⟩
            rcases List.mem_append.mp hm with hm | hm
            · exact ⟨hm, h1, h2⟩
            · have : (n, v) = pair := by simpa using hm
              exact absurd (congrArg Prod.fst this) hnn
      · rw [if_neg hpb, hl p b n v]
        constructor
        · rintro ⟨hm, h1, h2⟩
          exact ⟨List.mem_append_left _ hm, h1, h2⟩
        · rintro ⟨hm, h1, h2⟩
          rcases List.mem_append.mp hm with hm | hm
          · exact ⟨hm, h1, h2⟩
          · have : (n, v) = pair := by simpa using hm
            subst this
            exact absurd ⟨h1, h2⟩ hpb
    · rw [pkgmap_leaves_insert _ hw pair (hfresh _ _), hn]
      simp

end pkgmap_lemmas
section pkgmap_claim
variable {V P D : Type} [LinearOrder V] [LinearOrder P]

/-- C13: for every summary `S` (a `std::map`, so a list of records in strict key
order), the pkgmap built from `S` has the entry `pkgmap[p][b][n] = v` exactly when
`S` maps `n` to `v`, `p = v.PKGPATH` and `b = v.PKGNAME.base`. The maps of the
pkgmap are in key order at every level and no bucket is empty, every entry at the
innermost level is a record of `S` filed under its own path and base, and the number
of entries at the innermost level is the size of `S`. -/
theorem pkgmap_of_entries (S : summary (pkgname V) P D)
    (hS : (S.map Prod.fst).Sorted (· < ·)) :
    (∀ p b n v, pkgmap_lookup (pkgmap_of S) p b n = some v
        ↔ map_find n S = some v ∧ p = v.PKGPATH ∧ b = v.PKGNAME.base)
      ∧ pkgmap_wellformed (pkgmap_of S)
      ∧ (∀ e ∈ pkgmap_of S, ∀ e' ∈ e.2, ∀ x ∈ e'.2,
          map_find x.1 S = some x.2 ∧ e.1 = x.2.PKGPATH ∧ e'.1 = x.2.PKGNAME.base)
      ∧ pkgmap_leaves (pkgmap_of S) = S.length := by
  obtain ⟨hw, hl, hn⟩ := pkgmap_foldl_invariant S hS.nodup
  have hiff : ∀ p b n v, pkgmap_lookup (pkgmap_of S) p b n = some v
      ↔ map_find n S = some v ∧ p = v.PKGPATH ∧ b = v.PKGNAME.base := by
    intro p b n v
    unfold pkgmap_of
    rw [hl p b n v]
    constructor
    · rintro ⟨hm, h1, h2⟩
      exact ⟨map_find_of_mem hS hm, h1, h2⟩
    · rintro ⟨hm, h1, h2⟩
      exact ⟨mem_of_map_find hm, h1, h2⟩
  refine ⟨hiff, hw, ?_, hn⟩
  intro e he e' he' x hx
  have h1 : map_find e.1 (pkgmap_of S) = some e.2 := map_find_of_mem hw.1 he
  have hwe := hw.2 e he
  have h2 : map_find e'.1 e.2 = some e'.2 := map_find_of_mem hwe.1 he'
  have h3 : map_find x.1 e'.2 = some x.2 := map_find_of_mem (hwe.2.2 e' he').1 hx
  have h4 : pkgmap_lookup (pkgmap_of S) e.1 e'.1 x.1 = some x.2 := by
    unfold pkgmap_lookup
    rw [h1, Option.getD_some, h2, Option.getD_some, h3]
  exact (hiff _ _ _ _).mp h4

/-- The index of the sample summary: the hypothesis of `pkgmap_of_entries` holds of
it, and so does the conclusion. -/
theorem pkgmap_of_entries_witness :
    (sample_summary.map Prod.fst).Sorted (· < ·)
      ∧ ((∀ p b n v, pkgmap_lookup (pkgmap_of sample_summary) p b n = some v
            ↔ map_find n sample_summary = some v ∧ p = v.PKGPATH ∧ b = v.PKGNAME.base)
        ∧ pkgmap_wellformed (pkgmap_of sample_summary)
        ∧ (∀ e ∈ pkgmap_of sample_summary, ∀ e' ∈ e.2, ∀ x ∈ e'.2,
            map_find x.1 sample_summary = some x.2 ∧ e.1 = x.2.PKGPATH
              ∧ e'.1 = x.2.PKGNAME.base)
        ∧ pkgmap_leaves (pkgmap_of sample_summary) = sample_summary.length) :=
  ⟨by decide, pkgmap_of_entries sample_summary (by decide)⟩

end pkgmap_claim

/-! ## String algorithms: joining and splitting -/

theorem join_words_eq_intercalate (sep : Char) (ws : List Str) :
    join_words sep ws = List.intercalate [sep] ws := by
  induction ws with
  | nil => rfl
  | cons w ws ih =>
    cases ws with
    | nil => simp [join_words, List.intercalate]
    | cons w' ws =>
      rw [join_words, ih]
      simp [List.intercalate, List.intersperse]

theorem runs_from_append_separators (seps before u : Str) (h : ∀ c ∈ before, c ∈ seps) :
    runs_from seps [] (before ++ u) = runs_from seps [] u := by
  induction before with
  | nil => rfl
  | cons c cs ih =>
    rw [List.cons_append, runs_from]
    simp only [h c (List.mem_cons_self _ _), if_true]
    exact ih (fun x hx => h x (List.mem_cons_of_mem _ hx))

theorem runs_from_append_word (seps cur w u : Str) (h : ∀ c ∈ w, c ∉ seps) :
    runs_from seps cur (w ++ u) = runs_from seps (w.reverse ++ cur) u := by
  induction w generalizing cur with
  | nil => rfl
  | cons c cs ih =>
    rw [List.cons_append, runs_from]
    simp only [h c (List.mem_cons_self _ _), if_false]
    rw [ih (c :: cur) (fun x hx => h x (List.mem_cons_of_mem _ hx))]
    simp

theorem runs_from_word_separator (seps w u : Str) (c : Char) (hw : w ≠ [])
    (h : ∀ x ∈ w, x ∉ seps) (hc : c ∈ seps) :
    runs_from seps [] (w ++ c :: u) = w :: runs_from seps [] u := by
  rw [runs_from_append_word seps [] w (c :: u) h, runs_from]
  simp [hc, hw]

theorem runs_from_last_word (seps w after : Str) (hw : w ≠ [])
    (h : ∀ x ∈ w, x ∉ seps) (hafter : ∀ c ∈ after, c ∈ seps) :
    runs_from seps [] (w ++ after) = [w] := by
  cases after with
  | nil =>
    rw [runs_from_append_word seps [] w [] h, runs_from]
    simp [hw]
  | cons c cs =>
    rw [runs_from_word_separator seps w cs c hw h (hafter c (List.mem_cons_self _ _)),
      runs_from_of_separators seps cs (fun x hx => hafter x (List.mem_cons_of_mem _ hx))]

theorem runs_from_join_words (seps after : Str) (sep : Char) (ws : List Str)
    (hsep : sep ∈ seps) (hws : ∀ w ∈ ws, w ≠ [] ∧ ∀ c ∈ w, c ∉ seps)
    (hafter : ∀ c ∈ after, c ∈ seps) :
    runs_from seps [] (join_words sep ws ++ after) = ws := by
  induction ws with
  | nil => exact runs_from_of_separators seps after hafter
  | cons w ws ih =>
    have hw := hws w (List.mem_cons_self _ _)
    cases ws with
    | nil => exact runs_from_last_word seps w after hw.1 hw.2 hafter
    | cons w' ws =>
      rw [join_words, List.append_assoc, List.cons_append,
        runs_from_word_separator seps w _ sep hw.1 hw.2 hsep,
        ih (fun x hx => hws x (List.mem_cons_of_mem _ hx))]

/-- C21: the round trip between joining and splitting. For a separator set `seps` with
a character `sep` in it (so `seps` is not empty) and a list `ws` of non-empty strings
without a character of `seps`, the loop over `words` of the strings of `ws` joined by
`sep`, with any separator characters in front of the first and behind the last, ends
and yields `ws`, in order; so the maximal runs of that view are the strings of `ws`. -/
theorem words_of_joined_view (seps before after : Str) (sep : Char) (ws : List Str)
    (hsep : sep ∈ seps) (hws : ∀ w ∈ ws, w ≠ [] ∧ ∀ c ∈ w, c ∉ seps)
    (hbefore : ∀ c ∈ before, c ∈ seps) (hafter : ∀ c ∈ after, c ∈ seps) :
    word_iterator.collect ((joined_view before sep ws after).length + 1)
        (word_iterator.begin_iterator (joined_view before sep ws after) seps)
      = some ws
    ∧ maximal_runs (joined_view before sep ws after) seps = ws
    ∧ joined_view before sep ws after = before ++ List.intercalate [sep] ws ++ after := by
  have hruns : runs_from seps [] (joined_view before sep ws after) = ws := by
    unfold joined_view
    rw [List.append_assoc, runs_from_append_separators seps before _ hbefore]
    exact runs_from_join_words seps after sep ws hsep hws hafter
  refine ⟨?_, ?_, ?_⟩
  · have h := collect_seek (joined_view before sep ws after) seps
      ((joined_view before sep ws after).length + 1) 0 none (by omega)
    rw [List.drop_zero, hruns] at h
    exact h
  · rw [maximal_runs_eq_runs_from, hruns]
  · unfold joined_view
    rw [join_words_eq_intercalate]

/-- Three words joined by blanks, with blanks and a tab around them. -/
theorem words_of_joined_view_witness :
    ' ' ∈ " \t".toList
    ∧ (∀ w ∈ ["make".toList, "show-var".toList, "VARNAME=PKGNAME".toList],
        w ≠ [] ∧ ∀ c ∈ w, c ∉ " \t".toList)
    ∧ (∀ c ∈ "  ".toList, c ∈ " \t".toList)
    ∧ (∀ c ∈ "\t ".toList, c ∈ " \t".toList)
    ∧ joined_view "  ".toList ' '
        ["make".toList, "show-var".toList, "VARNAME=PKGNAME".toList] "\t ".toList
      = "  make show-var VARNAME=PKGNAME\t ".toList
    ∧ word_iterator.collect ("  make show-var VARNAME=PKGNAME\t ".toList.length + 1)
        (word_iterator.begin_iterator "  make show-var VARNAME=PKGNAME\t ".toList
          " \t".toList)
      = some ["make".toList, "show-var".toList, "VARNAME=PKGNAME".toList] :=
  ⟨by decide, by decide, by decide, by decide, by decide,
    (words_of_joined_view " \t".toList "  ".toList "\t ".toList ' '
      ["make".toList, "show-var".toList, "VARNAME=PKGNAME".toList]
      (by decide) (by decide) (by decide) (by decide)).1⟩

end pkgchkxx
